import Mathlib

/-!
# The message-queue sink of TiCDC (`cdc/sink/mq.go`)

A shallow embedding of `mqSink`: the producer routing (`writeToProducer`), the public
calls `EmitRowChangedEvents`, `FlushRowChangedEvents` and `EmitCheckpointTs`, the
per-partition worker loop `runWorker`, and the interleaving of one caller with the
`partitionNum` workers.

Conventions.
* A Go `error` is an `Option SinkError` (`none` is `nil`).
* The `uint64` timestamps are `Nat`: the code only compares and copies them.
* The variable `batchSize` (a Go `int` that counts the rows appended since the last
  `Build`, reset by every flush and so by every 500 ms tick) is a `Nat`, and so is the
  `int` that `Size()` returns.
* The collaborators the sink only consumes through an interface (`producer.Producer`,
  `codec.EventBatchEncoder`, `dispatcher.Dispatcher`, `filter.Filter`) are parameters:
  the encoder as a state machine over an arbitrary state type, the dispatcher and the
  filter as functions, the producer through the answers it gives to each call.
* Every blocking point of the code (a `select`, an atomic load, a producer call) is one
  event of the environment. A public call seen alone is run against a list of such events
  (`runCall`); the whole sink is a step function over labels (`step`), a trace being a list
  of labels. One goroutine calls the sink, one call at a time; the workers and the caller
  interleave in any order.
* The receiver channel of the notifier delivers on notifications and on its debounce
  ticks, and the caller re-checks every slot on each wake, so a wake of
  `FlushRowChangedEvents` can happen in any state; statistics and logging other than the
  warning of `writeToProducer` are left out.
* Fields marked as history (`batch`, `sizeBeforeLast`, `Sent.rows`, `emitted`, `returns`)
  record what happened and are never read by the code.
-/

namespace MqSink

/-- Raw bytes of a message key or value (`[]byte`). -/
abbrev Bytes := List Nat

/-- The non-nil errors that flow through the sink. -/
inductive SinkError
  /-- The error `ctx.Err()` of a cancelled context. -/
  | Canceled
  /-- The error `errors.New("Async broadcasts not supported")` of `writeToProducer`. -/
  | AsyncBroadcastsNotSupported
  /-- Any error returned by a method of the producer. -/
  | Producer (code : Nat)
  /-- Any error returned by a method of an encoder. -/
  | Encoder (code : Nat)
  deriving DecidableEq, Repr

/-- Modelled from the spec: `codec.EncoderResult` of the codec package, the sum type
`{NoOp, NeedAsyncWrite, NeedSyncWrite}` an encoder answers to an append with. -/
inductive EncoderResult
  | EncoderNoOperation
  | EncoderNeedAsyncWrite
  | EncoderNeedSyncWrite
  deriving DecidableEq, Repr

/-- Modelled from the spec: `model.TableName`, the `{schema, name}` pair of a row. -/
structure TableName where
  Schema : String
  Table : String
  deriving DecidableEq, Repr

/-- Modelled from the spec: `model.RowChangedEvent`, opaque to the sink but for `StartTs`
and `Table` (read by the filter) and `CommitTs` (what a resolved timestamp bounds). -/
structure RowChangedEvent where
  StartTs : Nat
  CommitTs : Nat
  Table : TableName
  deriving DecidableEq, Repr

/-- The calls the sink makes on `producer.Producer`. -/
inductive ProducerCall
  | SendMessage (key value : Bytes) (partition : Int)
  | SyncBroadcastMessage (key value : Bytes)
  | Flush
  deriving DecidableEq, Repr

/-- What the producer answers to the calls of one `writeToProducer`. -/
structure ProducerAnswers where
  SendMessage : Option SinkError
  SyncBroadcastMessage : Option SinkError
  Flush : Option SinkError
  deriving DecidableEq, Repr

/-- The interface `codec.EventBatchEncoder` over an encoder state `σ`. An append either
fails or gives the new state and an `EncoderResult`. -/
structure EventBatchEncoder (σ : Type) where
  AppendRowChangedEvent : σ → RowChangedEvent → Except SinkError (σ × EncoderResult)
  AppendResolvedEvent : σ → Nat → Except SinkError (σ × EncoderResult)
  Size : σ → Nat
  Build : σ → Bytes × Bytes

/-- The collaborators and constants of an `mqSink`: `partitionNum`, the dispatcher, the
DML filter and the encoder factory (`newEncoder` is the state of a fresh encoder). -/
structure mqSink (σ : Type) where
  partitionNum : Nat
  Dispatch : RowChangedEvent → Int
  ShouldIgnoreDMLEvent : Nat → String → String → Bool
  codec : EventBatchEncoder σ
  newEncoder : σ

/-- Outcome of `writeToProducer`: the producer calls made, in order, whether the
`log.Warn` line was reached, and the returned error. -/
structure WriteResult where
  calls : List ProducerCall
  warned : Bool
  err : Option SinkError
  deriving DecidableEq, Repr

/-- The method `mqSink.writeToProducer`, given the answers of the producer. -/
def writeToProducer (mqProducer : ProducerAnswers) (key value : Bytes)
    (op : EncoderResult) (partition : Int) : WriteResult :=
  match op with
  | .EncoderNeedAsyncWrite =>
    if partition ≥ 0 then
      ⟨[.SendMessage key value partition], false, mqProducer.SendMessage⟩
    else
      ⟨[], false, some .AsyncBroadcastsNotSupported⟩
  | .EncoderNeedSyncWrite =>
    if partition ≥ 0 then
      match mqProducer.SendMessage with
      | some err => ⟨[.SendMessage key value partition], false, some err⟩
      | none => ⟨[.SendMessage key value partition, .Flush], false, mqProducer.Flush⟩
    else
      ⟨[.SyncBroadcastMessage key value], false, mqProducer.SyncBroadcastMessage⟩
  | .EncoderNoOperation => ⟨[], true, none⟩

/-- The method `mqSink.EmitCheckpointTs`, given the answers of the producer. -/
def EmitCheckpointTs {σ : Type} (k : mqSink σ) (mqProducer : ProducerAnswers) (ts : Nat) :
    WriteResult :=
  match k.codec.AppendResolvedEvent k.newEncoder ts with
  | .error err => ⟨[], false, some err⟩
  | .ok (encoder, op) =>
    if op = .EncoderNoOperation then ⟨[], false, none⟩
    else writeToProducer mqProducer (k.codec.Build encoder).1 (k.codec.Build encoder).2 op (-1)

/-! ## The partition worker (`runWorker`) -/

/-- The element type of a partition channel, the anonymous struct
`{row *model.RowChangedEvent; resolvedTs uint64}`: a row item has `row` set, a barrier
has `row = nil` and carries `resolvedTs`. -/
structure Item where
  row : Option RowChangedEvent
  resolvedTs : Nat
  deriving DecidableEq, Repr

/-- The item `EmitRowChangedEvents` sends: `{row: row}`. -/
def Item.Row (row : RowChangedEvent) : Item := ⟨some row, 0⟩

/-- The item `FlushRowChangedEvents` sends: `{resolvedTs: resolvedTs}`. -/
def Item.Barrier (resolvedTs : Nat) : Item := ⟨none, resolvedTs⟩

/-- The constant `batchSizeLimit`, 4MB. -/
def batchSizeLimit : Nat := 4 * 1024 * 1024

/-- The local variables of `runWorker`. `encoder` and `batchSize` are the variables of the
code; `batch` (the rows appended to `encoder` since it was created) and `sizeBeforeLast`
(`encoder.Size()` just before the most recent append) are history kept for the statements;
`returned` is the error `runWorker` returned with, `none` while the loop runs. -/
structure Worker (σ : Type) where
  encoder : σ
  batchSize : Nat
  batch : List RowChangedEvent
  sizeBeforeLast : Nat
  returned : Option SinkError

/-- One call of `encoder.Build()`: the rows the encoder held, its `Size()` before the last
of them was appended, and the message it gave. -/
structure Built where
  rows : List RowChangedEvent
  sizeBeforeLast : Nat
  key : Bytes
  value : Bytes
  deriving DecidableEq, Repr

/-- What one iteration of the worker loop does to the outside: the `Build` call if any, the
outcome of `writeToProducer` if it was called, the value stored into
`partitionResolvedTs[partition]` if any, and whether `resolvedNotifier.Notify()` was
called. The order within an iteration is fixed by the code: build, write, store, notify. -/
structure WorkerOut where
  built : Option Built
  write : Option WriteResult
  store : Option Nat
  notified : Bool
  deriving DecidableEq, Repr

/-- An iteration without outside effect. -/
def WorkerOut.none : WorkerOut := ⟨Option.none, Option.none, Option.none, false⟩

/-- The closure `flushToProducer` of `runWorker` (`RecordBatchExecution` only times the
call and passes its error through). -/
def flushToProducer {σ : Type} (k : mqSink σ) (partition : Nat) (mqProducer : ProducerAnswers)
    (op : EncoderResult) (w : Worker σ) : Worker σ × WorkerOut :=
  if w.batchSize = 0 then (w, WorkerOut.none)
  else
    let key := (k.codec.Build w.encoder).1
    let value := (k.codec.Build w.encoder).2
    ({ w with encoder := k.newEncoder, batchSize := 0, batch := [] },
     ⟨some ⟨w.batch, w.sizeBeforeLast, key, value⟩,
      some (writeToProducer mqProducer key value op partition), Option.none, false⟩)

/-- The error of a flush, `nil` when nothing was written. -/
def WorkerOut.err (o : WorkerOut) : Option SinkError :=
  match o.write with
  | some r => r.err
  | Option.none => Option.none

/-- The statement `if err := flushToProducer(op); err != nil { return errors.Trace(err) }`. -/
def flushOrReturn {σ : Type} (k : mqSink σ) (partition : Nat) (mqProducer : ProducerAnswers)
    (op : EncoderResult) (w : Worker σ) : Worker σ × WorkerOut :=
  let r := flushToProducer k partition mqProducer op w
  match r.2.err with
  | some err => ({ r.1 with returned := some err }, r.2)
  | Option.none => r

/-- What the `select` of the worker loop takes. -/
inductive WorkerInput
  /-- The case `<-ctx.Done()`. -/
  | ctxDone
  /-- The case `<-tick.C`. -/
  | tick
  /-- The case `e = <-input`. -/
  | recv (e : Item)
  deriving DecidableEq, Repr

/-- One iteration of the `for` loop of `runWorker`, for the given outcome of its `select`
and the given answers of the producer. -/
def workerStep {σ : Type} (k : mqSink σ) (partition : Nat) (mqProducer : ProducerAnswers)
    (inp : WorkerInput) (w : Worker σ) : Worker σ × WorkerOut :=
  match inp with
  | .ctxDone => ({ w with returned := some .Canceled }, WorkerOut.none)
  | .tick => flushOrReturn k partition mqProducer .EncoderNeedAsyncWrite w
  | .recv e =>
    match e.row with
    | Option.none =>
      if e.resolvedTs ≠ 0 then
        let r := flushOrReturn k partition mqProducer .EncoderNeedAsyncWrite w
        match r.1.returned with
        | some _ => r
        | Option.none => (r.1, { r.2 with store := some e.resolvedTs, notified := true })
      else (w, WorkerOut.none)
    | some row =>
      match k.codec.AppendRowChangedEvent w.encoder row with
      | .error err => ({ w with returned := some err }, WorkerOut.none)
      | .ok (encoder, op) =>
        let w1 : Worker σ :=
          { w with encoder := encoder, batchSize := w.batchSize + 1,
                   batch := w.batch ++ [row], sizeBeforeLast := k.codec.Size w.encoder }
        if k.codec.Size encoder ≥ batchSizeLimit then
          flushOrReturn k partition mqProducer .EncoderNeedAsyncWrite w1
        else if op = .EncoderNeedSyncWrite ∨ op = .EncoderNeedAsyncWrite then
          flushOrReturn k partition mqProducer op w1
        else (w1, WorkerOut.none)

/-- The worker as `runWorker` starts it: a fresh encoder and `batchSize := 0`. -/
def Worker.init {σ : Type} (k : mqSink σ) : Worker σ :=
  ⟨k.newEncoder, 0, [], 0, Option.none⟩

/-- A worker seen alone: its local variables, its slot `partitionResolvedTs[partition]`,
the number of `Notify()` calls it made, and the effects of its iterations so far. -/
structure WorkerRun (σ : Type) where
  worker : Worker σ
  partitionResolvedTs : Nat
  notifications : Nat
  outs : List WorkerOut

/-- The run of a worker before its first iteration. -/
def WorkerRun.init {σ : Type} (k : mqSink σ) : WorkerRun σ :=
  ⟨Worker.init k, 0, 0, []⟩

/-- One more iteration of a worker seen alone; nothing happens once it has returned. -/
def WorkerRun.next {σ : Type} (k : mqSink σ) (partition : Nat) (r : WorkerRun σ)
    (inp : WorkerInput × ProducerAnswers) : WorkerRun σ :=
  match r.worker.returned with
  | some _ => r
  | Option.none =>
    let x := workerStep k partition inp.2 inp.1 r.worker
    { worker := x.1,
      partitionResolvedTs := x.2.store.getD r.partitionResolvedTs,
      notifications := if x.2.notified then r.notifications + 1 else r.notifications,
      outs := r.outs ++ [x.2] }

/-- The function `runWorker` over a finite sequence of `select` outcomes and producer
answers. -/
def runWorker {σ : Type} (k : mqSink σ) (partition : Nat)
    (inputs : List (WorkerInput × ProducerAnswers)) : WorkerRun σ :=
  inputs.foldl (WorkerRun.next k partition) (WorkerRun.init k)

/-! ## The public calls `EmitRowChangedEvents` and `FlushRowChangedEvents` -/

/-- A completed public call: its arguments and what it returned. -/
inductive Return
  | EmitRowChangedEvents (rows : List RowChangedEvent) (err : Option SinkError)
  | FlushRowChangedEvents (resolvedTs : Nat) (ts : Nat) (err : Option SinkError)
  deriving DecidableEq, Repr

/-- Where the goroutine that calls the sink stands: outside a call, at one of the blocking
points of a call, or stopped by a runtime panic. -/
inductive Caller
  | idle
  /-- In the `select` of `EmitRowChangedEvents(rows...)` for `row`, with `rest` to follow. -/
  | emitSelect (rows : List RowChangedEvent) (row : RowChangedEvent)
      (rest : List RowChangedEvent)
  /-- In the `select` of the barrier loop of `FlushRowChangedEvents`, at index `i`. -/
  | flushEnqueue (resolvedTs : Nat) (i : Nat)
  /-- In the `select` of `flushLoop`. -/
  | flushWait (resolvedTs : Nat)
  /-- Before `atomic.LoadUint64(&k.partitionResolvedTs[i])` in `flushLoop`. -/
  | flushLoad (resolvedTs : Nat) (i : Nat)
  /-- In `k.mqProducer.Flush(ctx)`. -/
  | flushProducer (resolvedTs : Nat)
  /-- After an index-out-of-range panic on `k.partitionInput[partition]`. -/
  | panicked
  deriving DecidableEq, Repr

/-- The `for _, row := range rows` loop of `EmitRowChangedEvents` from the rows still to
do up to its next `select`, or to its return (`AddRowsCount` is statistics only). -/
def emitLoop {σ : Type} (k : mqSink σ) (rows : List RowChangedEvent) :
    List RowChangedEvent → Caller × Option Return
  | [] => (.idle, some (.EmitRowChangedEvents rows none))
  | row :: rest =>
    if k.ShouldIgnoreDMLEvent row.StartTs row.Table.Schema row.Table.Table then
      emitLoop k rows rest
    else if 0 ≤ k.Dispatch row ∧ k.Dispatch row < k.partitionNum then
      (.emitSelect rows row rest, none)
    else (.panicked, none)

/-- The barrier loop `for i := 0; i < int(k.partitionNum); i++` at index `i`. -/
def flushEnqueueFrom {σ : Type} (k : mqSink σ) (resolvedTs i : Nat) : Caller :=
  if i < k.partitionNum then .flushEnqueue resolvedTs i else .flushWait resolvedTs

/-- The check loop of `flushLoop` at index `i`; past the last index it breaks out of
`flushLoop`, to `k.mqProducer.Flush(ctx)`. -/
def flushLoadFrom {σ : Type} (k : mqSink σ) (resolvedTs i : Nat) : Caller :=
  if i < k.partitionNum then .flushLoad resolvedTs i else .flushProducer resolvedTs

/-- Entry of `FlushRowChangedEvents(ctx, resolvedTs)`. -/
def flushEntry {σ : Type} (k : mqSink σ) (checkpointTs resolvedTs : Nat) :
    Caller × Option Return :=
  if resolvedTs ≤ checkpointTs then
    (.idle, some (.FlushRowChangedEvents resolvedTs checkpointTs none))
  else (flushEnqueueFrom k resolvedTs 0, none)

/-- What happens at a blocking point of the caller. -/
inductive CallerEvent
  /-- The `select` takes `<-ctx.Done()`. -/
  | ctxDone
  /-- The `select` takes the send on the partition channel. -/
  | chanSend
  /-- The `select` takes `<-k.resolvedReceiver.C`. -/
  | wake
  /-- The call `atomic.LoadUint64` gives `v`. -/
  | load (v : Nat)
  /-- The call `k.mqProducer.Flush(ctx)` returns `err`. -/
  | producerFlush (err : Option SinkError)
  deriving DecidableEq, Repr

/-- What the caller does to the outside in one step. -/
inductive CallerEffect
  | send (partition : Nat) (e : Item)
  | call (c : ProducerCall)
  deriving DecidableEq, Repr

/-- Result of one step of the caller. -/
structure CallerStep where
  pc : Caller
  checkpointTs : Nat
  effect : Option CallerEffect
  ret : Option Return
  deriving DecidableEq, Repr

/-- The code of `EmitRowChangedEvents` and `FlushRowChangedEvents` from one blocking point
to the next; `none` when the event is not one the code waits for there. -/
def callerStep {σ : Type} (k : mqSink σ) (ev : CallerEvent) (pc : Caller) (checkpointTs : Nat) :
    Option CallerStep :=
  match pc, ev with
  | .emitSelect rows _ _, .ctxDone =>
    some ⟨.idle, checkpointTs, none, some (.EmitRowChangedEvents rows (some .Canceled))⟩
  | .emitSelect rows row rest, .chanSend =>
    some ⟨(emitLoop k rows rest).1, checkpointTs,
          some (.send (k.Dispatch row).toNat (Item.Row row)), (emitLoop k rows rest).2⟩
  | .flushEnqueue resolvedTs _, .ctxDone =>
    some ⟨.idle, checkpointTs, none, some (.FlushRowChangedEvents resolvedTs 0 (some .Canceled))⟩
  | .flushEnqueue resolvedTs i, .chanSend =>
    some ⟨flushEnqueueFrom k resolvedTs (i + 1), checkpointTs,
          some (.send i (Item.Barrier resolvedTs)), none⟩
  | .flushWait resolvedTs, .ctxDone =>
    some ⟨.idle, checkpointTs, none, some (.FlushRowChangedEvents resolvedTs 0 (some .Canceled))⟩
  | .flushWait resolvedTs, .wake =>
    some ⟨flushLoadFrom k resolvedTs 0, checkpointTs, none, none⟩
  | .flushLoad resolvedTs i, .load v =>
    if resolvedTs > v then some ⟨.flushWait resolvedTs, checkpointTs, none, none⟩
    else some ⟨flushLoadFrom k resolvedTs (i + 1), checkpointTs, none, none⟩
  | .flushProducer resolvedTs, .producerFlush (some err) =>
    some ⟨.idle, checkpointTs, some (.call .Flush),
          some (.FlushRowChangedEvents resolvedTs 0 (some err))⟩
  | .flushProducer resolvedTs, .producerFlush none =>
    some ⟨.idle, resolvedTs, some (.call .Flush),
          some (.FlushRowChangedEvents resolvedTs resolvedTs none)⟩
  | _, _ => none

/-- A public call seen alone: where it stands, the field `checkpointTs`, what it did to the
outside so far, its return value once it has returned, and the events left over. -/
structure CallRun where
  pc : Caller
  checkpointTs : Nat
  effects : List CallerEffect
  ret : Option Return
  rest : List CallerEvent
  deriving DecidableEq, Repr

/-- Run a call against the events of its environment, up to the first event the code does
not wait for (after the return no event is waited for); the events from there on are left
over. -/
def runCall {σ : Type} (k : mqSink σ) : List CallerEvent → CallRun → CallRun
  | [], r => { r with rest := [] }
  | ev :: evs, r =>
    match callerStep k ev r.pc r.checkpointTs with
    | none => { r with rest := ev :: evs }
    | some st =>
      runCall k evs ⟨st.pc, st.checkpointTs, r.effects ++ st.effect.toList, st.ret, []⟩

/-- The call `mqSink.EmitRowChangedEvents(ctx, rows...)` on a sink whose field `checkpointTs` is
`checkpointTs`, against the events `evs`. -/
def EmitRowChangedEvents {σ : Type} (k : mqSink σ) (checkpointTs : Nat)
    (rows : List RowChangedEvent) (evs : List CallerEvent) : CallRun :=
  runCall k evs ⟨(emitLoop k rows rows).1, checkpointTs, [], (emitLoop k rows rows).2, []⟩

/-- The call `mqSink.FlushRowChangedEvents(ctx, resolvedTs)` on a sink whose field
`checkpointTs` is
`checkpointTs`, against the events `evs`. -/
def FlushRowChangedEvents {σ : Type} (k : mqSink σ) (checkpointTs : Nat)
    (resolvedTs : Nat) (evs : List CallerEvent) : CallRun :=
  runCall k evs ⟨(flushEntry k checkpointTs resolvedTs).1, checkpointTs, [],
    (flushEntry k checkpointTs resolvedTs).2, []⟩

/-! ## The sink: one caller and `partitionNum` workers -/

/-- Capacity of each partition channel (`make(chan ..., 12800)`). -/
def partitionInputCap : Nat := 12800

/-- A producer call as the producer saw it, with the rows of the batch its message was
built from (`rows` is history; it is `[]` for the `Flush` of `FlushRowChangedEvents`). -/
structure Sent where
  call : ProducerCall
  rows : List RowChangedEvent
  deriving DecidableEq, Repr

/-- The producer calls of one worker iteration. -/
def WorkerOut.sent (o : WorkerOut) : List Sent :=
  match o.write with
  | some r => r.calls.map fun c => ⟨c, (o.built.map Built.rows).getD []⟩
  | Option.none => []

/-- The state of a running sink. `partitionInput p` is the content of channel `p`, oldest
item first; `producerLog` lists the calls made on the producer, oldest first; `emitted`
(the rows `EmitRowChangedEvents` sent on a channel so far) and `returns` (the public calls
completed so far, oldest first) are history. Only indices below `partitionNum` are used. -/
structure State (σ : Type) where
  partitionInput : Nat → List Item
  partitionResolvedTs : Nat → Nat
  checkpointTs : Nat
  workers : Nat → Worker σ
  caller : Caller
  producerLog : List Sent
  notifications : Nat
  emitted : List RowChangedEvent
  returns : List Return

/-- The sink as `newMqSink` leaves it. -/
def State.init {σ : Type} (k : mqSink σ) : State σ :=
  { partitionInput := fun _ => [], partitionResolvedTs := fun _ => 0, checkpointTs := 0,
    workers := fun _ => Worker.init k, caller := .idle, producerLog := [],
    notifications := 0, emitted := [], returns := [] }

/-- One atomic step of the sink: the caller starts a call, the caller passes a blocking
point, or a worker runs one iteration. -/
inductive Label
  | EmitRowChangedEvents (rows : List RowChangedEvent)
  | FlushRowChangedEvents (resolvedTs : Nat)
  | caller (ev : CallerEvent)
  | worker (partition : Nat) (inp : WorkerInput) (mqProducer : ProducerAnswers)
  deriving DecidableEq, Repr

/-- Whether the event can happen in this state: a send needs room in the channel, a load
gives the value the slot holds; a cancellation, a wake of the receiver (which also
delivers on its debounce ticks) and a return of the producer can always happen. -/
def eventEnabled {σ : Type} (k : mqSink σ) (s : State σ) : CallerEvent → Bool
  | .chanSend =>
    match s.caller with
    | .emitSelect _ row _ =>
      decide ((s.partitionInput (k.Dispatch row).toNat).length < partitionInputCap)
    | .flushEnqueue _ i => decide ((s.partitionInput i).length < partitionInputCap)
    | _ => false
  | .load v =>
    match s.caller with
    | .flushLoad _ i => decide (v = s.partitionResolvedTs i)
    | _ => false
  | _ => true

/-- Apply the effect of a caller step to the shared state. -/
def applyEffect {σ : Type} (eff : Option CallerEffect) (s : State σ) : State σ :=
  match eff with
  | none => s
  | some (.send p e) =>
    { s with partitionInput := Function.update s.partitionInput p (s.partitionInput p ++ [e]),
             emitted := s.emitted ++ e.row.toList }
  | some (.call c) => { s with producerLog := s.producerLog ++ [⟨c, []⟩] }

/-- Apply a caller step to the state. -/
def applyCaller {σ : Type} (st : CallerStep) (s : State σ) : State σ :=
  applyEffect st.effect
    { s with caller := st.pc, checkpointTs := st.checkpointTs,
             returns := s.returns ++ st.ret.toList }

/-- Apply a worker iteration of partition `p` to the state. -/
def applyWorker {σ : Type} (p : Nat) (x : Worker σ × WorkerOut) (s : State σ) : State σ :=
  { s with workers := Function.update s.workers p x.1,
           producerLog := s.producerLog ++ x.2.sent,
           partitionResolvedTs :=
             match x.2.store with
             | some ts => Function.update s.partitionResolvedTs p ts
             | Option.none => s.partitionResolvedTs,
           notifications := if x.2.notified then s.notifications + 1 else s.notifications }

/-- The step function of the sink. A label that cannot happen in the state (a call while
another is running, an event the caller does not wait for, an iteration of a worker that
has returned or a receive of an item that is not at the head of the channel) leaves the
state as it is; after a panic nothing happens any more. -/
def step {σ : Type} (k : mqSink σ) (l : Label) (s : State σ) : State σ :=
  if s.caller = .panicked then s
  else
    match l with
    | .EmitRowChangedEvents rows =>
      if s.caller = .idle then
        { s with caller := (emitLoop k rows rows).1,
                 returns := s.returns ++ (emitLoop k rows rows).2.toList }
      else s
    | .FlushRowChangedEvents resolvedTs =>
      if s.caller = .idle then
        { s with caller := (flushEntry k s.checkpointTs resolvedTs).1,
                 returns := s.returns ++ (flushEntry k s.checkpointTs resolvedTs).2.toList }
      else s
    | .caller ev =>
      if eventEnabled k s ev then
        match callerStep k ev s.caller s.checkpointTs with
        | none => s
        | some st => applyCaller st s
      else s
    | .worker p inp mqProducer =>
      if p < k.partitionNum ∧ (s.workers p).returned = none then
        match inp with
        | .recv e =>
          match s.partitionInput p with
          | [] => s
          | e' :: rest =>
            if e' = e then
              applyWorker p (workerStep k p mqProducer inp (s.workers p))
                { s with partitionInput := Function.update s.partitionInput p rest }
            else s
        | _ => applyWorker p (workerStep k p mqProducer inp (s.workers p)) s
      else s

/-- The state after a sequence of steps. -/
def run {σ : Type} (k : mqSink σ) (ls : List Label) (s : State σ) : State σ :=
  ls.foldl (fun s l => step k l s) s


/-! ## Readings of the state used by the statements -/

/-- The `resolvedTs` argument of the `FlushRowChangedEvents` call in flight, if any. -/
def Caller.flushing : Caller → Option Nat
  | .flushEnqueue resolvedTs _ => some resolvedTs
  | .flushWait resolvedTs => some resolvedTs
  | .flushLoad resolvedTs _ => some resolvedTs
  | .flushProducer resolvedTs => some resolvedTs
  | _ => none

/-- The timestamp a completed call returned, for a `FlushRowChangedEvents` that returned
without error. -/
def Return.okFlush : Return → Option Nat
  | .FlushRowChangedEvents _ ts none => some ts
  | _ => none

/-- The timestamps returned without error by the completed `FlushRowChangedEvents` calls,
in call order. -/
def okFlushes (returns : List Return) : List Nat :=
  returns.filterMap Return.okFlush

/-- Invariant behind the monotonicity of `checkpointTs`: a flush in flight aims above
`checkpointTs`, and the timestamps returned so far are non-decreasing and at most
`checkpointTs`. -/
def CheckpointInv {σ : Type} (s : State σ) : Prop :=
  (∀ resolvedTs, s.caller.flushing = some resolvedTs → s.checkpointTs < resolvedTs) ∧
  (∀ v ∈ okFlushes s.returns, v ≤ s.checkpointTs) ∧
  (okFlushes s.returns).Pairwise (· ≤ ·)

/-! ## Shapes of a run of `FlushRowChangedEvents` -/

/-- The blocking points of `FlushRowChangedEvents(ctx, resolvedTs)` past its entry. -/
def FlushPhase {σ : Type} (k : mqSink σ) (resolvedTs : Nat) : Caller → Prop
  | .flushEnqueue t i => t = resolvedTs ∧ i < k.partitionNum
  | .flushWait t => t = resolvedTs
  | .flushLoad t i => t = resolvedTs ∧ i < k.partitionNum
  | .flushProducer t => t = resolvedTs
  | _ => False

/-- The barrier sends still to be done from a blocking point of the barrier loop. -/
def sendsFrom {σ : Type} (k : mqSink σ) : Caller → List CallerEffect
  | .flushEnqueue t i =>
    (List.range' i (k.partitionNum - i)).map fun p => .send p (Item.Barrier t)
  | _ => []

/-- The events `evs` are `n` loads that all give at least `resolvedTs`, then a return of
`k.mqProducer.Flush` without error, then `rest`. -/
def LoadsThenFlush (n resolvedTs : Nat) (evs rest : List CallerEvent) : Prop :=
  ∃ loads : List Nat, evs = loads.map .load ++ .producerFlush none :: rest ∧
    loads.length = n ∧ ∀ v ∈ loads, resolvedTs ≤ v

/-- The events `evs` end, before `rest`, with a wake of the receiver followed by a load of
each of the `n` slots that gives at least `resolvedTs` and by a return of
`k.mqProducer.Flush` without error. -/
def LastPass (n resolvedTs : Nat) (evs rest : List CallerEvent) : Prop :=
  ∃ pre : List CallerEvent, ∃ tl, evs = pre ++ .wake :: tl ∧ LoadsThenFlush n resolvedTs tl rest

/-- What the events of a successful flush look like from a given blocking point. -/
def SuccessShape {σ : Type} (k : mqSink σ) (resolvedTs : Nat) (pc : Caller)
    (evs rest : List CallerEvent) : Prop :=
  match pc with
  | .flushProducer _ => LoadsThenFlush 0 resolvedTs evs rest
  | .flushLoad _ i =>
    LoadsThenFlush (k.partitionNum - i) resolvedTs evs rest ∨
      LastPass k.partitionNum resolvedTs evs rest
  | _ => LastPass k.partitionNum resolvedTs evs rest

/-- The three outcomes of running a flush from a blocking point: still blocked, returned
with an error, returned without error. -/
def FlushOutcome {σ : Type} (k : mqSink σ) (c resolvedTs : Nat) (pc : Caller)
    (effs : List CallerEffect) (evs : List CallerEvent) (r : CallRun) : Prop :=
  (r.ret = none ∧ r.checkpointTs = c ∧ FlushPhase k resolvedTs r.pc) ∨
  (∃ err, r.ret = some (.FlushRowChangedEvents resolvedTs 0 (some err)) ∧
      r.checkpointTs = c ∧ r.pc = .idle ∧
      ∃ pre, (evs = pre ++ .ctxDone :: r.rest ∧ err = .Canceled) ∨
        evs = pre ++ .producerFlush (some err) :: r.rest) ∨
  (r.ret = some (.FlushRowChangedEvents resolvedTs resolvedTs none) ∧
      r.checkpointTs = resolvedTs ∧ r.pc = .idle ∧ SuccessShape k resolvedTs pc evs r.rest ∧
      r.effects = effs ++ sendsFrom k pc ++ [.call .Flush])

/-- The rows of a call that the filter does not ignore, in input order. -/
def keptRows {σ : Type} (k : mqSink σ) (rows : List RowChangedEvent) : List RowChangedEvent :=
  rows.filter fun row => !k.ShouldIgnoreDMLEvent row.StartTs row.Table.Schema row.Table.Table

/-- The items a call sent on the channel of partition `p`, in order. -/
def sentOn (p : Nat) (effects : List CallerEffect) : List Item :=
  effects.filterMap fun
    | .send q e => if q = p then some e else none
    | .call _ => none

/-! ## Readings of a worker run -/

/-- The rows among the items a worker received, in order. -/
def receivedRows (inputs : List (WorkerInput × ProducerAnswers)) : List RowChangedEvent :=
  inputs.filterMap fun inp =>
    match inp.1 with
    | .recv e => e.row
    | _ => none

/-- In the iteration `o`, `row` was in the batch that was built and passed to
`writeToProducer` for partition `p`. -/
def Wrote (p : Nat) (row : RowChangedEvent) (o : WorkerOut) : Prop :=
  ∃ b mqProducer op, o.built = some b ∧ row ∈ b.rows ∧
    o.write = some (writeToProducer mqProducer b.key b.value op p)

/-- Invariant of the worker loop on its batch: `batchSize` counts the rows of the encoder,
an encoder without rows is a fresh one, and an encoder with rows had a `Size()` below the
limit before its last row and has one below the limit now. -/
def BatchInv {σ : Type} (k : mqSink σ) (w : Worker σ) : Prop :=
  w.batchSize = w.batch.length ∧
  (w.batchSize = 0 → w.encoder = k.newEncoder) ∧
  (w.batchSize ≠ 0 →
    k.codec.Size w.encoder < batchSizeLimit ∧ w.sizeBeforeLast < batchSizeLimit)

/-- The row a `select` outcome brings, if any. -/
def WorkerInput.row : WorkerInput → Option RowChangedEvent
  | .recv e => e.row
  | _ => none

/-! ## Readings of the sink state -/

/-- The rows among the items of a channel, oldest first. -/
def rowsOf (items : List Item) : List RowChangedEvent :=
  items.filterMap Item.row

/-- The timestamps of the barriers among the items of a channel, oldest first: the items
without a row and with a non-zero `resolvedTs`, those on which the worker stores. -/
def barriersOf (items : List Item) : List Nat :=
  items.filterMap fun e => if e.row = none ∧ e.resolvedTs ≠ 0 then some e.resolvedTs else none

/-- The rows of the batches handed to `SendMessage` on partition `p`, in the order the
producer saw them. -/
def sentRows (p : Nat) (log : List Sent) : List RowChangedEvent :=
  log.flatMap fun x =>
    match x.call with
    | .SendMessage _ _ q => if q = (p : Int) then x.rows else []
    | _ => []

/-- The rows `EmitRowChangedEvents` sent on the channel of partition `p`, in order. -/
def emittedOn {σ : Type} (k : mqSink σ) (p : Nat) (emitted : List RowChangedEvent) :
    List RowChangedEvent :=
  emitted.filter fun row => decide (k.Dispatch row = (p : Int))

/-- The rows, not ignored by the filter, of the `EmitRowChangedEvents` calls that returned
`nil`, in call order. -/
def acceptedRows {σ : Type} (k : mqSink σ) (returns : List Return) : List RowChangedEvent :=
  returns.flatMap fun
    | .EmitRowChangedEvents rows none => keptRows k rows
    | _ => []

/-- The `resolvedTs` arguments of the `FlushRowChangedEvents` labels of a trace, in order. -/
def flushTargets (ls : List Label) : List Nat :=
  ls.filterMap fun
    | .FlushRowChangedEvents resolvedTs => some resolvedTs
    | _ => none

/-- The upstream contract on a trace, given that no flush so far aimed above `g`: every
row passed to `EmitRowChangedEvents` has a `CommitTs` above `g` and above the `resolvedTs`
of every `FlushRowChangedEvents` called before. On a fresh sink `g` is `0`, the initial
`checkpointTs`. -/
def Disciplined : Nat → List Label → Prop
  | _, [] => True
  | g, .EmitRowChangedEvents rows :: ls => (∀ row ∈ rows, g < row.CommitTs) ∧ Disciplined g ls
  | g, .FlushRowChangedEvents resolvedTs :: ls => Disciplined (max g resolvedTs) ls
  | g, _ :: ls => Disciplined g ls

/-- On partition `p`, what was handed to `SendMessage` is a prefix of what was emitted, and
every emitted row not yet handed over has a `CommitTs` above `ts`. -/
def Covered {σ : Type} (k : mqSink σ) (p ts : Nat) (s : State σ) : Prop :=
  ∃ rest, emittedOn k p s.emitted = sentRows p s.producerLog ++ rest ∧
    ∀ row ∈ rest, ts < row.CommitTs

/-- Invariant behind the monotonicity of the slots when no flush aims below an earlier
one, `g` being the `resolvedTs` of the last flush started (`0` before the first): in each
partition the slot and the barriers still in the channel are in non-decreasing order and at
most `g`, and a flush in flight aims at `g`. -/
def ResolvedInv {σ : Type} (g : Nat) (s : State σ) : Prop :=
  (∀ p, (s.partitionResolvedTs p :: barriersOf (s.partitionInput p)).Pairwise (· ≤ ·)) ∧
  (∀ p, s.partitionResolvedTs p ≤ g) ∧
  (∀ p, ∀ v ∈ barriersOf (s.partitionInput p), v ≤ g) ∧
  (∀ t, s.caller.flushing = some t → t = g)

/-- Order of a channel under the upstream contract: a row that follows a barrier in the
channel has a `CommitTs` above the barrier's timestamp. -/
def BarrierBefore (a b : Item) : Prop :=
  ∀ v ∈ barriersOf [a], ∀ row ∈ rowsOf [b], v < row.CommitTs

/-- No slot, no barrier in a channel, not `checkpointTs` and no flush in flight is above
`g`. -/
def Bounded {σ : Type} (s : State σ) (g : Nat) : Prop :=
  (∀ p, s.partitionResolvedTs p ≤ g) ∧
  (∀ p, ∀ v ∈ barriersOf (s.partitionInput p), v ≤ g) ∧
  s.checkpointTs ≤ g ∧
  (∀ t, s.caller.flushing = some t → t ≤ g)

/-- Invariant behind barrier completeness, on a trace that keeps the upstream contract,
`g` bounding the `resolvedTs` of the flushes called so far. -/
structure FlowInv {σ : Type} (k : mqSink σ) (g : Nat) (s : State σ) : Prop where
  /-- Every emitted row with a `CommitTs` up to the slot of its partition was handed to
  `SendMessage`. -/
  covered : ∀ p, Covered k p (s.partitionResolvedTs p) s
  /-- While worker `p` runs, the rows emitted on `p` are, in order, those handed to
  `SendMessage`, those in the worker's encoder and those in the channel. -/
  conserve : ∀ p, (s.workers p).returned = none →
    emittedOn k p s.emitted
      = sentRows p s.producerLog ++ ((s.workers p).batch ++ rowsOf (s.partitionInput p))
  counted : ∀ p, (s.workers p).batchSize = (s.workers p).batch.length
  ordered : ∀ p, (s.partitionInput p).Pairwise BarrierBefore
  bounded : Bounded s g
  /-- The rows an `EmitRowChangedEvents` in flight has still to send are above every slot
  and barrier, and the row it is sending is kept by the filter and has a partition. -/
  inflight : ∀ rows row rest, s.caller = .emitSelect rows row rest →
    (k.ShouldIgnoreDMLEvent row.StartTs row.Table.Schema row.Table.Table = false ∧
        0 ≤ k.Dispatch row ∧ k.Dispatch row < k.partitionNum) ∧
      ∃ g0, Bounded s g0 ∧ ∀ r ∈ row :: rest, g0 < r.CommitTs
  /-- The rows of the calls that returned `nil`, followed by the rows the call in flight
  has sent, are among the emitted rows, in order. -/
  accepted : ∃ done, (acceptedRows k s.returns ++ done).Sublist s.emitted ∧
    ∀ rows row rest, s.caller = .emitSelect rows row rest →
      keptRows k rows = done ++ keptRows k (row :: rest)
  checkpoint : ∀ p, p < k.partitionNum → Covered k p s.checkpointTs s
  loaded : ∀ t i, s.caller = .flushLoad t i → ∀ p, p < i → Covered k p t s
  flushed : ∀ t, s.caller = .flushProducer t → ∀ p, p < k.partitionNum → Covered k p t s
  inrange : ∀ row ∈ s.emitted, 0 ≤ k.Dispatch row ∧ k.Dispatch row < k.partitionNum

/-- The bound on the `resolvedTs` of the flushes called, after one more label. -/
def nextBound (g : Nat) : Label → Nat
  | .FlushRowChangedEvents resolvedTs => max g resolvedTs
  | _ => g
/-! ## Concrete sinks and traces used by the witnesses -/

/-- A sink with two partitions that routes a row by the parity of its `StartTs`, ignores
the rows of schema `skip`, and whose encoder keeps the list of the `CommitTs` appended,
never asks for a write on a row and asks for an asynchronous write on a resolved event. -/
def demoSink : mqSink (List Nat) :=
  { partitionNum := 2
    Dispatch := fun r => (r.StartTs % 2 : Nat)
    ShouldIgnoreDMLEvent := fun _ schema _ => schema == "skip"
    codec := { AppendRowChangedEvent := fun s r => .ok (s ++ [r.CommitTs], .EncoderNoOperation)
               AppendResolvedEvent := fun s ts => .ok (s ++ [ts], .EncoderNeedAsyncWrite)
               Size := fun s => s.length
               Build := fun s => (s, []) }
    newEncoder := [] }

/-- A row of `demoSink` with the given `CommitTs`, routed to partition `h % 2`. -/
def demoRow (commitTs h : Nat) : RowChangedEvent := ⟨h, commitTs, ⟨"test", "t"⟩⟩

/-- A producer that accepts every call. -/
def producerOk : ProducerAnswers := ⟨none, none, none⟩

/-- Scenario "small flush": three rows emitted on two partitions, then `Flush(15)`, the
workers draining their channels before the caller is woken. -/
def smallFlush : List Label :=
  [ .EmitRowChangedEvents [demoRow 10 0, demoRow 11 1, demoRow 12 0],
    .caller .chanSend, .caller .chanSend, .caller .chanSend,
    .FlushRowChangedEvents 15,
    .caller .chanSend, .caller .chanSend,
    .worker 0 (.recv (Item.Row (demoRow 10 0))) producerOk,
    .worker 0 (.recv (Item.Row (demoRow 12 0))) producerOk,
    .worker 0 (.recv (Item.Barrier 15)) producerOk,
    .worker 1 (.recv (Item.Row (demoRow 11 1))) producerOk,
    .worker 1 (.recv (Item.Barrier 15)) producerOk,
    .caller .wake, .caller (.load 15), .caller (.load 15), .caller (.producerFlush none) ]

/-- A row of schema `skip`, which the filter of `demoSink` ignores. -/
def skippedRow (commitTs h : Nat) : RowChangedEvent := ⟨h, commitTs, ⟨"skip", "t"⟩⟩

/-- A sink with one partition whose encoder grows by 1 MiB with each row. -/
def mibSink : mqSink (List Nat) :=
  { partitionNum := 1
    Dispatch := fun _ => 0
    ShouldIgnoreDMLEvent := fun _ _ _ => false
    codec := { AppendRowChangedEvent := fun s r => .ok (s ++ [r.CommitTs], .EncoderNoOperation)
               AppendResolvedEvent := fun s _ => .ok (s, .EncoderNoOperation)
               Size := fun s => 1024 * 1024 * s.length
               Build := fun s => (s, []) }
    newEncoder := [] }

/-- Scenario "batch boundary": five rows, then a barrier. -/
def batchBoundary : List (WorkerInput × ProducerAnswers) :=
  [ (.recv (Item.Row (demoRow 1 0)), producerOk), (.recv (Item.Row (demoRow 2 0)), producerOk),
    (.recv (Item.Row (demoRow 3 0)), producerOk), (.recv (Item.Row (demoRow 4 0)), producerOk),
    (.recv (Item.Row (demoRow 5 0)), producerOk), (.recv (Item.Barrier 9), producerOk) ]

/-- A further flush after `smallFlush`, aiming higher: the barrier `20` reaches worker `0`. -/
def higherFlush : List Label :=
  [ .FlushRowChangedEvents 20, .caller .chanSend,
    .worker 0 (.recv (Item.Barrier 20)) producerOk ]

/-- A flush to `20` whose barriers both workers process and whose `Producer.Flush` then
fails, so that `checkpointTs` stays `0`. -/
def failedFlush : List Label :=
  [ .FlushRowChangedEvents 20,
    .caller .chanSend, .caller .chanSend,
    .worker 0 (.recv (Item.Barrier 20)) producerOk,
    .worker 1 (.recv (Item.Barrier 20)) producerOk,
    .caller .wake, .caller (.load 20), .caller (.load 20),
    .caller (.producerFlush (some (.Producer 1))) ]

/-- After `failedFlush`, a flush to `10`, whose barrier worker `0` processes. -/
def lowerFlush : List Label :=
  [ .FlushRowChangedEvents 10,
    .caller .chanSend, .caller .chanSend,
    .worker 0 (.recv (Item.Barrier 10)) producerOk ]

/-- The steps of `smallFlush` up to the return of `Producer.Flush`. -/
def smallFlushBefore : List Label := smallFlush.dropLast

/-- After `failedFlush`, a row with `CommitTs` `15` is emitted and `Flush(20)` is called
again: the caller finds both slots at `20` from the failed flush and returns `(20, nil)`
while the row is still in the channel of partition `0`. -/
def staleFlush : List Label :=
  failedFlush ++
  [ .EmitRowChangedEvents [demoRow 15 0], .caller .chanSend,
    .FlushRowChangedEvents 20,
    .caller .chanSend, .caller .chanSend,
    .caller .wake, .caller (.load 20), .caller (.load 20), .caller (.producerFlush none) ]

/-- An `EmitRowChangedEvents` of two rows is cancelled after the first is sent; a
`Flush(15)` then succeeds. -/
def cancelledEmit : List Label :=
  [ .EmitRowChangedEvents [demoRow 10 0, demoRow 11 1],
    .caller .chanSend, .caller .ctxDone,
    .FlushRowChangedEvents 15,
    .caller .chanSend, .caller .chanSend,
    .worker 0 (.recv (Item.Row (demoRow 10 0))) producerOk,
    .worker 0 (.recv (Item.Barrier 15)) producerOk,
    .worker 1 (.recv (Item.Barrier 15)) producerOk,
    .caller .wake, .caller (.load 15), .caller (.load 15), .caller (.producerFlush none) ]

/-- On a fresh sink a row with `CommitTs` `0` is emitted and sent to its channel, and
`Flush(0)` is called: `0` is not above `checkpointTs`, so the call returns at once. -/
def zeroCommitTs : List Label :=
  [ .EmitRowChangedEvents [demoRow 0 0], .caller .chanSend,
    .FlushRowChangedEvents 0 ]

/-! # Theorems -/

/-- C7. The routing table of `writeToProducer`, for every key, value and partition `p` and
every answer of the producer. `NeedAsyncWrite` with `p ≥ 0` makes the one call
`SendMessage(key, value, p)` and returns its result; `NeedAsyncWrite` with `p < 0` makes no
producer call and returns an error; `NeedSyncWrite` with `p ≥ 0` calls
`SendMessage(key, value, p)` and then `Flush`, returning the result of `Flush`, or, when
`SendMessage` fails, returns its error without calling `Flush`; `NeedSyncWrite` with
`p < 0` makes the one call `SyncBroadcastMessage(key, value)` and returns its result; `NoOp`
makes no producer call, logs the warning and returns `nil`. -/
theorem writeToProducer_routing (mqProducer : ProducerAnswers) (key value : Bytes) (p : Int) :
    (0 ≤ p → writeToProducer mqProducer key value .EncoderNeedAsyncWrite p
        = ⟨[.SendMessage key value p], false, mqProducer.SendMessage⟩) ∧
    (p < 0 → (writeToProducer mqProducer key value .EncoderNeedAsyncWrite p).calls = [] ∧
        (writeToProducer mqProducer key value .EncoderNeedAsyncWrite p).err ≠ none) ∧
    (0 ≤ p → mqProducer.SendMessage = none →
        writeToProducer mqProducer key value .EncoderNeedSyncWrite p
          = ⟨[.SendMessage key value p, .Flush], false, mqProducer.Flush⟩) ∧
    (0 ≤ p → ∀ err, mqProducer.SendMessage = some err →
        writeToProducer mqProducer key value .EncoderNeedSyncWrite p
          = ⟨[.SendMessage key value p], false, some err⟩) ∧
    (p < 0 → writeToProducer mqProducer key value .EncoderNeedSyncWrite p
        = ⟨[.SyncBroadcastMessage key value], false, mqProducer.SyncBroadcastMessage⟩) ∧
    writeToProducer mqProducer key value .EncoderNoOperation p = ⟨[], true, none⟩ := by
  refine ⟨?_, ?_, ?_, ?_, ?_, rfl⟩
  · intro h; simp [writeToProducer, h]
  · intro h; simp [writeToProducer, not_le.mpr h]
  · intro h hs; simp [writeToProducer, h, hs]
  · intro h err hs; simp [writeToProducer, h, hs]
  · intro h; simp [writeToProducer, not_le.mpr h]

/-- A synchronous write on partition `0` whose `SendMessage` succeeds and whose `Flush`
fails: both calls are made and the error of `Flush` is returned. -/
theorem writeToProducer_routing_witness :
    writeToProducer ⟨none, none, some (.Producer 1)⟩ [1] [2] .EncoderNeedSyncWrite 0
      = ⟨[.SendMessage [1] [2] 0, .Flush], false, some (.Producer 1)⟩ :=
  (writeToProducer_routing ⟨none, none, some (.Producer 1)⟩ [1] [2] 0).2.2.1 (by decide) rfl

/-- C10 as stated fails: on `demoSink`, whose encoder answers `NeedAsyncWrite` to a
resolved event, `EmitCheckpointTs(7)` returns a non-nil error and does not reach the
`log.Warn` line. -/
theorem EmitCheckpointTs_not_nil :
    demoSink.codec.AppendResolvedEvent demoSink.newEncoder 7
        = .ok ([7], .EncoderNeedAsyncWrite) ∧
      (EmitCheckpointTs demoSink ⟨none, none, none⟩ 7).err ≠ none ∧
      (EmitCheckpointTs demoSink ⟨none, none, none⟩ 7).warned = false :=
  ⟨rfl, by decide, by decide⟩

/-- C10, amended. For every `ts`, when the ephemeral encoder's `AppendResolvedEvent(ts)`
reports `NeedAsyncWrite` without error, `EmitCheckpointTs` (which passes partition `-1`
to `writeToProducer`) makes no producer call, logs no warning, and returns the error
`Async broadcasts not supported`. -/
theorem EmitCheckpointTs_async {σ : Type} (k : mqSink σ) (mqProducer : ProducerAnswers)
    (ts : Nat) (encoder : σ)
    (h : k.codec.AppendResolvedEvent k.newEncoder ts = .ok (encoder, .EncoderNeedAsyncWrite)) :
    EmitCheckpointTs k mqProducer ts = ⟨[], false, some .AsyncBroadcastsNotSupported⟩ := by
  simp [EmitCheckpointTs, h, writeToProducer]

/-- On `demoSink` the hypothesis holds, and `EmitCheckpointTs(7)` returns the error. -/
theorem EmitCheckpointTs_async_witness :
    EmitCheckpointTs demoSink ⟨none, none, none⟩ 7
      = ⟨[], false, some .AsyncBroadcastsNotSupported⟩ :=
  EmitCheckpointTs_async demoSink ⟨none, none, none⟩ 7 [7] rfl
theorem runCall_idle {σ : Type} (k : mqSink σ) (evs : List CallerEvent) (c : Nat)
    (effs : List CallerEffect) (ret : Option Return) (rest : List CallerEvent) :
    runCall k evs ⟨.idle, c, effs, ret, rest⟩ = ⟨.idle, c, effs, ret, evs⟩ := by
  cases evs with
  | nil => rfl
  | cons ev evs => cases ev <;> rfl

/-- C4. Idempotent flush. In every state of the sink in which a call can be made, a
`FlushRowChangedEvents(resolvedTs)` with `resolvedTs ≤ checkpointTs` returns
`(checkpointTs, nil)` at once, whatever the events of the environment, with no effect on
the outside; as a step of the sink it changes nothing but the record of completed calls:
the channels, the log of the producer, `checkpointTs` and every slot stay as they are. -/
theorem FlushRowChangedEvents_replay {σ : Type} (k : mqSink σ) (s : State σ) (resolvedTs : Nat)
    (evs : List CallerEvent) (hidle : s.caller = .idle) (h : resolvedTs ≤ s.checkpointTs) :
    FlushRowChangedEvents k s.checkpointTs resolvedTs evs
        = ⟨.idle, s.checkpointTs, [],
            some (.FlushRowChangedEvents resolvedTs s.checkpointTs none), evs⟩ ∧
      step k (.FlushRowChangedEvents resolvedTs) s
        = { s with returns :=
              s.returns ++ [.FlushRowChangedEvents resolvedTs s.checkpointTs none] } := by
  constructor
  · simp [FlushRowChangedEvents, flushEntry, h, runCall_idle]
  · simp [step, hidle, flushEntry, h]

/-- After `smallFlush` has taken `checkpointTs` to `15` with three producer calls,
`Flush(12)` returns `15` and the producer has still seen three calls. -/
theorem FlushRowChangedEvents_replay_witness :
    (run demoSink smallFlush (State.init demoSink)).checkpointTs = 15 ∧
      (run demoSink smallFlush (State.init demoSink)).producerLog.length = 3 ∧
      (step demoSink (.FlushRowChangedEvents 12)
          (run demoSink smallFlush (State.init demoSink))).producerLog.length = 3 ∧
      (step demoSink (.FlushRowChangedEvents 12)
          (run demoSink smallFlush (State.init demoSink))).returns.getLast?
        = some (.FlushRowChangedEvents 12 15 none) := by
  have h := (FlushRowChangedEvents_replay demoSink
    (run demoSink smallFlush (State.init demoSink)) 12 [] (by decide) (by decide)).2
  refine ⟨by decide, by decide, ?_, ?_⟩
  · rw [h]; decide
  · rw [h]; simp; decide
/-- How a step acts on the caller, on `checkpointTs` and on the list of completed calls:
it leaves them, or starts a call from `idle`, or is a step of the call in flight. -/
theorem step_caller_cases {σ : Type} (k : mqSink σ) (l : Label) (s : State σ) :
    ((step k l s).caller = s.caller ∧ (step k l s).checkpointTs = s.checkpointTs ∧
        (step k l s).returns = s.returns) ∨
    (s.caller = .idle ∧ ∃ rows, l = .EmitRowChangedEvents rows ∧
        (step k l s).caller = (emitLoop k rows rows).1 ∧
        (step k l s).checkpointTs = s.checkpointTs ∧
        (step k l s).returns = s.returns ++ (emitLoop k rows rows).2.toList) ∨
    (s.caller = .idle ∧ ∃ resolvedTs, l = .FlushRowChangedEvents resolvedTs ∧
        (step k l s).caller = (flushEntry k s.checkpointTs resolvedTs).1 ∧
        (step k l s).checkpointTs = s.checkpointTs ∧
        (step k l s).returns = s.returns ++ (flushEntry k s.checkpointTs resolvedTs).2.toList) ∨
    (∃ ev st, l = .caller ev ∧ eventEnabled k s ev = true ∧
        callerStep k ev s.caller s.checkpointTs = some st ∧
        (step k l s).caller = st.pc ∧ (step k l s).checkpointTs = st.checkpointTs ∧
        (step k l s).returns = s.returns ++ st.ret.toList) := by
  unfold step
  by_cases hp : s.caller = .panicked
  · simp [hp]
  · simp only [hp, if_false]
    cases l with
    | EmitRowChangedEvents rows =>
      by_cases hi : s.caller = .idle
      · right; left; exact ⟨hi, rows, rfl, by simp [hi], by simp [hi], by simp [hi]⟩
      · left; simp [hi]
    | FlushRowChangedEvents resolvedTs =>
      by_cases hi : s.caller = .idle
      · right; right; left; exact ⟨hi, resolvedTs, rfl, by simp [hi], by simp [hi], by simp [hi]⟩
      · left; simp [hi]
    | caller ev =>
      by_cases he : eventEnabled k s ev = true
      · cases hc : callerStep k ev s.caller s.checkpointTs with
        | none => left; simp [he, hc]
        | some st =>
          right; right; right
          refine ⟨ev, st, rfl, he, hc, ?_, ?_, ?_⟩ <;>
            · simp only [he, hc, if_true, applyCaller, applyEffect]
              cases st.effect with
              | none => rfl
              | some e => cases e <;> rfl
      · left; simp [he]
    | worker p inp mqProducer =>
      left
      by_cases hw : p < k.partitionNum ∧ (s.workers p).returned = none
      · simp only [hw, and_self, if_true]
        cases inp with
        | ctxDone => simp [applyWorker]
        | tick => simp [applyWorker]
        | recv e =>
          cases hq : s.partitionInput p with
          | nil => simp
          | cons e' rest =>
            by_cases hee : e' = e
            · simp [hee, applyWorker]
            · simp [hee]
      · simp [hw]
/-- The nine ways the caller passes a blocking point. -/
theorem callerStep_cases {σ : Type} (k : mqSink σ) (ev : CallerEvent) (pc : Caller) (c : Nat)
    (st : CallerStep) (h : callerStep k ev pc c = some st) :
    (∃ rows row rest, pc = .emitSelect rows row rest ∧ ev = .ctxDone ∧
        st = ⟨.idle, c, none, some (.EmitRowChangedEvents rows (some .Canceled))⟩) ∨
    (∃ rows row rest, pc = .emitSelect rows row rest ∧ ev = .chanSend ∧
        st = ⟨(emitLoop k rows rest).1, c,
          some (.send (k.Dispatch row).toNat (Item.Row row)), (emitLoop k rows rest).2⟩) ∨
    (∃ t i, pc = .flushEnqueue t i ∧ ev = .ctxDone ∧
        st = ⟨.idle, c, none, some (.FlushRowChangedEvents t 0 (some .Canceled))⟩) ∨
    (∃ t i, pc = .flushEnqueue t i ∧ ev = .chanSend ∧
        st = ⟨flushEnqueueFrom k t (i + 1), c, some (.send i (Item.Barrier t)), none⟩) ∨
    (∃ t, pc = .flushWait t ∧ ev = .ctxDone ∧
        st = ⟨.idle, c, none, some (.FlushRowChangedEvents t 0 (some .Canceled))⟩) ∨
    (∃ t, pc = .flushWait t ∧ ev = .wake ∧ st = ⟨flushLoadFrom k t 0, c, none, none⟩) ∨
    (∃ t i v, pc = .flushLoad t i ∧ ev = .load v ∧ v < t ∧
        st = ⟨.flushWait t, c, none, none⟩) ∨
    (∃ t i v, pc = .flushLoad t i ∧ ev = .load v ∧ t ≤ v ∧
        st = ⟨flushLoadFrom k t (i + 1), c, none, none⟩) ∨
    (∃ t err, pc = .flushProducer t ∧ ev = .producerFlush (some err) ∧
        st = ⟨.idle, c, some (.call .Flush), some (.FlushRowChangedEvents t 0 (some err))⟩) ∨
    (∃ t, pc = .flushProducer t ∧ ev = .producerFlush none ∧
        st = ⟨.idle, t, some (.call .Flush), some (.FlushRowChangedEvents t t none)⟩) := by
  cases pc with
  | idle => cases ev <;> simp [callerStep] at h
  | panicked => cases ev <;> simp [callerStep] at h
  | emitSelect rows row rest =>
    cases ev <;> simp [callerStep] at h
    · left; exact ⟨rows, row, rest, rfl, rfl, h.symm⟩
    · right; left; exact ⟨rows, row, rest, rfl, rfl, h.symm⟩
  | flushEnqueue t i =>
    cases ev <;> simp [callerStep] at h
    · right; right; left; exact ⟨t, i, rfl, rfl, h.symm⟩
    · right; right; right; left; exact ⟨t, i, rfl, rfl, h.symm⟩
  | flushWait t =>
    cases ev <;> simp [callerStep] at h
    · right; right; right; right; left; exact ⟨t, rfl, rfl, h.symm⟩
    · right; right; right; right; right; left; exact ⟨t, rfl, rfl, h.symm⟩
  | flushLoad t i =>
    cases ev <;> simp [callerStep] at h
    rename_i v
    by_cases hv : v < t
    · simp [hv] at h
      right; right; right; right; right; right; left
      exact ⟨t, i, v, rfl, rfl, hv, h.symm⟩
    · simp [hv] at h
      right; right; right; right; right; right; right; left
      exact ⟨t, i, v, rfl, rfl, not_lt.mp hv, h.symm⟩
  | flushProducer t =>
    cases ev <;> simp [callerStep] at h
    rename_i err
    cases err with
    | none =>
      simp at h
      right; right; right; right; right; right; right; right; right
      exact ⟨t, rfl, rfl, h.symm⟩
    | some err =>
      simp at h
      right; right; right; right; right; right; right; right; left
      exact ⟨t, err, rfl, rfl, h.symm⟩
theorem emitLoop_flushing {σ : Type} (k : mqSink σ) (rows rest : List RowChangedEvent) :
    (emitLoop k rows rest).1.flushing = none ∧
      ((emitLoop k rows rest).2.bind Return.okFlush) = none := by
  induction rest with
  | nil => simp [emitLoop, Caller.flushing, Return.okFlush]
  | cons row rest ih =>
    unfold emitLoop
    split_ifs
    · exact ih
    · simp [Caller.flushing]
    · simp [Caller.flushing]

theorem okFlushes_append (rs : List Return) (r : Option Return) :
    okFlushes (rs ++ r.toList) = okFlushes rs ++ (r.bind Return.okFlush).toList := by
  cases r with
  | none => simp [okFlushes]
  | some x =>
    cases h : Return.okFlush x <;> simp [okFlushes, List.filterMap_append, List.filterMap, h]

theorem flushEnqueueFrom_flushing {σ : Type} (k : mqSink σ) (t i : Nat) :
    (flushEnqueueFrom k t i).flushing = some t := by
  unfold flushEnqueueFrom; split_ifs <;> rfl

theorem flushLoadFrom_flushing {σ : Type} (k : mqSink σ) (t i : Nat) :
    (flushLoadFrom k t i).flushing = some t := by
  unfold flushLoadFrom; split_ifs <;> rfl

/-- Re-establishing `CheckpointInv` after a change of the caller's view. -/
theorem CheckpointInv_of {σ : Type} (s s' : State σ) (ret : Option Return)
    (h : CheckpointInv s)
    (e3 : s'.returns = s.returns ++ ret.toList)
    (hA : ∀ t, s'.caller.flushing = some t → s'.checkpointTs < t)
    (hB : s.checkpointTs ≤ s'.checkpointTs)
    (hC : ∀ v, ret.bind Return.okFlush = some v → s.checkpointTs ≤ v ∧ v ≤ s'.checkpointTs) :
    CheckpointInv s' ∧ s.checkpointTs ≤ s'.checkpointTs := by
  obtain ⟨-, h2, h3⟩ := h
  refine ⟨⟨hA, ?_, ?_⟩, hB⟩
  · rw [e3, okFlushes_append]
    intro v hv
    rcases List.mem_append.mp hv with hv | hv
    · exact le_trans (h2 v hv) hB
    · exact (hC v (by simpa using hv)).2
  · rw [e3, okFlushes_append, List.pairwise_append]
    refine ⟨h3, ?_, ?_⟩
    · cases ret.bind Return.okFlush <;> simp
    · intro a ha b hb
      exact le_trans (h2 a ha) (hC b (by simpa using hb)).1

theorem CheckpointInv_step {σ : Type} (k : mqSink σ) (l : Label) (s : State σ)
    (h : CheckpointInv s) :
    CheckpointInv (step k l s) ∧ s.checkpointTs ≤ (step k l s).checkpointTs := by
  have h1 := h.1
  rcases step_caller_cases k l s with ⟨e1, e2, e3⟩ | ⟨hi, rows, -, e1, e2, e3⟩ |
      ⟨hi, t, -, e1, e2, e3⟩ | ⟨ev, st, -, -, hst, e1, e2, e3⟩
  · exact CheckpointInv_of s _ none h (by simpa using e3) (by rw [e1, e2]; exact h1)
      (by rw [e2]) (by simp)
  · have hl := emitLoop_flushing k rows rows
    exact CheckpointInv_of s _ _ h e3 (by rw [e1, hl.1]; simp) (by rw [e2])
      (by rw [hl.2]; simp)
  · unfold flushEntry at e1 e3
    by_cases hle : t ≤ s.checkpointTs
    · simp only [hle, if_true] at e1 e3
      exact CheckpointInv_of s _ _ h e3 (by rw [e1]; simp [Caller.flushing]) (by rw [e2])
        (by rw [e2]; simp [Return.okFlush])
    · simp only [hle, if_false] at e1 e3
      exact CheckpointInv_of s _ _ h e3
        (by rw [e1, e2, flushEnqueueFrom_flushing]; intro r hr; cases hr; omega)
        (by rw [e2]) (by simp)
  · have hc := callerStep_cases k ev s.caller s.checkpointTs st hst
    refine CheckpointInv_of s _ _ h e3 ?_ ?_ ?_ <;> rw [e2] <;> try rw [e1]
    all_goals
      rcases hc with ⟨_, _, _, hc, -, rfl⟩ | ⟨_, _, _, hc, -, rfl⟩ | ⟨_, _, hc, -, rfl⟩ |
        ⟨_, _, hc, -, rfl⟩ | ⟨_, hc, -, rfl⟩ | ⟨_, hc, -, rfl⟩ | ⟨_, _, _, hc, -, -, rfl⟩ |
        ⟨_, _, _, hc, -, -, rfl⟩ | ⟨_, _, hc, -, rfl⟩ | ⟨_, hc, -, rfl⟩
    all_goals
      have h1' := h1
      simp only [hc] at h1'
      simp only [(emitLoop_flushing k _ _).1, (emitLoop_flushing k _ _).2,
        flushEnqueueFrom_flushing, flushLoadFrom_flushing]
    all_goals try simp [Caller.flushing, Return.okFlush] at h1' ⊢
    all_goals first | exact h1' | exact le_of_lt h1'
theorem run_append {σ : Type} (k : mqSink σ) (ls ls' : List Label) (s : State σ) :
    run k (ls ++ ls') s = run k ls' (run k ls s) := by
  simp [run, List.foldl_append]

theorem run_cons {σ : Type} (k : mqSink σ) (l : Label) (ls : List Label) (s : State σ) :
    run k (l :: ls) s = run k ls (step k l s) := rfl

theorem CheckpointInv_init {σ : Type} (k : mqSink σ) : CheckpointInv (State.init k) := by
  refine ⟨?_, ?_, ?_⟩ <;> simp [State.init, Caller.flushing, okFlushes]

theorem CheckpointInv_run {σ : Type} (k : mqSink σ) (ls : List Label) (s : State σ)
    (h : CheckpointInv s) :
    CheckpointInv (run k ls s) ∧ s.checkpointTs ≤ (run k ls s).checkpointTs := by
  induction ls generalizing s with
  | nil => exact ⟨h, le_rfl⟩
  | cons l ls ih =>
    obtain ⟨h1, h2⟩ := CheckpointInv_step k l s h
    obtain ⟨h3, h4⟩ := ih (step k l s) h1
    exact ⟨h3, le_trans h2 h4⟩

/-- C3. Checkpoint monotonicity: after any sequence of steps of a fresh sink (calls with
any arguments, cancellations, producer failures and worker iterations in any order), the
timestamps returned by the `FlushRowChangedEvents` calls that returned without error are
non-decreasing in call order, and the field `checkpointTs` never decreases along any
continuation of the run. -/
theorem checkpointTs_monotone {σ : Type} (k : mqSink σ) (ls ls' : List Label) :
    (okFlushes (run k ls (State.init k)).returns).Pairwise (· ≤ ·) ∧
      (run k ls (State.init k)).checkpointTs
        ≤ (run k (ls ++ ls') (State.init k)).checkpointTs := by
  have h := (CheckpointInv_run k ls _ (CheckpointInv_init k)).1
  refine ⟨h.2.2, ?_⟩
  rw [run_append]
  exact (CheckpointInv_run k ls' _ h).2
theorem FlushPhase_enqueueFrom {σ : Type} (k : mqSink σ) (t i : Nat) :
    FlushPhase k t (flushEnqueueFrom k t i) := by
  unfold flushEnqueueFrom; split_ifs with h <;> simp [FlushPhase, h]

theorem FlushPhase_loadFrom {σ : Type} (k : mqSink σ) (t i : Nat) :
    FlushPhase k t (flushLoadFrom k t i) := by
  unfold flushLoadFrom; split_ifs with h <;> simp [FlushPhase, h]

theorem LastPass_cons (n t : Nat) (ev : CallerEvent) (evs rest : List CallerEvent)
    (h : LastPass n t evs rest) : LastPass n t (ev :: evs) rest := by
  obtain ⟨pre, tl, rfl, h⟩ := h
  exact ⟨ev :: pre, tl, rfl, h⟩

theorem LoadsThenFlush_cons (n t v : Nat) (evs rest : List CallerEvent) (hv : t ≤ v)
    (h : LoadsThenFlush n t evs rest) : LoadsThenFlush (n + 1) t (.load v :: evs) rest := by
  obtain ⟨loads, rfl, hl, hall⟩ := h
  refine ⟨v :: loads, rfl, by simp [hl], ?_⟩
  intro x hx
  rcases List.mem_cons.mp hx with rfl | hx
  · exact hv
  · exact hall x hx

/-- From the first index of a loop, the shape of a success is the shape from the point the
loop starts at. -/
theorem SuccessShape_enqueueFrom {σ : Type} (k : mqSink σ) (t i : Nat)
    (evs rest : List CallerEvent) (h : SuccessShape k t (flushEnqueueFrom k t i) evs rest) :
    LastPass k.partitionNum t evs rest := by
  unfold flushEnqueueFrom at h; split_ifs at h <;> exact h

theorem sendsFrom_enqueueFrom {σ : Type} (k : mqSink σ) (t i : Nat) (hi : i < k.partitionNum) :
    sendsFrom k (.flushEnqueue t i)
      = .send i (Item.Barrier t) :: sendsFrom k (flushEnqueueFrom k t (i + 1)) := by
  unfold flushEnqueueFrom
  have h1 : k.partitionNum - i = (k.partitionNum - (i + 1)) + 1 := by omega
  split_ifs with h
  · simp only [sendsFrom]
    rw [h1, List.range'_succ]; simp
  · simp only [sendsFrom]
    have : k.partitionNum - i = 1 := by omega
    rw [this]; simp

/-- An outcome of the run from the next blocking point is an outcome of the run from the
present one. -/
theorem FlushOutcome_step {σ : Type} (k : mqSink σ) (c t : Nat) (pc pc' : Caller)
    (effs effs' : List CallerEffect) (ev : CallerEvent) (evs : List CallerEvent) (r : CallRun)
    (h : FlushOutcome k c t pc' effs' evs r)
    (hshape : ∀ rest, SuccessShape k t pc' evs rest → SuccessShape k t pc (ev :: evs) rest)
    (heff : effs' ++ sendsFrom k pc' = effs ++ sendsFrom k pc) :
    FlushOutcome k c t pc effs (ev :: evs) r := by
  rcases h with h | h | h
  · exact Or.inl h
  · obtain ⟨err, h1, h2, h3, pre, h4⟩ := h
    refine Or.inr (Or.inl ⟨err, h1, h2, h3, ev :: pre, ?_⟩)
    rcases h4 with ⟨h4, h5⟩ | h4
    · exact Or.inl ⟨by rw [List.cons_append, ← h4], h5⟩
    · exact Or.inr (by rw [List.cons_append, ← h4])
  · obtain ⟨h1, h2, h3, h4, h5⟩ := h
    exact Or.inr (Or.inr ⟨h1, h2, h3, hshape _ h4, by rw [h5, heff]⟩)

theorem sendsFrom_loadFrom {σ : Type} (k : mqSink σ) (t i : Nat) :
    sendsFrom k (flushLoadFrom k t i) = [] := by
  unfold flushLoadFrom; split_ifs <;> rfl

theorem flush_run {σ : Type} (k : mqSink σ) (c t : Nat) (evs : List CallerEvent) :
    ∀ (pc : Caller) (effs : List CallerEffect) (rest : List CallerEvent), FlushPhase k t pc →
      FlushOutcome k c t pc effs evs (runCall k evs ⟨pc, c, effs, none, rest⟩) := by
  induction evs with
  | nil =>
    intro pc effs rest hp
    exact Or.inl ⟨rfl, rfl, hp⟩
  | cons ev evs ih =>
    intro pc effs rest hp
    cases pc with
    | idle => exact absurd hp (by simp [FlushPhase])
    | panicked => exact absurd hp (by simp [FlushPhase])
    | emitSelect _ _ _ => exact absurd hp (by simp [FlushPhase])
    | flushEnqueue t' i =>
      obtain ⟨rfl, hi⟩ := hp
      cases ev with
      | ctxDone =>
        have hr : runCall k (.ctxDone :: evs) ⟨.flushEnqueue t' i, c, effs, none, rest⟩
            = ⟨.idle, c, effs, some (.FlushRowChangedEvents t' 0 (some .Canceled)), evs⟩ := by
          simp [runCall, callerStep, runCall_idle]
        rw [hr]
        exact Or.inr (Or.inl ⟨.Canceled, rfl, rfl, rfl, [], Or.inl ⟨rfl, rfl⟩⟩)
      | chanSend =>
        have hr : runCall k (.chanSend :: evs) ⟨.flushEnqueue t' i, c, effs, none, rest⟩
            = runCall k evs ⟨flushEnqueueFrom k t' (i + 1), c,
                effs ++ [.send i (Item.Barrier t')], none, []⟩ := by
          simp [runCall, callerStep]
        rw [hr]
        refine FlushOutcome_step k c t' _ _ _ _ _ _ _
          (ih (flushEnqueueFrom k t' (i + 1)) (effs ++ [.send i (Item.Barrier t')]) []
            (FlushPhase_enqueueFrom k t' (i + 1))) ?_ ?_
        · intro rest h
          exact LastPass_cons _ _ _ _ _ (SuccessShape_enqueueFrom k t' (i + 1) _ _ h)
        · rw [sendsFrom_enqueueFrom k t' i hi]; simp
      | wake => exact Or.inl ⟨rfl, rfl, ⟨rfl, hi⟩⟩
      | load v => exact Or.inl ⟨rfl, rfl, ⟨rfl, hi⟩⟩
      | producerFlush err => exact Or.inl ⟨rfl, rfl, ⟨rfl, hi⟩⟩
    | flushWait t' =>
      have hp' : t' = t := hp
      subst hp'
      cases ev with
      | ctxDone =>
        have hr : runCall k (.ctxDone :: evs) ⟨.flushWait t', c, effs, none, rest⟩
            = ⟨.idle, c, effs, some (.FlushRowChangedEvents t' 0 (some .Canceled)), evs⟩ := by
          simp [runCall, callerStep, runCall_idle]
        rw [hr]
        exact Or.inr (Or.inl ⟨.Canceled, rfl, rfl, rfl, [], Or.inl ⟨rfl, rfl⟩⟩)
      | wake =>
        have hr : runCall k (.wake :: evs) ⟨.flushWait t', c, effs, none, rest⟩
            = runCall k evs ⟨flushLoadFrom k t' 0, c, effs ++ [], none, []⟩ := by
          simp [runCall, callerStep]
        rw [hr]
        refine FlushOutcome_step k c t' _ _ _ _ _ _ _
          (ih (flushLoadFrom k t' 0) (effs ++ []) [] (FlushPhase_loadFrom k t' 0)) ?_ ?_
        · intro rest h
          unfold flushLoadFrom at h
          split_ifs at h with hn
          · rcases h with h | h
            · exact ⟨[], _, rfl, h⟩
            · exact LastPass_cons _ _ _ _ _ h
          · have h0 : k.partitionNum = 0 := by omega
            exact ⟨[], _, rfl, by rw [h0]; exact h⟩
        · rw [sendsFrom_loadFrom]; simp [sendsFrom]
      | chanSend => exact Or.inl ⟨rfl, rfl, rfl⟩
      | load v => exact Or.inl ⟨rfl, rfl, rfl⟩
      | producerFlush err => exact Or.inl ⟨rfl, rfl, rfl⟩
    | flushLoad t' i =>
      obtain ⟨rfl, hi⟩ := hp
      cases ev with
      | load v =>
        by_cases hv : t' > v
        · have hr : runCall k (.load v :: evs) ⟨.flushLoad t' i, c, effs, none, rest⟩
              = runCall k evs ⟨.flushWait t', c, effs ++ [], none, []⟩ := by
            simp [runCall, callerStep, hv]
          rw [hr]
          refine FlushOutcome_step k c t' _ _ _ _ _ _ _
            (ih (.flushWait t') (effs ++ []) [] rfl) ?_ ?_
          · intro rest h
            exact Or.inr (LastPass_cons _ _ _ _ _ h)
          · simp [sendsFrom]
        · have hr : runCall k (.load v :: evs) ⟨.flushLoad t' i, c, effs, none, rest⟩
              = runCall k evs ⟨flushLoadFrom k t' (i + 1), c, effs ++ [], none, []⟩ := by
            simp [runCall, callerStep, hv]
          rw [hr]
          refine FlushOutcome_step k c t' _ _ _ _ _ _ _
            (ih (flushLoadFrom k t' (i + 1)) (effs ++ []) [] (FlushPhase_loadFrom k t' (i + 1)))
            ?_ ?_
          · intro rest h
            have hn : k.partitionNum - i = (k.partitionNum - (i + 1)) + 1 := by omega
            unfold flushLoadFrom at h
            split_ifs at h with hlt
            · rcases h with h | h
              · left
                show LoadsThenFlush (k.partitionNum - i) t' _ _
                rw [hn]
                exact LoadsThenFlush_cons _ _ _ _ _ (not_lt.mp hv) h
              · exact Or.inr (LastPass_cons _ _ _ _ _ h)
            · left
              show LoadsThenFlush (k.partitionNum - i) t' _ _
              rw [hn]
              have h0 : k.partitionNum - (i + 1) = 0 := by omega
              rw [h0]
              exact LoadsThenFlush_cons _ _ _ _ _ (not_lt.mp hv) h
          · rw [sendsFrom_loadFrom]; simp [sendsFrom]
      | ctxDone => exact Or.inl ⟨rfl, rfl, ⟨rfl, hi⟩⟩
      | chanSend => exact Or.inl ⟨rfl, rfl, ⟨rfl, hi⟩⟩
      | wake => exact Or.inl ⟨rfl, rfl, ⟨rfl, hi⟩⟩
      | producerFlush err => exact Or.inl ⟨rfl, rfl, ⟨rfl, hi⟩⟩
    | flushProducer t' =>
      have hp' : t' = t := hp
      subst hp'
      cases ev with
      | producerFlush err =>
        cases err with
        | none =>
          have hr : runCall k (.producerFlush none :: evs) ⟨.flushProducer t', c, effs, none, rest⟩
              = ⟨.idle, t', effs ++ [.call .Flush],
                  some (.FlushRowChangedEvents t' t' none), evs⟩ := by
            simp [runCall, callerStep, runCall_idle]
          rw [hr]
          exact Or.inr (Or.inr ⟨rfl, rfl, rfl, ⟨[], rfl, rfl, by simp⟩, by simp [sendsFrom]⟩)
        | some err =>
          have hr : runCall k (.producerFlush (some err) :: evs)
                ⟨.flushProducer t', c, effs, none, rest⟩
              = ⟨.idle, c, effs ++ [.call .Flush],
                  some (.FlushRowChangedEvents t' 0 (some err)), evs⟩ := by
            simp [runCall, callerStep, runCall_idle]
          rw [hr]
          exact Or.inr (Or.inl ⟨err, rfl, rfl, rfl, [], Or.inr rfl⟩)
      | ctxDone => exact Or.inl ⟨rfl, rfl, rfl⟩
      | chanSend => exact Or.inl ⟨rfl, rfl, rfl⟩
      | wake => exact Or.inl ⟨rfl, rfl, rfl⟩
      | load v => exact Or.inl ⟨rfl, rfl, rfl⟩
theorem runCall_rest_irrel {σ : Type} (k : mqSink σ) (evs : List CallerEvent) (r : CallRun)
    (x : List CallerEvent) : runCall k evs { r with rest := x } = runCall k evs r := by
  cases evs <;> rfl

theorem runCall_append {σ : Type} (k : mqSink σ) (pre evs : List CallerEvent) :
    ∀ r : CallRun, (runCall k pre r).rest = [] →
      runCall k (pre ++ evs) r = runCall k evs (runCall k pre r) := by
  induction pre with
  | nil =>
    intro r _
    exact (runCall_rest_irrel k evs r []).symm
  | cons e pre ih =>
    intro r h
    cases hc : callerStep k e r.pc r.checkpointTs with
    | none => simp [runCall, hc] at h
    | some st =>
      simp only [runCall, hc, List.cons_append] at h ⊢
      exact ih _ h

theorem sendsFrom_entry {σ : Type} (k : mqSink σ) (t : Nat) :
    sendsFrom k (flushEnqueueFrom k t 0)
      = (List.range k.partitionNum).map fun p => .send p (Item.Barrier t) := by
  unfold flushEnqueueFrom
  split_ifs with h
  · simp [sendsFrom, List.range_eq_range']
  · have h0 : k.partitionNum = 0 := by omega
    simp [sendsFrom, h0]

/-- C1. A `FlushRowChangedEvents(resolvedTs)` with `resolvedTs` above `checkpointTs`,
run against any events, is in one of three situations: it has not returned and
`checkpointTs` is unchanged; it has returned `(0, err)` with `err` non-nil, `checkpointTs`
is unchanged, and the event that made it return is a cancellation (`err` is the context
error) or a return of `Producer.Flush` with that error; or it has returned
`(resolvedTs, nil)`, `checkpointTs` is `resolvedTs`, and the events it consumed end with
a wake, a load of each of the `partitionNum` slots that gave at least `resolvedTs` and a
return of `Producer.Flush` without error, having sent one barrier to each partition and
called `Producer.Flush` once. A cancellation at a `select` and a failure of
`Producer.Flush` do make it return with that error. -/
theorem FlushRowChangedEvents_outcome {σ : Type} (k : mqSink σ) (checkpointTs resolvedTs : Nat)
    (evs : List CallerEvent) (h : checkpointTs < resolvedTs) :
    (((FlushRowChangedEvents k checkpointTs resolvedTs evs).ret = none ∧
        (FlushRowChangedEvents k checkpointTs resolvedTs evs).checkpointTs = checkpointTs ∧
        FlushPhase k resolvedTs (FlushRowChangedEvents k checkpointTs resolvedTs evs).pc) ∨
      (∃ err, (FlushRowChangedEvents k checkpointTs resolvedTs evs).ret
            = some (.FlushRowChangedEvents resolvedTs 0 (some err)) ∧
        (FlushRowChangedEvents k checkpointTs resolvedTs evs).checkpointTs = checkpointTs ∧
        ∃ pre,
          (evs = pre ++ .ctxDone :: (FlushRowChangedEvents k checkpointTs resolvedTs evs).rest ∧
            err = .Canceled) ∨
          evs = pre ++ .producerFlush (some err) ::
            (FlushRowChangedEvents k checkpointTs resolvedTs evs).rest) ∨
      ((FlushRowChangedEvents k checkpointTs resolvedTs evs).ret
            = some (.FlushRowChangedEvents resolvedTs resolvedTs none) ∧
        (FlushRowChangedEvents k checkpointTs resolvedTs evs).checkpointTs = resolvedTs ∧
        LastPass k.partitionNum resolvedTs evs
          (FlushRowChangedEvents k checkpointTs resolvedTs evs).rest ∧
        (FlushRowChangedEvents k checkpointTs resolvedTs evs).effects
          = (List.range k.partitionNum).map (fun p => .send p (Item.Barrier resolvedTs))
              ++ [.call .Flush])) ∧
    (∀ post, (FlushRowChangedEvents k checkpointTs resolvedTs evs).rest = [] →
      ((∃ i, (FlushRowChangedEvents k checkpointTs resolvedTs evs).pc
            = .flushEnqueue resolvedTs i) ∨
        (FlushRowChangedEvents k checkpointTs resolvedTs evs).pc = .flushWait resolvedTs) →
      (FlushRowChangedEvents k checkpointTs resolvedTs (evs ++ .ctxDone :: post)).ret
          = some (.FlushRowChangedEvents resolvedTs 0 (some .Canceled)) ∧
        (FlushRowChangedEvents k checkpointTs resolvedTs
          (evs ++ .ctxDone :: post)).checkpointTs = checkpointTs) ∧
    (∀ post err, (FlushRowChangedEvents k checkpointTs resolvedTs evs).rest = [] →
      (FlushRowChangedEvents k checkpointTs resolvedTs evs).pc = .flushProducer resolvedTs →
      (FlushRowChangedEvents k checkpointTs resolvedTs
          (evs ++ .producerFlush (some err) :: post)).ret
          = some (.FlushRowChangedEvents resolvedTs 0 (some err)) ∧
        (FlushRowChangedEvents k checkpointTs resolvedTs
          (evs ++ .producerFlush (some err) :: post)).checkpointTs = checkpointTs) := by
  have hentry : flushEntry k checkpointTs resolvedTs = (flushEnqueueFrom k resolvedTs 0, none) := by
    simp [flushEntry, not_le.mpr h]
  have hrun := flush_run k checkpointTs resolvedTs evs (flushEnqueueFrom k resolvedTs 0) [] []
    (FlushPhase_enqueueFrom k resolvedTs 0)
  have hdef : ∀ evs, FlushRowChangedEvents k checkpointTs resolvedTs evs
      = runCall k evs ⟨flushEnqueueFrom k resolvedTs 0, checkpointTs, [], none, []⟩ := by
    intro evs; simp [FlushRowChangedEvents, hentry]
  have hcp : (FlushRowChangedEvents k checkpointTs resolvedTs evs).ret = none →
      (FlushRowChangedEvents k checkpointTs resolvedTs evs).checkpointTs = checkpointTs := by
    intro hn
    rw [hdef] at hn ⊢
    rcases hrun with h1 | ⟨err, h1, -⟩ | ⟨h1, -⟩
    · exact h1.2.1
    · rw [h1] at hn; cases hn
    · rw [h1] at hn; cases hn
  refine ⟨?_, ?_, ?_⟩
  · rw [hdef]
    rcases hrun with h1 | ⟨err, h1, h2, -, h3⟩ | ⟨h1, h2, -, h3, h4⟩
    · exact Or.inl h1
    · exact Or.inr (Or.inl ⟨err, h1, h2, h3⟩)
    · refine Or.inr (Or.inr ⟨h1, h2, SuccessShape_enqueueFrom k resolvedTs 0 _ _ h3, ?_⟩)
      rw [h4, sendsFrom_entry]; simp
  · intro post hrest hpc
    rw [hdef] at hrest hpc
    rw [hdef, runCall_append k evs _ _ hrest]
    have hc : (runCall k evs ⟨flushEnqueueFrom k resolvedTs 0, checkpointTs, [], none, []⟩).checkpointTs
        = checkpointTs := by
      rcases hrun with h1 | ⟨err, -, -, h1, -⟩ | ⟨-, -, h1, -⟩
      · exact h1.2.1
      · rcases hpc with ⟨i, hi⟩ | hw
        · rw [h1] at hi; cases hi
        · rw [h1] at hw; cases hw
      · rcases hpc with ⟨i, hi⟩ | hw
        · rw [h1] at hi; cases hi
        · rw [h1] at hw; cases hw
    rcases hpc with ⟨i, hi⟩ | hw
    · simp [runCall, hi, callerStep, runCall_idle, hc]
    · simp [runCall, hw, callerStep, runCall_idle, hc]
  · intro post err hrest hpc
    rw [hdef] at hrest hpc
    rw [hdef, runCall_append k evs _ _ hrest]
    have hc : (runCall k evs ⟨flushEnqueueFrom k resolvedTs 0, checkpointTs, [], none, []⟩).checkpointTs
        = checkpointTs := by
      rcases hrun with h1 | ⟨err, -, -, h1, -⟩ | ⟨-, -, h1, -⟩
      · exact h1.2.1
      · rw [h1] at hpc; cases hpc
      · rw [h1] at hpc; cases hpc
    simp [runCall, hpc, callerStep, runCall_idle, hc]

/-- Two barrier sends, a wake, two loads that give `15`, and a producer flush that
succeeds: the flush returns `(15, nil)`, sets `checkpointTs` to `15`, and its events end
with the last pass the theorem names. -/
theorem FlushRowChangedEvents_outcome_witness :
    (FlushRowChangedEvents demoSink 0 15
        [.chanSend, .chanSend, .wake, .load 15, .load 15, .producerFlush none]).ret
        = some (.FlushRowChangedEvents 15 15 none) ∧
      (FlushRowChangedEvents demoSink 0 15
        [.chanSend, .chanSend, .wake, .load 15, .load 15, .producerFlush none]).checkpointTs = 15 ∧
      LastPass 2 15 [.chanSend, .chanSend, .wake, .load 15, .load 15, .producerFlush none] [] ∧
      (FlushRowChangedEvents demoSink 0 15 [.chanSend, .ctxDone]).ret
        = some (.FlushRowChangedEvents 15 0 (some .Canceled)) := by
  have h := FlushRowChangedEvents_outcome demoSink 0 15
    [.chanSend, .chanSend, .wake, .load 15, .load 15, .producerFlush none] (by decide)
  have h2 := (FlushRowChangedEvents_outcome demoSink 0 15 [.chanSend] (by decide)).2.1 []
    (by decide) (Or.inl ⟨1, by decide⟩)
  have hret : (FlushRowChangedEvents demoSink 0 15
      [.chanSend, .chanSend, .wake, .load 15, .load 15, .producerFlush none]).ret
      = some (.FlushRowChangedEvents 15 15 none) := by decide
  rcases h.1 with h1 | ⟨err, h1, -⟩ | ⟨h1, h3, h4, -⟩
  · exact absurd h1.1 (by decide)
  · rw [hret] at h1; simp at h1
  · exact ⟨h1, h3, h4, h2.1⟩
theorem emit_run {σ : Type} (k : mqSink σ) (c : Nat) (rows : List RowChangedEvent) :
    ∀ (rest : List RowChangedEvent) (n : Nat) (effs : List CallerEffect) (x : List CallerEvent),
      (keptRows k rest).length ≤ n →
      (∀ row ∈ keptRows k rest, 0 ≤ k.Dispatch row ∧ k.Dispatch row < k.partitionNum) →
      runCall k (List.replicate n .chanSend)
          ⟨(emitLoop k rows rest).1, c, effs, (emitLoop k rows rest).2, x⟩
        = ⟨.idle, c,
            effs ++ (keptRows k rest).map (fun row => .send (k.Dispatch row).toNat (Item.Row row)),
            some (.EmitRowChangedEvents rows none),
            List.replicate (n - (keptRows k rest).length) .chanSend⟩ := by
  intro rest
  induction rest with
  | nil =>
    intro n effs x _ _
    simp [emitLoop, keptRows, runCall_idle]
  | cons row rest ih =>
    intro n effs x hn hd
    by_cases hig : k.ShouldIgnoreDMLEvent row.StartTs row.Table.Schema row.Table.Table = true
    · have hk : keptRows k (row :: rest) = keptRows k rest := by simp [keptRows, hig]
      rw [hk] at hn hd ⊢
      have he : emitLoop k rows (row :: rest) = emitLoop k rows rest := by simp [emitLoop, hig]
      rw [he]
      exact ih n effs x hn hd
    · have hk : keptRows k (row :: rest) = row :: keptRows k rest := by simp [keptRows, hig]
      rw [hk] at hn hd ⊢
      have hr := hd row (List.mem_cons_self _ _)
      have he : emitLoop k rows (row :: rest) = (.emitSelect rows row rest, none) := by
        simp [emitLoop, hig, hr]
      rw [he]
      obtain ⟨m, rfl⟩ : ∃ m, n = m + 1 := ⟨n - 1, by simp at hn; omega⟩
      have := ih m (effs ++ [.send (k.Dispatch row).toNat (Item.Row row)]) []
        (by simpa using hn) (fun r hr => hd r (List.mem_cons_of_mem _ hr))
      simp only [List.replicate_succ, runCall, callerStep, Option.toList]
      rw [this]
      simp

theorem sentOn_map {σ : Type} (k : mqSink σ) (p : Nat) (rows : List RowChangedEvent)
    (hd : ∀ row ∈ rows, 0 ≤ k.Dispatch row) :
    sentOn p (rows.map fun row => .send (k.Dispatch row).toNat (Item.Row row))
      = (rows.filter fun row => decide (k.Dispatch row = p)).map Item.Row := by
  induction rows with
  | nil => rfl
  | cons row rows ih =>
    have h0 := hd row (List.mem_cons_self _ _)
    have ih' := ih (fun r hr => hd r (List.mem_cons_of_mem _ hr))
    have hiff : (k.Dispatch row).toNat = p ↔ k.Dispatch row = p := by omega
    unfold sentOn at ih' ⊢
    by_cases hp : k.Dispatch row = p
    · simp [List.filterMap_cons, hiff.mpr hp, hp, ih']
    · simp [List.filterMap_cons, hp, mt hiff.mp hp, ih']

/-- C6. When every `select` of `EmitRowChangedEvents(rows...)` takes the channel send (the
context is not cancelled and there are at least as many such events as kept rows) and
`Dispatch` gives an index in `[0, partitionNum)` for each kept row, the call returns
`nil`, and what it sent is, in order, one `Row` item per row the filter keeps, on the
channel `Dispatch` gives; so channel `p` gets exactly the kept rows with `Dispatch = p`,
in input order, as `Row` items, and nothing else: no ignored row and no barrier. -/
theorem EmitRowChangedEvents_sends {σ : Type} (k : mqSink σ) (checkpointTs : Nat)
    (rows : List RowChangedEvent) (n : Nat)
    (hn : (keptRows k rows).length ≤ n)
    (hd : ∀ row ∈ keptRows k rows, 0 ≤ k.Dispatch row ∧ k.Dispatch row < k.partitionNum) :
    (EmitRowChangedEvents k checkpointTs rows (List.replicate n .chanSend)).ret
        = some (.EmitRowChangedEvents rows none) ∧
      (EmitRowChangedEvents k checkpointTs rows (List.replicate n .chanSend)).effects
        = (keptRows k rows).map (fun row => .send (k.Dispatch row).toNat (Item.Row row)) ∧
      (∀ p : Nat,
        sentOn p (EmitRowChangedEvents k checkpointTs rows (List.replicate n .chanSend)).effects
          = ((keptRows k rows).filter fun row => decide (k.Dispatch row = p)).map Item.Row) ∧
      (EmitRowChangedEvents k checkpointTs rows (List.replicate n .chanSend)).checkpointTs
        = checkpointTs := by
  have h := emit_run k checkpointTs rows rows n [] [] hn hd
  unfold EmitRowChangedEvents
  rw [h]
  refine ⟨rfl, by simp, ?_, rfl⟩
  intro p
  simpa using sentOn_map k p (keptRows k rows) (fun r hr => (hd r hr).1)

/-- Four rows, one of them ignored by the filter: partition `0` gets the rows with
`CommitTs` `10` and `12`, partition `1` the row with `CommitTs` `11`. -/
theorem EmitRowChangedEvents_sends_witness :
    (EmitRowChangedEvents demoSink 0
        [demoRow 10 0, skippedRow 10 0, demoRow 11 1, demoRow 12 0]
        (List.replicate 3 .chanSend)).ret
        = some (.EmitRowChangedEvents
            [demoRow 10 0, skippedRow 10 0, demoRow 11 1, demoRow 12 0] none) ∧
      sentOn 0 (EmitRowChangedEvents demoSink 0
        [demoRow 10 0, skippedRow 10 0, demoRow 11 1, demoRow 12 0]
        (List.replicate 3 .chanSend)).effects = [Item.Row (demoRow 10 0), Item.Row (demoRow 12 0)] ∧
      sentOn 1 (EmitRowChangedEvents demoSink 0
        [demoRow 10 0, skippedRow 10 0, demoRow 11 1, demoRow 12 0]
        (List.replicate 3 .chanSend)).effects = [Item.Row (demoRow 11 1)] := by
  have h := EmitRowChangedEvents_sends demoSink 0
    [demoRow 10 0, skippedRow 10 0, demoRow 11 1, demoRow 12 0] 3 (by decide) (by decide)
  refine ⟨h.1, ?_, ?_⟩
  · rw [h.2.2.1 0]; decide
  · rw [h.2.2.1 1]; decide
theorem runWorker_snoc {σ : Type} (k : mqSink σ) (p : Nat)
    (inputs : List (WorkerInput × ProducerAnswers)) (i : WorkerInput × ProducerAnswers) :
    runWorker k p (inputs ++ [i]) = WorkerRun.next k p (runWorker k p inputs) i := by
  simp [runWorker, List.foldl_append]

/-- What `flushToProducer`, followed by the return on error, does to a worker whose
`batchSize` counts its batch. -/
theorem flushOrReturn_spec {σ : Type} (k : mqSink σ) (p : Nat) (mqProducer : ProducerAnswers)
    (op : EncoderResult) (w : Worker σ) (hlen : w.batchSize = w.batch.length) :
    (flushOrReturn k p mqProducer op w).1.batchSize = 0 ∧
    (flushOrReturn k p mqProducer op w).1.batch = [] ∧
    (flushOrReturn k p mqProducer op w).2.store = none ∧
    (flushOrReturn k p mqProducer op w).2.notified = false ∧
    ((flushOrReturn k p mqProducer op w).2.err = none →
      (flushOrReturn k p mqProducer op w).1.returned = w.returned) ∧
    (∀ err, (flushOrReturn k p mqProducer op w).2.err = some err →
      (flushOrReturn k p mqProducer op w).1.returned = some err) ∧
    (w.batchSize = 0 → flushOrReturn k p mqProducer op w = (w, WorkerOut.none)) ∧
    (w.batchSize ≠ 0 →
      (flushOrReturn k p mqProducer op w).1.encoder = k.newEncoder ∧
      (flushOrReturn k p mqProducer op w).2.built
        = some ⟨w.batch, w.sizeBeforeLast, (k.codec.Build w.encoder).1,
            (k.codec.Build w.encoder).2⟩ ∧
      (flushOrReturn k p mqProducer op w).2.write
        = some (writeToProducer mqProducer (k.codec.Build w.encoder).1
            (k.codec.Build w.encoder).2 op p)) := by
  by_cases h0 : w.batchSize = 0
  · have hb : w.batch = [] := by
      rw [h0] at hlen; exact List.eq_nil_of_length_eq_zero hlen.symm
    have he : flushOrReturn k p mqProducer op w = (w, WorkerOut.none) := by
      simp [flushOrReturn, flushToProducer, h0, WorkerOut.err, WorkerOut.none]
    rw [he]
    simp [h0, hb, WorkerOut.none, WorkerOut.err]
  · cases hw : (writeToProducer mqProducer (k.codec.Build w.encoder).1
        (k.codec.Build w.encoder).2 op p).err with
    | none => simp [flushOrReturn, flushToProducer, h0, WorkerOut.err, hw]
    | some err => simp [flushOrReturn, flushToProducer, h0, WorkerOut.err, hw]
/-- One iteration keeps `BatchInv`, and a `Build` it makes is on an encoder that holds
rows and whose `Size()` before the last of them was below the limit. -/
theorem BatchInv_workerStep {σ : Type} (k : mqSink σ) (p : Nat) (mqProducer : ProducerAnswers)
    (inp : WorkerInput) (w : Worker σ)
    (hfresh : k.codec.Size k.newEncoder < batchSizeLimit) (h : BatchInv k w) :
    BatchInv k (workerStep k p mqProducer inp w).1 ∧
      ∀ b, (workerStep k p mqProducer inp w).2.built = some b →
        b.sizeBeforeLast < batchSizeLimit ∧ b.rows ≠ [] := by
  obtain ⟨h1, h2, h3⟩ := h
  -- a flush from a state that satisfies the part of the invariant on non-empty batches
  have hflush : ∀ (op : EncoderResult) (w' : Worker σ), w'.batchSize = w'.batch.length →
      (w'.batchSize = 0 → w'.encoder = k.newEncoder) →
      (w'.batchSize ≠ 0 → w'.sizeBeforeLast < batchSizeLimit) →
      BatchInv k (flushOrReturn k p mqProducer op w').1 ∧
        ∀ b, (flushOrReturn k p mqProducer op w').2.built = some b →
          b.sizeBeforeLast < batchSizeLimit ∧ b.rows ≠ [] := by
    intro op w' g1 g2 g3
    obtain ⟨f1, f2, -, -, -, -, f7, f8⟩ := flushOrReturn_spec k p mqProducer op w' g1
    by_cases h0 : w'.batchSize = 0
    · rw [f7 h0]
      refine ⟨⟨g1, g2, fun hne => absurd h0 hne⟩, ?_⟩
      intro b hb; simp [WorkerOut.none] at hb
    · obtain ⟨e1, e2, -⟩ := f8 h0
      refine ⟨⟨by rw [f1, f2]; rfl, fun _ => e1, fun hne => absurd f1 hne⟩, ?_⟩
      intro b hb
      rw [e2] at hb
      cases hb
      refine ⟨g3 h0, ?_⟩
      intro hnil
      apply h0
      rw [g1]
      simp only at hnil
      rw [hnil]; rfl
  cases inp with
  | ctxDone =>
    refine ⟨⟨h1, h2, h3⟩, ?_⟩
    intro b hb; simp [workerStep, WorkerOut.none] at hb
  | tick => exact hflush _ w h1 h2 (fun hne => (h3 hne).2)
  | recv e =>
    cases hrow : e.row with
    | none =>
      by_cases hts : e.resolvedTs = 0
      · simp only [workerStep, hrow, hts, ne_eq, not_true_eq_false, if_false]
        refine ⟨⟨h1, h2, h3⟩, ?_⟩
        intro b hb; simp [WorkerOut.none] at hb
      · obtain ⟨g1, g2⟩ := hflush .EncoderNeedAsyncWrite w h1 h2 (fun hne => (h3 hne).2)
        simp only [workerStep, hrow, ne_eq, hts, not_false_eq_true, if_true]
        cases hret : (flushOrReturn k p mqProducer .EncoderNeedAsyncWrite w).1.returned with
        | none => exact ⟨g1, g2⟩
        | some err => exact ⟨g1, g2⟩
    | some row =>
      cases happ : k.codec.AppendRowChangedEvent w.encoder row with
      | error err =>
        simp only [workerStep, hrow, happ]
        refine ⟨⟨h1, h2, h3⟩, ?_⟩
        intro b hb; simp [WorkerOut.none] at hb
      | ok x =>
        obtain ⟨encoder, op⟩ := x
        have hbefore : k.codec.Size w.encoder < batchSizeLimit := by
          by_cases h0 : w.batchSize = 0
          · rw [h2 h0]; exact hfresh
          · exact (h3 h0).1
        simp only [workerStep, hrow, happ]
        split_ifs with hsize hop
        · exact hflush _ _ (by simp [h1]) (by simp) (fun _ => hbefore)
        · exact hflush _ _ (by simp [h1]) (by simp) (fun _ => hbefore)
        · refine ⟨⟨by simp [h1], by simp, fun _ => ⟨not_le.mp hsize, hbefore⟩⟩, ?_⟩
          intro b hb; simp [WorkerOut.none] at hb
theorem BatchInv_runWorker {σ : Type} (k : mqSink σ) (p : Nat)
    (inputs : List (WorkerInput × ProducerAnswers))
    (hfresh : k.codec.Size k.newEncoder < batchSizeLimit) :
    BatchInv k (runWorker k p inputs).worker ∧
      ∀ o ∈ (runWorker k p inputs).outs, ∀ b, o.built = some b →
        b.sizeBeforeLast < batchSizeLimit ∧ b.rows ≠ [] := by
  induction inputs using List.reverseRecOn with
  | nil =>
    refine ⟨⟨rfl, fun _ => rfl, fun h => absurd rfl h⟩, ?_⟩
    intro o ho; simp [runWorker, WorkerRun.init] at ho
  | append_singleton inputs i ih =>
    obtain ⟨ih1, ih2⟩ := ih
    rw [runWorker_snoc]
    unfold WorkerRun.next
    cases hret : (runWorker k p inputs).worker.returned with
    | some err => exact ⟨ih1, ih2⟩
    | none =>
      obtain ⟨s1, s2⟩ := BatchInv_workerStep k p i.2 i.1 _ hfresh ih1
      refine ⟨s1, ?_⟩
      intro o ho b hb
      simp only [List.mem_append, List.mem_singleton] at ho
      rcases ho with ho | rfl
      · exact ih2 o ho b hb
      · exact s2 b hb

/-- C9. Batch-size bound. Given that a fresh encoder reports a `Size()` below 4 MiB, for
every partition and every sequence of `select` outcomes and producer answers: each
`encoder.Build()` the worker made was on an encoder that held rows and whose `Size()` just
before its most recently appended row was below 4 MiB; when the worker is back at its
`select` its encoder holds no rows or has a `Size()` below 4 MiB; and an append that
brings `Size()` to 4 MiB or more is followed at once by a `Build` of the whole batch and a
`writeToProducer` with `NeedAsyncWrite`, leaving no row buffered. -/
theorem batch_size_bound {σ : Type} (k : mqSink σ) (p : Nat)
    (inputs : List (WorkerInput × ProducerAnswers))
    (hfresh : k.codec.Size k.newEncoder < batchSizeLimit) :
    (∀ o ∈ (runWorker k p inputs).outs, ∀ b, o.built = some b →
        b.sizeBeforeLast < batchSizeLimit ∧ b.rows ≠ []) ∧
      ((runWorker k p inputs).worker.batch = [] ∨
        k.codec.Size (runWorker k p inputs).worker.encoder < batchSizeLimit) ∧
      (∀ row mqProducer encoder op,
        k.codec.AppendRowChangedEvent (runWorker k p inputs).worker.encoder row
            = .ok (encoder, op) →
        batchSizeLimit ≤ k.codec.Size encoder →
        (workerStep k p mqProducer (.recv (Item.Row row)) (runWorker k p inputs).worker).2.built
            = some ⟨(runWorker k p inputs).worker.batch ++ [row],
                k.codec.Size (runWorker k p inputs).worker.encoder,
                (k.codec.Build encoder).1, (k.codec.Build encoder).2⟩ ∧
          (workerStep k p mqProducer (.recv (Item.Row row)) (runWorker k p inputs).worker).2.write
            = some (writeToProducer mqProducer (k.codec.Build encoder).1
                (k.codec.Build encoder).2 .EncoderNeedAsyncWrite p) ∧
          (workerStep k p mqProducer (.recv (Item.Row row)) (runWorker k p inputs).worker).1.batch
            = []) := by
  obtain ⟨⟨h1, h2, h3⟩, hb⟩ := BatchInv_runWorker k p inputs hfresh
  refine ⟨hb, ?_, ?_⟩
  · by_cases h0 : (runWorker k p inputs).worker.batchSize = 0
    · left
      rw [h0] at h1
      exact List.eq_nil_of_length_eq_zero h1.symm
    · exact Or.inr (h3 h0).1
  · intro row mqProducer encoder op happ hsize
    have hs := flushOrReturn_spec k p mqProducer .EncoderNeedAsyncWrite
      { (runWorker k p inputs).worker with
          encoder := encoder, batchSize := (runWorker k p inputs).worker.batchSize + 1,
          batch := (runWorker k p inputs).worker.batch ++ [row],
          sizeBeforeLast := k.codec.Size (runWorker k p inputs).worker.encoder }
      (by simp [h1])
    obtain ⟨-, f2, -, -, -, -, -, f8⟩ := hs
    obtain ⟨-, e2, e3⟩ := f8 (by simp)
    simp only [workerStep, Item.Row, happ, ge_iff_le, hsize, if_true]
    exact ⟨e2, e3, f2⟩

/-- Five rows of 1 MiB and a barrier on one partition: two batches are built, the first
with four rows at the 4 MiB boundary, the second with the fifth row at the barrier. -/
theorem batch_size_bound_witness :
    mibSink.codec.Size mibSink.newEncoder < batchSizeLimit ∧
      (runWorker mibSink 0 batchBoundary).outs.filterMap (fun o => o.built.map Built.rows)
        = [[demoRow 1 0, demoRow 2 0, demoRow 3 0, demoRow 4 0], [demoRow 5 0]] ∧
      (∀ o ∈ (runWorker mibSink 0 batchBoundary).outs, ∀ b, o.built = some b →
        b.sizeBeforeLast < batchSizeLimit ∧ b.rows ≠ []) :=
  ⟨by decide, by decide, (batch_size_bound mibSink 0 batchBoundary (by decide)).1⟩
/-- One iteration of a worker whose `batchSize` counts its batch: the count stays right,
and if the worker goes on, each row of the batch or of the input is in the new batch or
was written in the iteration. -/
theorem workerStep_rows {σ : Type} (k : mqSink σ) (p : Nat) (mqProducer : ProducerAnswers)
    (inp : WorkerInput) (w : Worker σ) (hlen : w.batchSize = w.batch.length) :
    (workerStep k p mqProducer inp w).1.batchSize
        = (workerStep k p mqProducer inp w).1.batch.length ∧
      ((workerStep k p mqProducer inp w).1.returned = none →
        ∀ row, row ∈ w.batch ∨ inp.row = some row →
          row ∈ (workerStep k p mqProducer inp w).1.batch ∨
            Wrote p row (workerStep k p mqProducer inp w).2) := by
  have hflush : ∀ (op : EncoderResult) (w' : Worker σ), w'.batchSize = w'.batch.length →
      (flushOrReturn k p mqProducer op w').1.batchSize
          = (flushOrReturn k p mqProducer op w').1.batch.length ∧
        ∀ row ∈ w'.batch, ∃ b, (flushOrReturn k p mqProducer op w').2.built = some b ∧
          row ∈ b.rows ∧ (flushOrReturn k p mqProducer op w').2.write
            = some (writeToProducer mqProducer b.key b.value op p) := by
    intro op w' g1
    obtain ⟨f1, f2, -, -, -, -, -, f8⟩ := flushOrReturn_spec k p mqProducer op w' g1
    refine ⟨by rw [f1, f2]; rfl, ?_⟩
    intro row hrow
    have h0 : w'.batchSize ≠ 0 := by
      intro h0
      rw [h0] at g1
      rw [List.eq_nil_of_length_eq_zero g1.symm] at hrow
      cases hrow
    obtain ⟨-, e2, e3⟩ := f8 h0
    exact ⟨_, e2, hrow, e3⟩
  cases inp with
  | ctxDone =>
    refine ⟨hlen, ?_⟩
    intro hret; simp [workerStep] at hret
  | tick =>
    obtain ⟨g1, g2⟩ := hflush .EncoderNeedAsyncWrite w hlen
    refine ⟨g1, ?_⟩
    intro _ row hrow
    rcases hrow with hrow | hrow
    · obtain ⟨b, hb1, hb2, hb3⟩ := g2 row hrow
      exact Or.inr ⟨b, mqProducer, _, hb1, hb2, hb3⟩
    · cases hrow
  | recv e =>
    cases hrow : e.row with
    | none =>
      by_cases hts : e.resolvedTs = 0
      · simp only [workerStep, hrow, hts, ne_eq, not_true_eq_false, if_false]
        refine ⟨hlen, ?_⟩
        intro _ row hr
        rcases hr with hr | hr
        · exact Or.inl hr
        · simp [WorkerInput.row, hrow] at hr
      · obtain ⟨g1, g2⟩ := hflush .EncoderNeedAsyncWrite w hlen
        simp only [workerStep, hrow, ne_eq, hts, not_false_eq_true, if_true]
        cases hret : (flushOrReturn k p mqProducer .EncoderNeedAsyncWrite w).1.returned with
        | some err => exact ⟨g1, fun h => by simp [hret] at h⟩
        | none =>
          refine ⟨g1, ?_⟩
          intro _ row hr
          rcases hr with hr | hr
          · obtain ⟨b, hb1, hb2, hb3⟩ := g2 row hr
            exact Or.inr ⟨b, mqProducer, _, hb1, hb2, hb3⟩
          · simp [WorkerInput.row, hrow] at hr
    | some r =>
      cases happ : k.codec.AppendRowChangedEvent w.encoder r with
      | error err =>
        simp only [workerStep, hrow, happ]
        exact ⟨hlen, fun h => by simp at h⟩
      | ok x =>
        obtain ⟨encoder, op⟩ := x
        have hmem : ∀ row, row ∈ w.batch ∨ (WorkerInput.recv e).row = some row →
            row ∈ w.batch ++ [r] := by
          intro row hr
          rcases hr with hr | hr
          · exact List.mem_append_left _ hr
          · simp only [WorkerInput.row, hrow, Option.some.injEq] at hr
            subst hr
            simp
        simp only [workerStep, hrow, happ]
        split_ifs with hsize hop
        · obtain ⟨g1, g2⟩ := hflush .EncoderNeedAsyncWrite
            { w with encoder := encoder, batchSize := w.batchSize + 1,
                     batch := w.batch ++ [r], sizeBeforeLast := k.codec.Size w.encoder }
            (by simp [hlen])
          refine ⟨g1, ?_⟩
          intro _ row hr
          obtain ⟨b, hb1, hb2, hb3⟩ := g2 row (hmem row hr)
          exact Or.inr ⟨b, mqProducer, _, hb1, hb2, hb3⟩
        · obtain ⟨g1, g2⟩ := hflush op
            { w with encoder := encoder, batchSize := w.batchSize + 1,
                     batch := w.batch ++ [r], sizeBeforeLast := k.codec.Size w.encoder }
            (by simp [hlen])
          refine ⟨g1, ?_⟩
          intro _ row hr
          obtain ⟨b, hb1, hb2, hb3⟩ := g2 row (hmem row hr)
          exact Or.inr ⟨b, mqProducer, _, hb1, hb2, hb3⟩
        · refine ⟨by simp [hlen], ?_⟩
          intro _ row hr
          exact Or.inl (hmem row hr)

/-- Along a run, `batchSize` counts the batch, and while the worker runs every row it
received is in the batch or was written in an earlier iteration. -/
theorem runWorker_rows {σ : Type} (k : mqSink σ) (p : Nat)
    (inputs : List (WorkerInput × ProducerAnswers)) :
    (runWorker k p inputs).worker.batchSize = (runWorker k p inputs).worker.batch.length ∧
      ((runWorker k p inputs).worker.returned = none →
        ∀ row ∈ receivedRows inputs,
          row ∈ (runWorker k p inputs).worker.batch ∨
            ∃ o ∈ (runWorker k p inputs).outs, Wrote p row o) := by
  induction inputs using List.reverseRecOn with
  | nil =>
    refine ⟨rfl, ?_⟩
    intro _ row hrow; simp [receivedRows] at hrow
  | append_singleton inputs i ih =>
    obtain ⟨ih1, ih2⟩ := ih
    rw [runWorker_snoc]
    unfold WorkerRun.next
    cases hret : (runWorker k p inputs).worker.returned with
    | some err => exact ⟨ih1, fun h => by simp [hret] at h⟩
    | none =>
      obtain ⟨s1, s2⟩ := workerStep_rows k p i.2 i.1 _ ih1
      refine ⟨s1, ?_⟩
      intro hgo row hrow
      have hsplit : row ∈ receivedRows inputs ∨ i.1.row = some row := by
        simp only [receivedRows, List.filterMap_append, List.mem_append] at hrow
        rcases hrow with hrow | hrow
        · exact Or.inl hrow
        · right
          simp only [List.filterMap_cons, List.filterMap_nil] at hrow
          cases hi : i.1 with
          | recv e =>
            simp only [hi] at hrow
            cases he : e.row with
            | none => simp [he] at hrow
            | some r =>
              simp only [he, List.mem_singleton] at hrow
              simp [WorkerInput.row, he, hrow]
          | ctxDone => simp [hi] at hrow
          | tick => simp [hi] at hrow
      rcases hsplit with hin | hin
      · rcases ih2 hret row hin with hb | ⟨o, ho, hw⟩
        · rcases s2 hgo row (Or.inl hb) with h | h
          · exact Or.inl h
          · exact Or.inr ⟨_, by simp, h⟩
        · exact Or.inr ⟨o, by simp [ho], hw⟩
      · rcases s2 hgo row (Or.inr hin) with h | h
        · exact Or.inl h
        · exact Or.inr ⟨_, by simp, h⟩
/-- The five ways a step acts: not at all, by starting one of the two calls, by a step of
the call in flight, or by an iteration of a running worker. -/
theorem step_cases {σ : Type} (k : mqSink σ) (l : Label) (s : State σ) :
    step k l s = s ∨
    (∃ rows, l = .EmitRowChangedEvents rows ∧ s.caller = .idle ∧
        step k l s = { s with caller := (emitLoop k rows rows).1,
                              returns := s.returns ++ (emitLoop k rows rows).2.toList }) ∨
    (∃ t, l = .FlushRowChangedEvents t ∧ s.caller = .idle ∧
        step k l s = { s with caller := (flushEntry k s.checkpointTs t).1,
                              returns := s.returns ++ (flushEntry k s.checkpointTs t).2.toList }) ∨
    (∃ ev st, l = .caller ev ∧ eventEnabled k s ev = true ∧
        callerStep k ev s.caller s.checkpointTs = some st ∧ step k l s = applyCaller st s) ∨
    (∃ p inp mqProducer, l = .worker p inp mqProducer ∧ p < k.partitionNum ∧
        (s.workers p).returned = none ∧
        ((∃ e rest, inp = .recv e ∧ s.partitionInput p = e :: rest ∧
            step k l s = applyWorker p (workerStep k p mqProducer inp (s.workers p))
              { s with partitionInput := Function.update s.partitionInput p rest }) ∨
          (inp.row = none ∧ (∀ e, inp ≠ .recv e) ∧
            step k l s = applyWorker p (workerStep k p mqProducer inp (s.workers p)) s))) := by
  unfold step
  by_cases hp : s.caller = .panicked
  · simp [hp]
  · simp only [hp, if_false]
    cases l with
    | EmitRowChangedEvents rows =>
      by_cases hi : s.caller = .idle
      · right; left; exact ⟨rows, rfl, hi, by simp [hi]⟩
      · left; simp [hi]
    | FlushRowChangedEvents t =>
      by_cases hi : s.caller = .idle
      · right; right; left; exact ⟨t, rfl, hi, by simp [hi]⟩
      · left; simp [hi]
    | caller ev =>
      by_cases he : eventEnabled k s ev = true
      · cases hc : callerStep k ev s.caller s.checkpointTs with
        | none => left; simp [he, hc]
        | some st =>
          right; right; right; left
          exact ⟨ev, st, rfl, he, hc, by simp [he, hc]⟩
      · left; simp [he]
    | worker p inp mqProducer =>
      by_cases hw : p < k.partitionNum ∧ (s.workers p).returned = none
      · simp only [hw, and_self, if_true]
        cases inp with
        | ctxDone =>
          right; right; right; right
          exact ⟨p, _, mqProducer, rfl, hw.1, hw.2, Or.inr ⟨rfl, by simp, rfl⟩⟩
        | tick =>
          right; right; right; right
          exact ⟨p, _, mqProducer, rfl, hw.1, hw.2, Or.inr ⟨rfl, by simp, rfl⟩⟩
        | recv e =>
          cases hq : s.partitionInput p with
          | nil => left; rfl
          | cons e' rest =>
            by_cases hee : e' = e
            · right; right; right; right
              subst hee
              exact ⟨p, _, mqProducer, rfl, hw.1, hw.2, Or.inl ⟨e', rest, rfl, hq, by simp⟩⟩
            · left; simp [hee]
      · left; simp [hw]
/-- A worker stores only on a barrier it received, and stores the barrier's timestamp. -/
theorem workerStep_store {σ : Type} (k : mqSink σ) (p : Nat) (mqProducer : ProducerAnswers)
    (inp : WorkerInput) (w : Worker σ) (v : Nat)
    (h : (workerStep k p mqProducer inp w).2.store = some v) :
    inp = .recv (Item.Barrier v) ∧ v ≠ 0 := by
  have hflush : ∀ op (w' : Worker σ), (flushOrReturn k p mqProducer op w').2.store = none := by
    intro op w'
    unfold flushOrReturn flushToProducer
    by_cases h0 : w'.batchSize = 0
    · simp [h0, WorkerOut.none, WorkerOut.err]
    · simp only [h0, if_false]
      split <;> rfl
  cases inp with
  | ctxDone => simp [workerStep, WorkerOut.none] at h
  | tick => simp [workerStep, hflush] at h
  | recv e =>
    obtain ⟨row, ts⟩ := e
    cases row with
    | none =>
      by_cases hts : ts = 0
      · simp [workerStep, hts, WorkerOut.none] at h
      · simp only [workerStep, ne_eq, hts, not_false_eq_true, if_true] at h
        split at h
        · rw [hflush] at h; cases h
        · simp only [Option.some.injEq] at h
          subst h
          exact ⟨rfl, hts⟩
    | some r =>
      simp only [workerStep] at h
      split at h
      · simp [WorkerOut.none] at h
      · split_ifs at h
        · rw [hflush] at h; cases h
        · rw [hflush] at h; cases h
        · simp [WorkerOut.none] at h

theorem applyWorker_resolvedTs {σ : Type} (p : Nat) (x : Worker σ × WorkerOut) (s : State σ)
    (q : Nat) :
    (applyWorker p x s).partitionResolvedTs q
      = if q = p then x.2.store.getD (s.partitionResolvedTs p) else s.partitionResolvedTs q := by
  unfold applyWorker
  cases x.2.store with
  | none => by_cases h : q = p <;> simp [h]
  | some v => by_cases h : q = p <;> simp [h, Function.update]

/-- Only the worker of partition `p` writes the slot `partitionResolvedTs[p]`. -/
theorem step_resolvedTs_other {σ : Type} (k : mqSink σ) (l : Label) (s : State σ) (p : Nat)
    (hl : ∀ inp mqProducer, l ≠ .worker p inp mqProducer) :
    (step k l s).partitionResolvedTs p = s.partitionResolvedTs p := by
  rcases step_cases k l s with h | ⟨rows, -, -, h⟩ | ⟨t, -, -, h⟩ | ⟨ev, st, -, -, -, h⟩ |
      ⟨q, inp, mqProducer, hlq, -, -, h⟩
  · rw [h]
  · rw [h]
  · rw [h]
  · rw [h]
    unfold applyCaller applyEffect
    cases st.effect with
    | none => rfl
    | some e => cases e <;> rfl
  · have hqp : p ≠ q := by
      rintro rfl
      exact hl inp mqProducer hlq
    rcases h with ⟨e, rest, -, -, h⟩ | ⟨-, -, h⟩
    · rw [h, applyWorker_resolvedTs, if_neg hqp]
    · rw [h, applyWorker_resolvedTs, if_neg hqp]

theorem barriersOf_append (a b : List Item) :
    barriersOf (a ++ b) = barriersOf a ++ barriersOf b := by
  simp [barriersOf, List.filterMap_append]

theorem barriersOf_row (row : RowChangedEvent) : barriersOf [Item.Row row] = [] := by
  simp [barriersOf, Item.Row, List.filterMap_cons]

theorem barriersOf_barrier (t : Nat) :
    barriersOf [Item.Barrier t] = if t = 0 then [] else [t] := by
  by_cases h : t = 0 <;> simp [barriersOf, Item.Barrier, List.filterMap_cons, h]
theorem applyCaller_fields {σ : Type} (st : CallerStep) (s : State σ) :
    (applyCaller st s).caller = st.pc ∧
      (applyCaller st s).checkpointTs = st.checkpointTs ∧
      (applyCaller st s).returns = s.returns ++ st.ret.toList ∧
      (applyCaller st s).partitionResolvedTs = s.partitionResolvedTs ∧
      (applyCaller st s).workers = s.workers ∧
      (applyCaller st s).partitionInput
        = (match st.effect with
          | some (.send p e) => Function.update s.partitionInput p (s.partitionInput p ++ [e])
          | _ => s.partitionInput) ∧
      (applyCaller st s).emitted
        = (match st.effect with
          | some (.send _ e) => s.emitted ++ e.row.toList
          | _ => s.emitted) ∧
      (applyCaller st s).producerLog
        = (match st.effect with
          | some (.call c) => s.producerLog ++ [⟨c, []⟩]
          | _ => s.producerLog) := by
  unfold applyCaller applyEffect
  cases st.effect with
  | none => simp
  | some e => cases e <;> simp

/-- A step of the caller does not change the `resolvedTs` of the flush in flight. -/
theorem callerStep_flushing {σ : Type} (k : mqSink σ) (ev : CallerEvent) (pc : Caller) (c : Nat)
    (st : CallerStep) (h : callerStep k ev pc c = some st) (t : Nat)
    (ht : st.pc.flushing = some t) : pc.flushing = some t := by
  rcases callerStep_cases k ev pc c st h with ⟨_, _, _, rfl, -, rfl⟩ | ⟨_, _, _, rfl, -, rfl⟩ |
    ⟨_, _, rfl, -, rfl⟩ | ⟨_, _, rfl, -, rfl⟩ | ⟨_, rfl, -, rfl⟩ | ⟨_, rfl, -, rfl⟩ |
    ⟨_, _, _, rfl, -, -, rfl⟩ | ⟨_, _, _, rfl, -, -, rfl⟩ | ⟨_, _, rfl, -, rfl⟩ | ⟨_, rfl, -, rfl⟩
  · cases ht
  · rw [(emitLoop_flushing k _ _).1] at ht; cases ht
  · cases ht
  · rw [flushEnqueueFrom_flushing] at ht; exact ht
  · cases ht
  · rw [flushLoadFrom_flushing] at ht; exact ht
  · exact ht
  · rw [flushLoadFrom_flushing] at ht; exact ht
  · cases ht
  · cases ht

theorem applyWorker_fields {σ : Type} (p : Nat) (x : Worker σ × WorkerOut) (s : State σ) :
    (applyWorker p x s).caller = s.caller ∧
      (applyWorker p x s).checkpointTs = s.checkpointTs ∧
      (applyWorker p x s).returns = s.returns ∧
      (applyWorker p x s).partitionInput = s.partitionInput ∧
      (applyWorker p x s).emitted = s.emitted ∧
      (applyWorker p x s).producerLog = s.producerLog ++ x.2.sent ∧
      (applyWorker p x s).workers = Function.update s.workers p x.1 :=
  ⟨rfl, rfl, rfl, rfl, rfl, rfl, rfl⟩

theorem ResolvedInv_step {σ : Type} (k : mqSink σ) (l : Label) (s : State σ) (g : Nat)
    (h : ResolvedInv g s) (hl : ∀ t, l = .FlushRowChangedEvents t → g ≤ t) :
    ∃ g', (g' = g ∨ l = .FlushRowChangedEvents g') ∧ ResolvedInv g' (step k l s) ∧
      ∀ p, s.partitionResolvedTs p ≤ (step k l s).partitionResolvedTs p := by
  obtain ⟨h1, h2, h3, h4⟩ := h
  rcases step_cases k l s with e | ⟨rows, -, -, e⟩ | ⟨t, hlt, -, e⟩ | ⟨ev, st, -, -, hst, e⟩ |
      ⟨q, inp, mqProducer, -, -, -, e⟩
  · rw [e]; exact ⟨g, Or.inl rfl, ⟨h1, h2, h3, h4⟩, fun _ => le_rfl⟩
  · rw [e]
    refine ⟨g, Or.inl rfl, ⟨h1, h2, h3, ?_⟩, fun _ => le_rfl⟩
    intro t ht
    simp [(emitLoop_flushing k rows rows).1] at ht
  · rw [e]
    have hgt := hl t hlt
    refine ⟨t, Or.inr hlt, ⟨h1, fun p => le_trans (h2 p) hgt,
      fun p v hv => le_trans (h3 p v hv) hgt, ?_⟩, fun _ => le_rfl⟩
    intro t' ht'
    simp only [flushEntry] at ht'
    split_ifs at ht'
    · simp [Caller.flushing] at ht'
    · rw [flushEnqueueFrom_flushing] at ht'
      exact (Option.some.inj ht').symm
  · rw [e]
    obtain ⟨c1, -, -, c4, -, c6, -, -⟩ := applyCaller_fields st s
    refine ⟨g, Or.inl rfl, ?_, fun p => by rw [c4]⟩
    have hcases := callerStep_cases k ev s.caller s.checkpointTs st hst
    -- the flush in flight, if any, still aims at `g`
    have hfl : ∀ t, st.pc.flushing = some t → t = g := fun t ht =>
      h4 t (callerStep_flushing k ev s.caller s.checkpointTs st hst t ht)
    -- what the step appends to a channel is a row, or a barrier that carries `g`
    have hsend : ∀ p e, st.effect = some (.send p e) →
        barriersOf [e] = [] ∨ barriersOf [e] = [g] := by
      intro p e he
      rcases hcases with ⟨_, _, _, hc, -, rfl⟩ | ⟨_, _, _, hc, -, rfl⟩ | ⟨_, _, hc, -, rfl⟩ |
        ⟨t, _, hc, -, rfl⟩ | ⟨_, hc, -, rfl⟩ | ⟨_, hc, -, rfl⟩ | ⟨_, _, _, hc, -, -, rfl⟩ |
        ⟨_, _, _, hc, -, -, rfl⟩ | ⟨_, _, hc, -, rfl⟩ | ⟨_, hc, -, rfl⟩ <;>
      simp only [Option.some.injEq, CallerEffect.send.injEq, reduceCtorEq] at he
      · obtain ⟨-, rfl⟩ := he
        exact Or.inl (barriersOf_row _)
      · obtain ⟨-, rfl⟩ := he
        have htg : t = g := h4 t (by rw [hc]; rfl)
        rw [barriersOf_barrier]
        split_ifs
        · exact Or.inl rfl
        · exact Or.inr (by rw [htg])
    refine ⟨?_, fun p => by rw [c4]; exact h2 p, ?_, fun t ht => hfl t (by rw [← c1]; exact ht)⟩
    · intro p
      rw [c4, c6]
      cases heff : st.effect with
      | none => exact h1 p
      | some eff =>
        cases eff with
        | call c => exact h1 p
        | send q e =>
          by_cases hpq : p = q
          · subst hpq
            simp only [Function.update_same, barriersOf_append]
            rcases hsend p e heff with hb | hb
            · rw [hb, List.append_nil]; exact h1 p
            · rw [hb, ← List.cons_append, List.pairwise_append]
              refine ⟨h1 p, List.pairwise_singleton _ _, ?_⟩
              intro a ha b hb'
              rw [List.mem_singleton] at hb'
              subst hb'
              rcases List.mem_cons.mp ha with rfl | ha
              · exact h2 p
              · exact h3 p a ha
          · simp only [Function.update_noteq hpq]; exact h1 p
    · intro p v hv
      rw [c6] at hv
      cases heff : st.effect with
      | none => rw [heff] at hv; exact h3 p v hv
      | some eff =>
        rw [heff] at hv
        cases eff with
        | call c => exact h3 p v hv
        | send q e =>
          by_cases hpq : p = q
          · subst hpq
            simp only [Function.update_same, barriersOf_append, List.mem_append] at hv
            rcases hv with hv | hv
            · exact h3 p v hv
            · rcases hsend p e heff with hb | hb
              · rw [hb] at hv; cases hv
              · rw [hb, List.mem_singleton] at hv
                exact le_of_eq hv
          · simp only [Function.update_noteq hpq] at hv; exact h3 p v hv
  · have hfields : ∀ s0 : State σ, s0.caller = s.caller →
        s0.partitionResolvedTs = s.partitionResolvedTs →
        (∀ p, p ≠ q → s0.partitionInput p = s.partitionInput p) →
        (((workerStep k q mqProducer inp (s.workers q)).2.store = none ∧
            (barriersOf (s0.partitionInput q)).Sublist (barriersOf (s.partitionInput q))) ∨
          ∃ v, (workerStep k q mqProducer inp (s.workers q)).2.store = some v ∧
            barriersOf (s.partitionInput q) = v :: barriersOf (s0.partitionInput q)) →
        ∃ g', (g' = g ∨ l = .FlushRowChangedEvents g') ∧
          ResolvedInv g' (applyWorker q (workerStep k q mqProducer inp (s.workers q)) s0) ∧
          ∀ p, s.partitionResolvedTs p
            ≤ (applyWorker q (workerStep k q mqProducer inp (s.workers q)) s0).partitionResolvedTs p := by
      intro s0 hcal hres hchan hq
      obtain ⟨w1, -, -, w4, -, -, -⟩ :=
        applyWorker_fields q (workerStep k q mqProducer inp (s.workers q)) s0
      refine ⟨g, Or.inl rfl, ⟨?_, ?_, ?_, ?_⟩, ?_⟩
      · intro p
        rw [applyWorker_resolvedTs, w4, hres]
        by_cases hpq : p = q
        · subst hpq
          rw [if_pos rfl]
          rcases hq with ⟨hn, hsub⟩ | ⟨v, hv, hb⟩
          · rw [hn]
            exact (h1 p).sublist (hsub.cons₂ _)
          · rw [hv]
            have := h1 p
            rw [hb] at this
            exact (List.pairwise_cons.mp this).2
        · rw [if_neg hpq, hchan p hpq]; exact h1 p
      · intro p
        rw [applyWorker_resolvedTs, hres]
        by_cases hpq : p = q
        · subst hpq
          rw [if_pos rfl]
          rcases hq with ⟨hn, -⟩ | ⟨v, hv, hb⟩
          · rw [hn]; exact h2 p
          · rw [hv]
            exact h3 p v (by rw [hb]; exact List.mem_cons_self _ _)
        · rw [if_neg hpq]; exact h2 p
      · intro p v hv
        rw [w4] at hv
        by_cases hpq : p = q
        · subst hpq
          rcases hq with ⟨-, hsub⟩ | ⟨v', -, hb⟩
          · exact h3 p v (hsub.subset hv)
          · exact h3 p v (by rw [hb]; exact List.mem_cons_of_mem _ hv)
        · rw [hchan p hpq] at hv; exact h3 p v hv
      · intro t ht
        rw [w1, hcal] at ht
        exact h4 t ht
      · intro p
        rw [applyWorker_resolvedTs, hres]
        by_cases hpq : p = q
        · subst hpq
          rw [if_pos rfl]
          rcases hq with ⟨hn, -⟩ | ⟨v, hv, hb⟩
          · rw [hn]; exact le_rfl
          · rw [hv]
            have := h1 p
            rw [hb] at this
            exact (List.pairwise_cons.mp this).1 v (List.mem_cons_self _ _)
        · rw [if_neg hpq]
    rcases e with ⟨it, rest, hinp, hin, e⟩ | ⟨-, hnot, e⟩
    · rw [e]
      refine hfields _ rfl rfl (fun p hp => by simp [Function.update_noteq hp]) ?_
      have hsplit : barriersOf (s.partitionInput q) = barriersOf [it] ++ barriersOf rest := by
        rw [hin, ← barriersOf_append]; rfl
      simp only [Function.update_same]
      cases hst : (workerStep k q mqProducer inp (s.workers q)).2.store with
      | none =>
        left
        exact ⟨rfl, by rw [hsplit]; exact List.sublist_append_right _ _⟩
      | some v =>
        right
        obtain ⟨hi, hv0⟩ := workerStep_store k q mqProducer inp (s.workers q) v hst
        rw [hinp] at hi
        have hev : it = Item.Barrier v := WorkerInput.recv.inj hi
        refine ⟨v, rfl, ?_⟩
        rw [hsplit, hev, barriersOf_barrier, if_neg hv0]; rfl
    · rw [e]
      refine hfields s rfl rfl (fun _ _ => rfl) ?_
      cases hst : (workerStep k q mqProducer inp (s.workers q)).2.store with
      | none => exact Or.inl ⟨rfl, List.Sublist.refl _⟩
      | some v =>
        exact absurd (workerStep_store k q mqProducer inp (s.workers q) v hst).1 (hnot _)
theorem flushTargets_cons (l : Label) (ls : List Label) :
    flushTargets (l :: ls)
      = (match l with
        | .FlushRowChangedEvents t => [t]
        | _ => []) ++ flushTargets ls := by
  cases l <;> simp [flushTargets, List.filterMap_cons]

theorem ResolvedInv_run {σ : Type} (k : mqSink σ) (ls : List Label) :
    ∀ (s : State σ) (g : Nat), ResolvedInv g s → (∀ t ∈ flushTargets ls, g ≤ t) →
      (flushTargets ls).Pairwise (· ≤ ·) →
      ∃ g', (g' = g ∨ g' ∈ flushTargets ls) ∧ ResolvedInv g' (run k ls s) ∧
        ∀ p, s.partitionResolvedTs p ≤ (run k ls s).partitionResolvedTs p := by
  induction ls with
  | nil =>
    intro s g h _ _
    exact ⟨g, Or.inl rfl, h, fun _ => le_rfl⟩
  | cons l ls ih =>
    intro s g h hge hs
    rw [flushTargets_cons] at hge hs
    have hl : ∀ t, l = .FlushRowChangedEvents t → g ≤ t := by
      intro t ht
      subst ht
      exact hge t (by simp)
    obtain ⟨g1, hg1, hinv, hmono⟩ := ResolvedInv_step k l s g h hl
    have hge1 : ∀ t ∈ flushTargets ls, g1 ≤ t := by
      intro t ht
      rcases hg1 with rfl | hg1
      · exact hge t (List.mem_append_right _ ht)
      · subst hg1
        simp only [List.singleton_append, List.pairwise_cons] at hs
        exact hs.1 t ht
    obtain ⟨g2, hg2, hinv2, hmono2⟩ := ih (step k l s) g1 hinv hge1
      (List.Pairwise.sublist (List.sublist_append_right _ _) hs)
    refine ⟨g2, ?_, hinv2, fun p => le_trans (hmono p) (hmono2 p)⟩
    rw [flushTargets_cons]
    rcases hg2 with rfl | hg2
    · rcases hg1 with rfl | hg1
      · exact Or.inl rfl
      · subst hg1
        exact Or.inr (by simp)
    · exact Or.inr (List.mem_append_right _ hg2)

theorem ResolvedInv_init {σ : Type} (k : mqSink σ) : ResolvedInv 0 (State.init k) := by
  refine ⟨?_, ?_, ?_, ?_⟩ <;> simp [State.init, barriersOf, Caller.flushing]

/-- C8 as stated fails: on `demoSink`, a flush to `20` whose `Producer.Flush` fails leaves
`checkpointTs` at `0` and the slot of partition `0` at `20`; a following flush to `10`
sends a barrier `10`, and when worker `0` processes it the slot goes down to `10`. -/
theorem partitionResolvedTs_decreases :
    (run demoSink failedFlush (State.init demoSink)).partitionResolvedTs 0 = 20 ∧
      (run demoSink failedFlush (State.init demoSink)).checkpointTs = 0 ∧
      (run demoSink failedFlush (State.init demoSink)).returns
        = [.FlushRowChangedEvents 20 0 (some (.Producer 1))] ∧
      (run demoSink (failedFlush ++ lowerFlush) (State.init demoSink)).partitionResolvedTs 0
        = 10 := by
  decide

/-- C8, amended. When no `FlushRowChangedEvents` is called with a `resolvedTs` below that
of an earlier call, then along any sequence of steps of a fresh sink (calls, their
successes, cancellations and producer failures, worker iterations, in any order) the value
of `partitionResolvedTs[p]` never decreases; and in any state a step that is not an
iteration of worker `p` leaves `partitionResolvedTs[p]` as it is. -/
theorem partitionResolvedTs_monotone {σ : Type} (k : mqSink σ) (ls ls' : List Label) (p : Nat)
    (h : (flushTargets (ls ++ ls')).Pairwise (· ≤ ·)) :
    (run k ls (State.init k)).partitionResolvedTs p
        ≤ (run k (ls ++ ls') (State.init k)).partitionResolvedTs p ∧
      ∀ (s : State σ) (l : Label), (∀ inp mqProducer, l ≠ .worker p inp mqProducer) →
        (step k l s).partitionResolvedTs p = s.partitionResolvedTs p := by
  refine ⟨?_, fun s l hl => step_resolvedTs_other k l s p hl⟩
  have hsplit : flushTargets (ls ++ ls') = flushTargets ls ++ flushTargets ls' := by
    simp [flushTargets, List.filterMap_append]
  rw [hsplit, List.pairwise_append] at h
  obtain ⟨h1, h2, h3⟩ := h
  obtain ⟨g, hg, hinv, -⟩ := ResolvedInv_run k ls (State.init k) 0 (ResolvedInv_init k)
    (fun _ _ => Nat.zero_le _) h1
  have hge : ∀ t ∈ flushTargets ls', g ≤ t := by
    intro t ht
    rcases hg with rfl | hg
    · exact Nat.zero_le _
    · exact h3 g hg t ht
  obtain ⟨-, -, -, hmono⟩ := ResolvedInv_run k ls' _ g hinv hge h2
  rw [run_append]
  exact hmono p

/-- After `smallFlush` the slot of partition `0` holds `15`; a later flush to `20` takes it
to `20`. -/
theorem partitionResolvedTs_monotone_witness :
    (run demoSink smallFlush (State.init demoSink)).partitionResolvedTs 0 = 15 ∧
      (run demoSink (smallFlush ++ higherFlush) (State.init demoSink)).partitionResolvedTs 0
        = 20 ∧
      (run demoSink smallFlush (State.init demoSink)).partitionResolvedTs 0
        ≤ (run demoSink (smallFlush ++ higherFlush) (State.init demoSink)).partitionResolvedTs 0 :=
  ⟨by decide, by decide,
    (partitionResolvedTs_monotone demoSink smallFlush higherFlush 0 (by decide)).1⟩
theorem sentRows_append (p : Nat) (a b : List Sent) :
    sentRows p (a ++ b) = sentRows p a ++ sentRows p b := by
  simp [sentRows, List.flatMap_append]

theorem rowsOf_append (a b : List Item) : rowsOf (a ++ b) = rowsOf a ++ rowsOf b := by
  simp [rowsOf, List.filterMap_append]

theorem rowsOf_cons (e : Item) (rest : List Item) :
    rowsOf (e :: rest) = e.row.toList ++ rowsOf rest := by
  cases h : e.row <;> simp [rowsOf, List.filterMap_cons, h]

theorem emittedOn_append {σ : Type} (k : mqSink σ) (p : Nat) (a b : List RowChangedEvent) :
    emittedOn k p (a ++ b) = emittedOn k p a ++ emittedOn k p b := by
  simp [emittedOn, List.filter_append]

/-- The rows a flush of a worker hands to `SendMessage`: its whole batch, on its own
partition. -/
theorem flushOrReturn_sent {σ : Type} (k : mqSink σ) (q : Nat) (mqProducer : ProducerAnswers)
    (op : EncoderResult) (w : Worker σ) (hop : op ≠ .EncoderNoOperation)
    (hlen : w.batchSize = w.batch.length) (p : Nat) :
    sentRows p (flushOrReturn k q mqProducer op w).2.sent = if p = q then w.batch else [] := by
  obtain ⟨-, -, -, -, -, -, f7, f8⟩ := flushOrReturn_spec k q mqProducer op w hlen
  by_cases h0 : w.batchSize = 0
  · have hb : w.batch = [] := by
      rw [h0] at hlen; exact List.eq_nil_of_length_eq_zero hlen.symm
    rw [f7 h0, hb]
    simp [WorkerOut.sent, WorkerOut.none, sentRows]
  · obtain ⟨-, e2, e3⟩ := f8 h0
    have hq0 : (0 : Int) ≤ (q : Int) := Int.natCast_nonneg q
    have hpq : ((q : Int) = (p : Int)) ↔ p = q := by omega
    unfold WorkerOut.sent
    rw [e2, e3]
    cases op with
    | EncoderNoOperation => exact absurd rfl hop
    | EncoderNeedAsyncWrite =>
      by_cases h : p = q <;> simp [writeToProducer, hq0, sentRows, hpq, h]
    | EncoderNeedSyncWrite =>
      cases hs : mqProducer.SendMessage <;>
        by_cases h : p = q <;> simp [writeToProducer, hq0, sentRows, hpq, h, hs]
/-- What one iteration of worker `q` hands to `SendMessage`: nothing on another partition;
on its own, nothing or its whole batch with the row it received; while it runs no row is
lost; and when it stores, its whole batch was handed over. -/
theorem workerStep_flow {σ : Type} (k : mqSink σ) (q : Nat) (mqProducer : ProducerAnswers)
    (inp : WorkerInput) (w : Worker σ) (hlen : w.batchSize = w.batch.length) :
    (∀ p, p ≠ q → sentRows p (workerStep k q mqProducer inp w).2.sent = []) ∧
    (sentRows q (workerStep k q mqProducer inp w).2.sent = [] ∨
      (sentRows q (workerStep k q mqProducer inp w).2.sent = w.batch ++ inp.row.toList ∧
        (workerStep k q mqProducer inp w).1.batch = [])) ∧
    ((workerStep k q mqProducer inp w).1.returned = none →
      w.batch ++ inp.row.toList
        = sentRows q (workerStep k q mqProducer inp w).2.sent
            ++ (workerStep k q mqProducer inp w).1.batch) ∧
    (∀ v, (workerStep k q mqProducer inp w).2.store = some v →
      (workerStep k q mqProducer inp w).1.batch = [] ∧
        sentRows q (workerStep k q mqProducer inp w).2.sent = w.batch) := by
  have hnone : ∀ p, sentRows p WorkerOut.none.sent = [] := by
    intro p; simp [WorkerOut.sent, WorkerOut.none, sentRows]
  -- the facts for an iteration that ends with a flush of the worker `w'`
  have hflush : ∀ (op : EncoderResult) (w' : Worker σ), op ≠ .EncoderNoOperation →
      w'.batchSize = w'.batch.length →
      (∀ p, p ≠ q → sentRows p (flushOrReturn k q mqProducer op w').2.sent = []) ∧
        sentRows q (flushOrReturn k q mqProducer op w').2.sent = w'.batch ∧
        (flushOrReturn k q mqProducer op w').1.batch = [] ∧
        (flushOrReturn k q mqProducer op w').2.store = none := by
    intro op w' hop hl
    obtain ⟨-, f2, f3, -⟩ := flushOrReturn_spec k q mqProducer op w' hl
    refine ⟨?_, ?_, f2, f3⟩
    · intro p hp
      rw [flushOrReturn_sent k q mqProducer op w' hop hl p, if_neg hp]
    · rw [flushOrReturn_sent k q mqProducer op w' hop hl q, if_pos rfl]
  cases inp with
  | ctxDone =>
    simp only [workerStep, hnone, WorkerInput.row]
    exact ⟨fun _ _ => trivial, Or.inl trivial, fun h => by simp at h,
      fun v h => by simp [WorkerOut.none] at h⟩
  | tick =>
    obtain ⟨g1, g2, g3, g4⟩ := hflush .EncoderNeedAsyncWrite w (by simp) hlen
    simp only [workerStep, WorkerInput.row, Option.toList, List.append_nil]
    exact ⟨g1, Or.inr ⟨g2, g3⟩, fun _ => by rw [g2, g3, List.append_nil],
      fun v h => by rw [g4] at h; cases h⟩
  | recv e =>
    cases hrow : e.row with
    | none =>
      by_cases hts : e.resolvedTs = 0
      · simp only [workerStep, hrow, hts, ne_eq, not_true_eq_false, if_false, hnone,
          WorkerInput.row, Option.toList, List.append_nil, List.nil_append]
        exact ⟨fun _ _ => trivial, Or.inl trivial, fun _ => trivial,
          fun v h => by simp [WorkerOut.none] at h⟩
      · obtain ⟨g1, g2, g3, g4⟩ := hflush .EncoderNeedAsyncWrite w (by simp) hlen
        simp only [workerStep, hrow, ne_eq, hts, not_false_eq_true, if_true,
          WorkerInput.row, Option.toList, List.append_nil]
        cases hret : (flushOrReturn k q mqProducer .EncoderNeedAsyncWrite w).1.returned with
        | some err =>
          exact ⟨g1, Or.inr ⟨g2, g3⟩, fun h => by simp [hret] at h,
            fun v h => by rw [g4] at h; cases h⟩
        | none =>
          have hsent : ∀ p, sentRows p
              ({ (flushOrReturn k q mqProducer .EncoderNeedAsyncWrite w).2 with
                  store := some e.resolvedTs, notified := true } : WorkerOut).sent
              = sentRows p (flushOrReturn k q mqProducer .EncoderNeedAsyncWrite w).2.sent :=
            fun p => rfl
          simp only [hsent]
          exact ⟨g1, Or.inr ⟨g2, g3⟩, fun _ => by rw [g2, g3, List.append_nil],
            fun v _ => ⟨g3, g2⟩⟩
    | some r =>
      cases happ : k.codec.AppendRowChangedEvent w.encoder r with
      | error err =>
        simp only [workerStep, hrow, happ, hnone]
        exact ⟨fun _ _ => trivial, Or.inl trivial, fun h => by simp at h,
          fun v h => by simp [WorkerOut.none] at h⟩
      | ok x =>
        obtain ⟨encoder, op⟩ := x
        simp only [workerStep, hrow, happ, WorkerInput.row, Option.toList]
        split_ifs with hsize hop
        · obtain ⟨g1, g2, g3, g4⟩ := hflush .EncoderNeedAsyncWrite
            { w with encoder := encoder, batchSize := w.batchSize + 1,
                     batch := w.batch ++ [r], sizeBeforeLast := k.codec.Size w.encoder }
            (by simp) (by simp [hlen])
          exact ⟨g1, Or.inr ⟨g2, g3⟩, fun _ => by rw [g2, g3, List.append_nil],
            fun v h => by rw [g4] at h; cases h⟩
        · obtain ⟨g1, g2, g3, g4⟩ := hflush op
            { w with encoder := encoder, batchSize := w.batchSize + 1,
                     batch := w.batch ++ [r], sizeBeforeLast := k.codec.Size w.encoder }
            (by rcases hop with h | h <;> simp [h]) (by simp [hlen])
          exact ⟨g1, Or.inr ⟨g2, g3⟩, fun _ => by rw [g2, g3, List.append_nil],
            fun v h => by rw [g4] at h; cases h⟩
        · simp only [hnone]
          exact ⟨fun _ _ => trivial, Or.inl trivial, fun _ => by simp,
            fun v h => by simp [WorkerOut.none] at h⟩
theorem Covered_congr {σ : Type} (k : mqSink σ) (s s' : State σ) (p ts : Nat)
    (he : s'.emitted = s.emitted) (hl : s'.producerLog = s.producerLog)
    (h : Covered k p ts s) : Covered k p ts s' := by
  unfold Covered at h ⊢
  rw [he, hl]; exact h

theorem Covered_mono {σ : Type} (k : mqSink σ) (s : State σ) (p ts ts' : Nat) (hle : ts' ≤ ts)
    (h : Covered k p ts s) : Covered k p ts' s := by
  obtain ⟨rest, h1, h2⟩ := h
  exact ⟨rest, h1, fun row hrow => lt_of_le_of_lt hle (h2 row hrow)⟩

/-- Handing to `SendMessage` a further prefix of what is not yet handed over keeps
`Covered`. -/
theorem Covered_sent {σ : Type} (k : mqSink σ) (s s' : State σ) (p ts : Nat)
    (extra : List Sent) (tail : List RowChangedEvent)
    (he : s'.emitted = s.emitted) (hl : s'.producerLog = s.producerLog ++ extra)
    (hpre : emittedOn k p s.emitted = sentRows p s.producerLog ++ (sentRows p extra ++ tail))
    (h : Covered k p ts s) : Covered k p ts s' := by
  obtain ⟨rest, h1, h2⟩ := h
  have hrest : rest = sentRows p extra ++ tail := by
    rw [h1] at hpre
    exact List.append_cancel_left hpre
  refine ⟨tail, ?_, ?_⟩
  · rw [he, hl, sentRows_append, hpre, List.append_assoc]
  · intro row hrow
    exact h2 row (by rw [hrest]; exact List.mem_append_right _ hrow)

theorem Covered_same_sent {σ : Type} (k : mqSink σ) (s s' : State σ) (p ts : Nat)
    (extra : List Sent) (he : s'.emitted = s.emitted)
    (hl : s'.producerLog = s.producerLog ++ extra) (hnil : sentRows p extra = [])
    (h : Covered k p ts s) : Covered k p ts s' := by
  obtain ⟨rest, h1, h2⟩ := h
  exact ⟨rest, by rw [he, hl, sentRows_append, hnil, List.append_nil]; exact h1, h2⟩

/-- Emitting a row that is above `ts`, or on another partition, keeps `Covered`. -/
theorem Covered_emit {σ : Type} (k : mqSink σ) (s s' : State σ) (p ts : Nat)
    (row : RowChangedEvent) (he : s'.emitted = s.emitted ++ [row])
    (hl : s'.producerLog = s.producerLog)
    (hrow : k.Dispatch row = (p : Int) → ts < row.CommitTs)
    (h : Covered k p ts s) : Covered k p ts s' := by
  obtain ⟨rest, h1, h2⟩ := h
  refine ⟨rest ++ emittedOn k p [row], ?_, ?_⟩
  · rw [he, hl, emittedOn_append, h1, List.append_assoc]
  · intro r hr
    rcases List.mem_append.mp hr with hr | hr
    · exact h2 r hr
    · simp only [emittedOn, List.mem_filter, List.mem_singleton, decide_eq_true_eq] at hr
      obtain ⟨rfl, hd⟩ := hr
      exact hrow hd

/-- The view of an iteration of worker `q` on its channel: it takes the items `items` (one
item, or none on a tick or a cancellation) from the head, the rows among them are the row
of its input, and if it stores `v` the barrier `v` is what it took. -/
theorem step_worker_view {σ : Type} (k : mqSink σ) (s : State σ) (q : Nat) (inp : WorkerInput)
    (mqProducer : ProducerAnswers) (s' : State σ)
    (h : (∃ e rest, inp = .recv e ∧ s.partitionInput q = e :: rest ∧
            s' = applyWorker q (workerStep k q mqProducer inp (s.workers q))
              { s with partitionInput := Function.update s.partitionInput q rest }) ∨
          (inp.row = none ∧ (∀ e, inp ≠ .recv e) ∧
            s' = applyWorker q (workerStep k q mqProducer inp (s.workers q)) s)) :
    ∃ items rest, s.partitionInput q = items ++ rest ∧ rowsOf items = inp.row.toList ∧
      (∀ v, (workerStep k q mqProducer inp (s.workers q)).2.store = some v →
        barriersOf items = [v]) ∧
      s' = applyWorker q (workerStep k q mqProducer inp (s.workers q))
        { s with partitionInput := Function.update s.partitionInput q rest } := by
  rcases h with ⟨e, rest, hinp, hin, h⟩ | ⟨hrow, hnot, h⟩
  · refine ⟨[e], rest, hin, ?_, ?_, h⟩
    · rw [hinp]
      cases he : e.row <;> simp [rowsOf, WorkerInput.row, he]
    · intro v hv
      obtain ⟨hi, hv0⟩ := workerStep_store k q mqProducer inp (s.workers q) v hv
      rw [hinp] at hi
      rw [WorkerInput.recv.inj hi, barriersOf_barrier, if_neg hv0]
  · refine ⟨[], s.partitionInput q, rfl, ?_, ?_, ?_⟩
    · rw [hrow]; rfl
    · intro v hv
      exact absurd (workerStep_store k q mqProducer inp (s.workers q) v hv).1 (hnot _)
    · rw [h, Function.update_eq_self]

/-- What a step of the caller sends on a channel is a row of an `EmitRowChangedEvents` in
flight, on the partition `Dispatch` gives, or a barrier that carries the `resolvedTs` of
the flush in flight. -/
theorem callerStep_send {σ : Type} (k : mqSink σ) (ev : CallerEvent) (pc : Caller) (c : Nat)
    (st : CallerStep) (h : callerStep k ev pc c = some st) (p : Nat) (e : Item)
    (he : st.effect = some (.send p e)) :
    (∃ rows row rest, pc = .emitSelect rows row rest ∧ e = Item.Row row ∧
        p = (k.Dispatch row).toNat ∧ st.pc = (emitLoop k rows rest).1 ∧
        st.ret = (emitLoop k rows rest).2 ∧ st.checkpointTs = c) ∨
      (∃ t i, pc = .flushEnqueue t i ∧ e = Item.Barrier t ∧ p = i ∧
        st.pc = flushEnqueueFrom k t (i + 1) ∧ st.ret = none ∧ st.checkpointTs = c) := by
  rcases callerStep_cases k ev pc c st h with ⟨_, _, _, rfl, -, rfl⟩ |
    ⟨rows, row, rest, rfl, -, rfl⟩ | ⟨_, _, rfl, -, rfl⟩ | ⟨t, i, rfl, -, rfl⟩ |
    ⟨_, rfl, -, rfl⟩ | ⟨_, rfl, -, rfl⟩ | ⟨_, _, _, rfl, -, -, rfl⟩ |
    ⟨_, _, _, rfl, -, -, rfl⟩ | ⟨_, _, rfl, -, rfl⟩ | ⟨_, rfl, -, rfl⟩ <;>
  simp only [Option.some.injEq, CallerEffect.send.injEq, reduceCtorEq] at he
  · obtain ⟨rfl, rfl⟩ := he
    exact Or.inl ⟨rows, row, rest, rfl, rfl, rfl, rfl, rfl, rfl⟩
  · obtain ⟨rfl, rfl⟩ := he
    exact Or.inr ⟨t, _, rfl, rfl, rfl, rfl, rfl, rfl⟩

/-- A step of the caller leaves `checkpointTs`, or sets it to the `resolvedTs` of the
flush whose `Producer.Flush` returned without error. -/
theorem callerStep_checkpointTs {σ : Type} (k : mqSink σ) (ev : CallerEvent) (pc : Caller)
    (c : Nat) (st : CallerStep) (h : callerStep k ev pc c = some st) :
    st.checkpointTs = c ∨
      (pc = .flushProducer st.checkpointTs ∧ ev = .producerFlush none ∧
        st.ret = some (.FlushRowChangedEvents st.checkpointTs st.checkpointTs none) ∧
        st.pc = .idle ∧ st.effect = some (.call .Flush)) := by
  rcases callerStep_cases k ev pc c st h with ⟨_, _, _, rfl, -, rfl⟩ |
    ⟨rows, row, rest, rfl, -, rfl⟩ | ⟨_, _, rfl, -, rfl⟩ | ⟨t, i, rfl, -, rfl⟩ |
    ⟨_, rfl, -, rfl⟩ | ⟨_, rfl, -, rfl⟩ | ⟨_, _, _, rfl, -, -, rfl⟩ |
    ⟨_, _, _, rfl, -, -, rfl⟩ | ⟨_, _, rfl, -, rfl⟩ | ⟨_, rfl, rfl, rfl⟩
  all_goals first | exact Or.inl rfl | exact Or.inr ⟨rfl, rfl, rfl, rfl, rfl⟩
theorem Bounded_mono {σ : Type} (s : State σ) (g g' : Nat) (hle : g ≤ g') (h : Bounded s g) :
    Bounded s g' :=
  ⟨fun p => le_trans (h.1 p) hle, fun p v hv => le_trans (h.2.1 p v hv) hle,
    le_trans h.2.2.1 hle, fun t ht => le_trans (h.2.2.2 t ht) hle⟩

/-- A step keeps the bound `g`, a `FlushRowChangedEvents` being called with at most `g`. -/
theorem Bounded_step {σ : Type} (k : mqSink σ) (l : Label) (s : State σ) (g : Nat)
    (h : Bounded s g) (hl : ∀ t, l = .FlushRowChangedEvents t → t ≤ g) :
    Bounded (step k l s) g := by
  obtain ⟨h1, h2, h3, h4⟩ := h
  rcases step_cases k l s with e | ⟨rows, -, -, e⟩ | ⟨t, hlt, -, e⟩ | ⟨ev, st, -, -, hst, e⟩ |
      ⟨q, inp, mqProducer, -, -, -, e⟩
  · rw [e]; exact ⟨h1, h2, h3, h4⟩
  · rw [e]
    refine ⟨h1, h2, h3, ?_⟩
    intro t ht
    simp [(emitLoop_flushing k rows rows).1] at ht
  · rw [e]
    refine ⟨h1, h2, h3, ?_⟩
    intro t' ht'
    simp only [flushEntry] at ht'
    split_ifs at ht'
    · simp [Caller.flushing] at ht'
    · rw [flushEnqueueFrom_flushing] at ht'
      rw [← Option.some.inj ht']
      exact hl t hlt
  · rw [e]
    obtain ⟨c1, c2, -, c4, -, c6, -, -⟩ := applyCaller_fields st s
    refine ⟨fun p => by rw [c4]; exact h1 p, ?_, ?_, ?_⟩
    · intro p v hv
      rw [c6] at hv
      cases heff : st.effect with
      | none => rw [heff] at hv; exact h2 p v hv
      | some eff =>
        rw [heff] at hv
        cases eff with
        | call c => exact h2 p v hv
        | send q it =>
          by_cases hpq : p = q
          · subst hpq
            simp only [Function.update_same, barriersOf_append, List.mem_append] at hv
            rcases hv with hv | hv
            · exact h2 p v hv
            · rcases callerStep_send k ev s.caller s.checkpointTs st hst p it heff with
                ⟨rows, row, rest, -, rfl, -⟩ | ⟨t, i, hc, rfl, -⟩
              · rw [barriersOf_row] at hv; cases hv
              · rw [barriersOf_barrier] at hv
                split_ifs at hv
                · cases hv
                · rw [List.mem_singleton] at hv
                  rw [hv]
                  exact h4 t (by rw [hc]; rfl)
          · simp only [Function.update_noteq hpq] at hv; exact h2 p v hv
    · rw [c2]
      rcases callerStep_checkpointTs k ev s.caller s.checkpointTs st hst with hc | ⟨hc, -⟩
      · rw [hc]; exact h3
      · exact h4 _ (by rw [hc]; rfl)
    · intro t ht
      rw [c1] at ht
      exact h4 t (callerStep_flushing k ev s.caller s.checkpointTs st hst t ht)
  · obtain ⟨items, rest, hin, -, hstore, e⟩ :=
      step_worker_view k s q inp mqProducer (step k l s) e
    rw [e]
    have hsub : ∀ v ∈ barriersOf rest, v ∈ barriersOf (s.partitionInput q) := by
      intro v hv
      rw [hin, barriersOf_append]
      exact List.mem_append_right _ hv
    refine ⟨?_, ?_, h3, h4⟩
    · intro p
      rw [applyWorker_resolvedTs]
      by_cases hpq : p = q
      · subst hpq
        rw [if_pos rfl]
        cases hst : (workerStep k p mqProducer inp (s.workers p)).2.store with
        | none => exact h1 p
        | some v =>
          refine h2 p v ?_
          rw [hin, barriersOf_append, hstore v hst]
          simp
      · rw [if_neg hpq]; exact h1 p
    · intro p v hv
      simp only [applyWorker] at hv
      by_cases hpq : p = q
      · subst hpq
        rw [Function.update_same] at hv
        exact h2 p v (hsub v hv)
      · rw [Function.update_noteq hpq] at hv
        exact h2 p v hv
theorem FlowInv_mono {σ : Type} (k : mqSink σ) (s : State σ) (g g' : Nat) (hle : g ≤ g')
    (h : FlowInv k g s) : FlowInv k g' s :=
  { h with bounded := Bounded_mono s g g' hle h.bounded }

/-- Where the loop of `EmitRowChangedEvents` gets to from the rows `rest0`: to its return,
all of them being ignored; to the `select` for the first row the filter keeps, when
`Dispatch` gives it a partition; or to a panic. -/
theorem emitLoop_spec {σ : Type} (k : mqSink σ) (rows rest0 : List RowChangedEvent) :
    (emitLoop k rows rest0 = (.idle, some (.EmitRowChangedEvents rows none)) ∧
        keptRows k rest0 = []) ∨
      (∃ row rest, emitLoop k rows rest0 = (.emitSelect rows row rest, none) ∧
        keptRows k rest0 = keptRows k (row :: rest) ∧
        (k.ShouldIgnoreDMLEvent row.StartTs row.Table.Schema row.Table.Table = false ∧
          0 ≤ k.Dispatch row ∧ k.Dispatch row < k.partitionNum) ∧
        ∀ r ∈ row :: rest, r ∈ rest0) ∨
      emitLoop k rows rest0 = (.panicked, none) := by
  induction rest0 with
  | nil => left; exact ⟨rfl, rfl⟩
  | cons row rest ih =>
    by_cases hig : k.ShouldIgnoreDMLEvent row.StartTs row.Table.Schema row.Table.Table = true
    · have he : emitLoop k rows (row :: rest) = emitLoop k rows rest := by simp [emitLoop, hig]
      have hk : keptRows k (row :: rest) = keptRows k rest := by simp [keptRows, hig]
      rw [he, hk]
      rcases ih with h | ⟨row', rest', h1, h2, h3, h4⟩ | h
      · exact Or.inl h
      · exact Or.inr (Or.inl ⟨row', rest', h1, h2, h3,
          fun r hr => List.mem_cons_of_mem _ (h4 r hr)⟩)
      · exact Or.inr (Or.inr h)
    · by_cases hr : 0 ≤ k.Dispatch row ∧ k.Dispatch row < k.partitionNum
      · right; left
        refine ⟨row, rest, by simp [emitLoop, hig, hr], rfl, ⟨by simpa using hig, hr⟩,
          fun r h => h⟩
      · right; right
        simp [emitLoop, hig, hr]

theorem acceptedRows_append {σ : Type} (k : mqSink σ) (rs : List Return) (r : Option Return) :
    acceptedRows k (rs ++ r.toList)
      = acceptedRows k rs ++ (match r with
          | some (.EmitRowChangedEvents rows none) => keptRows k rows
          | _ => []) := by
  cases r with
  | none => simp [acceptedRows]
  | some x =>
    cases x with
    | EmitRowChangedEvents rows err =>
      cases err <;> simp [acceptedRows, List.flatMap_append]
    | FlushRowChangedEvents t ts err => simp [acceptedRows, List.flatMap_append]

/-- Starting an `EmitRowChangedEvents` whose rows are all above `g` keeps the invariant. -/
theorem FlowInv_emitStart {σ : Type} (k : mqSink σ) (s : State σ) (g : Nat)
    (rows : List RowChangedEvent) (h : FlowInv k g s)
    (hrows : ∀ row ∈ rows, g < row.CommitTs)
    (hb : Bounded ({ s with caller := (emitLoop k rows rows).1,
                            returns := s.returns ++ (emitLoop k rows rows).2.toList } : State σ) g) :
    FlowInv k g { s with caller := (emitLoop k rows rows).1,
                         returns := s.returns ++ (emitLoop k rows rows).2.toList } := by
  obtain ⟨done, hdone, -⟩ := h.accepted
  have hacc : (acceptedRows k s.returns).Sublist s.emitted :=
    (List.sublist_append_left _ _).trans hdone
  have hspec := emitLoop_spec k rows rows
  refine
    { covered := h.covered, conserve := h.conserve, counted := h.counted, ordered := h.ordered,
      bounded := hb, inflight := ?_, accepted := ?_, checkpoint := h.checkpoint,
      loaded := ?_, flushed := ?_, inrange := h.inrange }
  · intro rows' row rest hc
    rcases hspec with ⟨h1, -⟩ | ⟨row', rest', h1, -, h3, h4⟩ | h1
    · simp only [h1] at hc; cases hc
    · simp only [h1, Caller.emitSelect.injEq] at hc
      obtain ⟨-, rfl, rfl⟩ := hc
      exact ⟨h3, g, hb, fun r hr => hrows r (h4 r hr)⟩
    · simp only [h1] at hc; cases hc
  · rcases hspec with ⟨h1, h2⟩ | ⟨row', rest', h1, h2, -, -⟩ | h1
    · refine ⟨[], ?_, ?_⟩
      · simp only [h1, acceptedRows_append, h2, List.append_nil]
        exact hacc
      · intro rows' row rest hc
        simp only [h1] at hc; cases hc
    · refine ⟨[], ?_, ?_⟩
      · simp only [h1, Option.toList, List.append_nil]
        exact hacc
      · intro rows' row rest hc
        simp only [h1, Caller.emitSelect.injEq] at hc
        obtain ⟨rfl, rfl, rfl⟩ := hc
        simpa using h2
    · refine ⟨[], ?_, ?_⟩
      · simp only [h1, Option.toList, List.append_nil]
        exact hacc
      · intro rows' row rest hc
        simp only [h1] at hc; cases hc
  · intro t i hc
    rcases hspec with ⟨h1, -⟩ | ⟨row', rest', h1, -⟩ | h1 <;> simp only [h1] at hc <;> cases hc
  · intro t hc
    rcases hspec with ⟨h1, -⟩ | ⟨row', rest', h1, -⟩ | h1 <;> simp only [h1] at hc <;> cases hc

/-- Starting a `FlushRowChangedEvents` keeps the invariant. -/
theorem FlowInv_flushStart {σ : Type} (k : mqSink σ) (s : State σ) (g t : Nat)
    (h : FlowInv k g s)
    (hb : Bounded ({ s with caller := (flushEntry k s.checkpointTs t).1,
                            returns := s.returns ++ (flushEntry k s.checkpointTs t).2.toList }
            : State σ) g) :
    FlowInv k g { s with caller := (flushEntry k s.checkpointTs t).1,
                         returns := s.returns ++ (flushEntry k s.checkpointTs t).2.toList } := by
  obtain ⟨done, hdone, -⟩ := h.accepted
  have hacc : (acceptedRows k s.returns).Sublist s.emitted :=
    (List.sublist_append_left _ _).trans hdone
  have hpc : (flushEntry k s.checkpointTs t).1 = .idle ∨
      (∃ i, (flushEntry k s.checkpointTs t).1 = .flushEnqueue t i) ∨
      (flushEntry k s.checkpointTs t).1 = .flushWait t := by
    unfold flushEntry flushEnqueueFrom
    split_ifs
    · exact Or.inl rfl
    · exact Or.inr (Or.inl ⟨0, rfl⟩)
    · exact Or.inr (Or.inr rfl)
  have hret : acceptedRows k (s.returns ++ (flushEntry k s.checkpointTs t).2.toList)
      = acceptedRows k s.returns := by
    rw [acceptedRows_append]
    unfold flushEntry
    split_ifs <;> simp
  refine
    { covered := h.covered, conserve := h.conserve, counted := h.counted, ordered := h.ordered,
      bounded := hb, inflight := ?_, accepted := ?_, checkpoint := h.checkpoint,
      loaded := ?_, flushed := ?_, inrange := h.inrange }
  · intro rows' row rest hc
    simp only at hc
    rcases hpc with h1 | ⟨i, h1⟩ | h1 <;> rw [h1] at hc <;> cases hc
  · refine ⟨[], ?_, ?_⟩
    · simp only [List.append_nil]
      rw [hret]; exact hacc
    · intro rows' row rest hc
      simp only at hc
      rcases hpc with h1 | ⟨i, h1⟩ | h1 <;> rw [h1] at hc <;> cases hc
  · intro t' i hc
    simp only at hc
    rcases hpc with h1 | ⟨i, h1⟩ | h1 <;> rw [h1] at hc <;> cases hc
  · intro t' hc
    simp only at hc
    rcases hpc with h1 | ⟨i, h1⟩ | h1 <;> rw [h1] at hc <;> cases hc
theorem mem_barriersOf (items : List Item) (v : Nat) (h : v ∈ barriersOf items) :
    ∃ a ∈ items, v ∈ barriersOf [a] := by
  simp only [barriersOf, List.mem_filterMap] at h
  obtain ⟨a, ha, hv⟩ := h
  exact ⟨a, ha, by simp [barriersOf, List.filterMap_cons, hv]⟩

theorem mem_rowsOf (items : List Item) (row : RowChangedEvent) (h : row ∈ rowsOf items) :
    ∃ a ∈ items, row ∈ rowsOf [a] := by
  simp only [rowsOf, List.mem_filterMap] at h
  obtain ⟨a, ha, hv⟩ := h
  exact ⟨a, ha, by simp [rowsOf, List.filterMap_cons, hv]⟩

/-- In an ordered channel, a row behind a barrier is above the barrier. -/
theorem pairwise_barrier_rows (items rest : List Item)
    (h : (items ++ rest).Pairwise BarrierBefore) :
    ∀ v ∈ barriersOf items, ∀ row ∈ rowsOf rest, v < row.CommitTs := by
  intro v hv row hrow
  obtain ⟨a, ha, hva⟩ := mem_barriersOf items v hv
  obtain ⟨b, hb, hrb⟩ := mem_rowsOf rest row hrow
  exact (List.pairwise_append.mp h).2.2 a ha b hb v hva row hrb

/-- An iteration of a running worker keeps the invariant. -/
theorem FlowInv_worker {σ : Type} (k : mqSink σ) (s : State σ) (g q : Nat) (inp : WorkerInput)
    (mqProducer : ProducerAnswers) (items rest : List Item) (h : FlowInv k g s)
    (hrun : (s.workers q).returned = none)
    (hin : s.partitionInput q = items ++ rest) (hrows : rowsOf items = inp.row.toList)
    (hstore : ∀ v, (workerStep k q mqProducer inp (s.workers q)).2.store = some v →
      barriersOf items = [v])
    (hb : ∀ g0, Bounded s g0 →
      Bounded (applyWorker q (workerStep k q mqProducer inp (s.workers q))
        { s with partitionInput := Function.update s.partitionInput q rest }) g0) :
    FlowInv k g (applyWorker q (workerStep k q mqProducer inp (s.workers q))
      { s with partitionInput := Function.update s.partitionInput q rest }) := by
  obtain ⟨w1, w2, w3, w4⟩ := workerStep_flow k q mqProducer inp (s.workers q) (h.counted q)
  have hcons : emittedOn k q s.emitted
      = sentRows q s.producerLog
          ++ ((s.workers q).batch ++ inp.row.toList ++ rowsOf rest) := by
    rw [h.conserve q hrun, hin, rowsOf_append, hrows, List.append_assoc]
  -- the fields of the new state
  have fE : (applyWorker q (workerStep k q mqProducer inp (s.workers q))
      { s with partitionInput := Function.update s.partitionInput q rest }).emitted
      = s.emitted := rfl
  have fL : (applyWorker q (workerStep k q mqProducer inp (s.workers q))
      { s with partitionInput := Function.update s.partitionInput q rest }).producerLog
      = s.producerLog ++ (workerStep k q mqProducer inp (s.workers q)).2.sent := rfl
  -- what is covered stays covered
  have hcov : ∀ p ts, Covered k p ts s →
      Covered k p ts (applyWorker q (workerStep k q mqProducer inp (s.workers q))
        { s with partitionInput := Function.update s.partitionInput q rest }) := by
    intro p ts hc
    by_cases hpq : p = q
    · subst hpq
      rcases w2 with hnil | ⟨hall, -⟩
      · exact Covered_same_sent k s _ p ts _ fE fL hnil hc
      · exact Covered_sent k s _ p ts _ (rowsOf rest) fE fL (by rw [hcons, hall]) hc
    · exact Covered_same_sent k s _ p ts _ fE fL (w1 p hpq) hc
  refine
    { covered := ?_, conserve := ?_, counted := ?_, ordered := ?_, bounded := hb g h.bounded,
      inflight := ?_, accepted := h.accepted, checkpoint := fun p hp => hcov p _ (h.checkpoint p hp),
      loaded := fun t i hc p hp => hcov p t (h.loaded t i hc p hp),
      flushed := fun t hc p hp => hcov p t (h.flushed t hc p hp), inrange := h.inrange }
  · intro p
    rw [applyWorker_resolvedTs]
    by_cases hpq : p = q
    · subst hpq
      rw [if_pos rfl]
      cases hst : (workerStep k p mqProducer inp (s.workers p)).2.store with
      | none => exact hcov p _ (h.covered p)
      | some v =>
        obtain ⟨-, hsn⟩ := w4 v hst
        have hinp := (workerStep_store k p mqProducer inp (s.workers p) v hst).1
        have hrow : inp.row.toList = [] := by rw [hinp]; rfl
        refine ⟨rowsOf rest, ?_, ?_⟩
        · rw [fE, fL, sentRows_append, hcons, hsn, hrow]
          simp
        · have hord := h.ordered p
          rw [hin] at hord
          exact pairwise_barrier_rows items rest hord v (by rw [hstore v hst]; simp)
    · rw [if_neg hpq]
      exact hcov p _ (h.covered p)
  · intro p hp
    simp only [applyWorker] at hp ⊢
    by_cases hpq : p = q
    · subst hpq
      rw [Function.update_same] at hp ⊢
      rw [Function.update_same, sentRows_append, hcons, List.append_assoc, List.append_assoc,
        ← List.append_assoc (s.workers p).batch, w3 hp]
      simp
    · rw [Function.update_noteq hpq] at hp ⊢
      rw [Function.update_noteq hpq, sentRows_append, w1 p hpq, List.append_nil]
      exact h.conserve p hp
  · intro p
    simp only [applyWorker]
    by_cases hpq : p = q
    · subst hpq
      rw [Function.update_same]
      exact (workerStep_rows k p mqProducer inp (s.workers p) (h.counted p)).1
    · rw [Function.update_noteq hpq]
      exact h.counted p
  · intro p
    simp only [applyWorker]
    by_cases hpq : p = q
    · subst hpq
      rw [Function.update_same]
      have hord := h.ordered p
      rw [hin] at hord
      exact (List.pairwise_append.mp hord).2.1
    · rw [Function.update_noteq hpq]
      exact h.ordered p
  · intro rows row rest' hc
    obtain ⟨hr, g0, hg0, hall⟩ := h.inflight rows row rest' hc
    exact ⟨hr, g0, hb g0 hg0, hall⟩
/-- A change of state that sends no row and hands nothing to `SendMessage` keeps the
invariant, given what the new position of the caller asks for. -/
theorem FlowInv_quiet {σ : Type} (k : mqSink σ) (s s' : State σ) (g : Nat) (extra : List Sent)
    (h : FlowInv k g s)
    (hE : s'.emitted = s.emitted) (hL : s'.producerLog = s.producerLog ++ extra)
    (hX : ∀ p, sentRows p extra = [])
    (hI : ∀ p, rowsOf (s'.partitionInput p) = rowsOf (s.partitionInput p))
    (hO : ∀ p, (s'.partitionInput p).Pairwise BarrierBefore)
    (hW : s'.workers = s.workers) (hR : s'.partitionResolvedTs = s.partitionResolvedTs)
    (hB : Bounded s' g)
    (hpc : ∀ rows row rest, s'.caller ≠ .emitSelect rows row rest)
    (hacc : acceptedRows k s'.returns = acceptedRows k s.returns)
    (hcp : ∀ p, p < k.partitionNum → Covered k p s'.checkpointTs s)
    (hload : ∀ t i, s'.caller = .flushLoad t i → ∀ p, p < i → Covered k p t s)
    (hflush : ∀ t, s'.caller = .flushProducer t → ∀ p, p < k.partitionNum → Covered k p t s) :
    FlowInv k g s' := by
  have hcov : ∀ p ts, Covered k p ts s → Covered k p ts s' :=
    fun p ts hc => Covered_same_sent k s s' p ts extra hE hL (hX p) hc
  obtain ⟨done, hdone, -⟩ := h.accepted
  refine
    { covered := fun p => by rw [hR]; exact hcov p _ (h.covered p),
      conserve := ?_, counted := fun p => by rw [hW]; exact h.counted p,
      ordered := hO, bounded := hB,
      inflight := fun rows row rest hc => absurd hc (hpc rows row rest),
      accepted := ⟨done, by rw [hacc, hE]; exact hdone,
        fun rows row rest hc => absurd hc (hpc rows row rest)⟩,
      checkpoint := fun p hp => hcov p _ (hcp p hp),
      loaded := fun t i hc p hp => hcov p t (hload t i hc p hp),
      flushed := fun t hc p hp => hcov p t (hflush t hc p hp),
      inrange := fun row hrow => h.inrange row (by rw [← hE]; exact hrow) }
  intro p hp
  rw [hW] at hp
  rw [hE, hL, hW, hI, sentRows_append, hX, List.append_nil]
  exact h.conserve p hp
theorem flushLoadFrom_cases {σ : Type} (k : mqSink σ) (t i : Nat) :
    (i < k.partitionNum ∧ flushLoadFrom k t i = .flushLoad t i) ∨
      (k.partitionNum ≤ i ∧ flushLoadFrom k t i = .flushProducer t) := by
  unfold flushLoadFrom
  split_ifs with h
  · exact Or.inl ⟨h, rfl⟩
  · exact Or.inr ⟨not_lt.mp h, rfl⟩

theorem flushEnqueueFrom_cases {σ : Type} (k : mqSink σ) (t i : Nat) :
    flushEnqueueFrom k t i = .flushEnqueue t i ∨ flushEnqueueFrom k t i = .flushWait t := by
  unfold flushEnqueueFrom
  split_ifs
  · exact Or.inl rfl
  · exact Or.inr rfl

theorem sentRows_flush (p : Nat) : sentRows p [⟨.Flush, []⟩] = [] := by
  simp [sentRows]

/-- A step of the caller that sends no row keeps the invariant. -/
theorem FlowInv_caller_quiet {σ : Type} (k : mqSink σ) (s : State σ) (g : Nat) (ev : CallerEvent)
    (st : CallerStep) (h : FlowInv k g s) (hen : eventEnabled k s ev = true)
    (hst : callerStep k ev s.caller s.checkpointTs = some st)
    (hnot : ∀ rows row rest, s.caller = .emitSelect rows row rest → ev ≠ .chanSend)
    (hb : Bounded (applyCaller st s) g) :
    FlowInv k g (applyCaller st s) := by
  rcases callerStep_cases k ev s.caller s.checkpointTs st hst with
    ⟨rows, row, rest, hc, -, rfl⟩ | ⟨rows, row, rest, hc, hev, rfl⟩ | ⟨t, i, hc, -, rfl⟩ |
    ⟨t, i, hc, -, rfl⟩ | ⟨t, hc, -, rfl⟩ | ⟨t, hc, -, rfl⟩ | ⟨t, i, v, hc, -, -, rfl⟩ |
    ⟨t, i, v, hc, hev, htv, rfl⟩ | ⟨t, err, hc, -, rfl⟩ | ⟨t, hc, -, rfl⟩
  · -- `EmitRowChangedEvents` cancelled
    refine FlowInv_quiet k s _ g [] h rfl (List.append_nil _).symm (fun _ => rfl)
      (fun _ => rfl) h.ordered rfl rfl hb (fun _ _ _ hc' => by cases hc') ?_ h.checkpoint
      (fun _ _ hc' => by cases hc') (fun _ hc' => by cases hc')
    show acceptedRows k (s.returns ++ _) = _
    rw [acceptedRows_append]; simp
  · exact absurd hev (hnot rows row rest hc)
  · -- `FlushRowChangedEvents` cancelled in the barrier loop
    refine FlowInv_quiet k s _ g [] h rfl (List.append_nil _).symm (fun _ => rfl)
      (fun _ => rfl) h.ordered rfl rfl hb (fun _ _ _ hc' => by cases hc') ?_ h.checkpoint
      (fun _ _ hc' => by cases hc') (fun _ hc' => by cases hc')
    show acceptedRows k (s.returns ++ _) = _
    rw [acceptedRows_append]; simp
  · -- a barrier is sent
    have hE : (applyCaller ⟨flushEnqueueFrom k t (i + 1), s.checkpointTs,
        some (.send i (Item.Barrier t)), none⟩ s).emitted = s.emitted := by
      show s.emitted ++ (Item.Barrier t).row.toList = s.emitted
      simp [Item.Barrier]
    have hI : ∀ p, (applyCaller ⟨flushEnqueueFrom k t (i + 1), s.checkpointTs,
        some (.send i (Item.Barrier t)), none⟩ s).partitionInput p
        = if p = i then s.partitionInput p ++ [Item.Barrier t] else s.partitionInput p := by
      intro p
      show Function.update s.partitionInput i (s.partitionInput i ++ [Item.Barrier t]) p = _
      by_cases hp : p = i
      · subst hp; simp
      · simp [Function.update_noteq hp, hp]
    have hpc : ∀ c : Caller, flushEnqueueFrom k t (i + 1) = c →
        c = .flushEnqueue t (i + 1) ∨ c = .flushWait t := by
      intro c hc'
      rw [← hc']
      exact flushEnqueueFrom_cases k t (i + 1)
    refine FlowInv_quiet k s _ g [] h hE (List.append_nil _).symm (fun _ => rfl)
      ?_ ?_ rfl rfl hb ?_ ?_ h.checkpoint ?_ ?_
    · intro p
      rw [hI]
      split_ifs
      · rw [rowsOf_append]; simp [rowsOf, Item.Barrier]
      · rfl
    · intro p
      rw [hI]
      split_ifs
      · rw [List.pairwise_append]
        refine ⟨h.ordered p, List.pairwise_singleton _ _, ?_⟩
        intro a _ b hb' v _ row hrow
        rw [List.mem_singleton] at hb'
        subst hb'
        simp [rowsOf, Item.Barrier] at hrow
      · exact h.ordered p
    · intro rows row rest hc'
      rcases hpc _ hc' with h1 | h1 <;> cases h1
    · show acceptedRows k (s.returns ++ _) = _
      rw [acceptedRows_append]; simp
    · intro t' i' hc' p hp
      rcases hpc _ hc' with h1 | h1 <;> cases h1
    · intro t' hc' p hp
      rcases hpc _ hc' with h1 | h1 <;> cases h1
  · -- `FlushRowChangedEvents` cancelled while waiting
    refine FlowInv_quiet k s _ g [] h rfl (List.append_nil _).symm (fun _ => rfl)
      (fun _ => rfl) h.ordered rfl rfl hb (fun _ _ _ hc' => by cases hc') ?_ h.checkpoint
      (fun _ _ hc' => by cases hc') (fun _ hc' => by cases hc')
    show acceptedRows k (s.returns ++ _) = _
    rw [acceptedRows_append]; simp
  · -- a wake
    refine FlowInv_quiet k s _ g [] h rfl (List.append_nil _).symm (fun _ => rfl)
      (fun _ => rfl) h.ordered rfl rfl hb ?_ ?_ h.checkpoint ?_ ?_
    · intro rows row rest hc'
      have hcc : flushLoadFrom k t 0 = .emitSelect rows row rest := hc'
      rcases flushLoadFrom_cases k t 0 with ⟨-, h1⟩ | ⟨-, h1⟩ <;> rw [h1] at hcc <;> cases hcc
    · show acceptedRows k (s.returns ++ _) = _
      rw [acceptedRows_append]; simp
    · intro t' i' hc' p hp
      have hcc : flushLoadFrom k t 0 = .flushLoad t' i' := hc'
      rcases flushLoadFrom_cases k t 0 with ⟨-, h1⟩ | ⟨-, h1⟩ <;> rw [h1] at hcc <;> cases hcc
      exact absurd hp (Nat.not_lt_zero _)
    · intro t' hc' p hp
      have hcc : flushLoadFrom k t 0 = .flushProducer t' := hc'
      rcases flushLoadFrom_cases k t 0 with ⟨-, h1⟩ | ⟨h0, h1⟩ <;> rw [h1] at hcc <;> cases hcc
      omega
  · -- a load below the target
    refine FlowInv_quiet k s _ g [] h rfl (List.append_nil _).symm (fun _ => rfl)
      (fun _ => rfl) h.ordered rfl rfl hb (fun _ _ _ hc' => by cases hc') ?_ h.checkpoint
      (fun _ _ hc' => by cases hc') (fun _ hc' => by cases hc')
    show acceptedRows k (s.returns ++ _) = _
    rw [acceptedRows_append]; simp
  · -- a load at or above the target
    have hv : v = s.partitionResolvedTs i := by
      rw [hev] at hen
      simpa [eventEnabled, hc] using hen
    have hnew : ∀ p, p < i + 1 → Covered k p t s := by
      intro p hp
      by_cases hpi : p < i
      · exact h.loaded t i hc p hpi
      · have : p = i := by omega
        subst this
        exact Covered_mono k s p _ t (by rw [← hv]; exact htv) (h.covered p)
    refine FlowInv_quiet k s _ g [] h rfl (List.append_nil _).symm (fun _ => rfl)
      (fun _ => rfl) h.ordered rfl rfl hb ?_ ?_ h.checkpoint ?_ ?_
    · intro rows row rest hc'
      have hcc : flushLoadFrom k t (i + 1) = .emitSelect rows row rest := hc'
      rcases flushLoadFrom_cases k t (i + 1) with ⟨-, h1⟩ | ⟨-, h1⟩ <;>
        rw [h1] at hcc <;> cases hcc
    · show acceptedRows k (s.returns ++ _) = _
      rw [acceptedRows_append]; simp
    · intro t' i' hc' p hp
      have hcc : flushLoadFrom k t (i + 1) = .flushLoad t' i' := hc'
      rcases flushLoadFrom_cases k t (i + 1) with ⟨-, h1⟩ | ⟨-, h1⟩ <;>
        rw [h1] at hcc <;> cases hcc
      exact hnew p hp
    · intro t' hc' p hp
      have hcc : flushLoadFrom k t (i + 1) = .flushProducer t' := hc'
      rcases flushLoadFrom_cases k t (i + 1) with ⟨-, h1⟩ | ⟨h0, h1⟩ <;>
        rw [h1] at hcc <;> cases hcc
      exact hnew p (by omega)
  · -- `Producer.Flush` fails
    refine FlowInv_quiet k s _ g [⟨.Flush, []⟩] h rfl rfl sentRows_flush
      (fun _ => rfl) h.ordered rfl rfl hb (fun _ _ _ hc' => by cases hc') ?_ h.checkpoint
      (fun _ _ hc' => by cases hc') (fun _ hc' => by cases hc')
    show acceptedRows k (s.returns ++ _) = _
    rw [acceptedRows_append]; simp
  · -- `Producer.Flush` succeeds
    refine FlowInv_quiet k s _ g [⟨.Flush, []⟩] h rfl rfl sentRows_flush
      (fun _ => rfl) h.ordered rfl rfl hb (fun _ _ _ hc' => by cases hc') ?_
      (fun p hp => h.flushed t hc p hp)
      (fun _ _ hc' => by cases hc') (fun _ hc' => by cases hc')
    show acceptedRows k (s.returns ++ _) = _
    rw [acceptedRows_append]; simp
theorem barriersOf_mem (items : List Item) (a : Item) (v : Nat) (ha : a ∈ items)
    (hv : v ∈ barriersOf [a]) : v ∈ barriersOf items := by
  simp only [barriersOf, List.mem_filterMap, List.mem_singleton] at hv ⊢
  obtain ⟨b, rfl, hb⟩ := hv
  exact ⟨b, ha, hb⟩

/-- Sending the row of an `EmitRowChangedEvents` in flight keeps the invariant. -/
theorem FlowInv_emitSend {σ : Type} (k : mqSink σ) (s : State σ) (g : Nat)
    (rows : List RowChangedEvent) (row : RowChangedEvent) (rest : List RowChangedEvent)
    (h : FlowInv k g s) (hc : s.caller = .emitSelect rows row rest)
    (hb : ∀ g0, Bounded s g0 →
      Bounded (applyCaller ⟨(emitLoop k rows rest).1, s.checkpointTs,
        some (.send (k.Dispatch row).toNat (Item.Row row)), (emitLoop k rows rest).2⟩ s) g0) :
    FlowInv k g (applyCaller ⟨(emitLoop k rows rest).1, s.checkpointTs,
      some (.send (k.Dispatch row).toNat (Item.Row row)), (emitLoop k rows rest).2⟩ s) := by
  obtain ⟨⟨hkept, hd0, hdN⟩, g0, hg0, hall⟩ := h.inflight rows row rest hc
  obtain ⟨done, hdone, hdoneEq⟩ := h.accepted
  have hk : keptRows k rows = done ++ row :: keptRows k rest := by
    rw [hdoneEq rows row rest hc]
    simp [keptRows, hkept]
  have hrow : g0 < row.CommitTs := hall row (List.mem_cons_self _ _)
  have hq : ∀ p : Nat, k.Dispatch row = (p : Int) ↔ p = (k.Dispatch row).toNat := by
    intro p; omega
  have hspec := emitLoop_spec k rows rest
  have fI : ∀ p, (applyCaller ⟨(emitLoop k rows rest).1, s.checkpointTs,
      some (.send (k.Dispatch row).toNat (Item.Row row)), (emitLoop k rows rest).2⟩
        s).partitionInput p
      = if p = (k.Dispatch row).toNat then s.partitionInput p ++ [Item.Row row]
        else s.partitionInput p := by
    intro p
    show Function.update s.partitionInput _ _ p = _
    by_cases hp : p = (k.Dispatch row).toNat
    · rw [if_pos hp, hp]; simp
    · rw [if_neg hp, Function.update_noteq hp]
  have hsub : (acceptedRows k s.returns ++ (done ++ [row])).Sublist (s.emitted ++ [row]) := by
    rw [← List.append_assoc]
    exact hdone.append (List.Sublist.refl _)
  refine
    { covered := fun p => Covered_emit k s _ p _ row rfl rfl
        (fun _ => lt_of_le_of_lt (hg0.1 p) hrow) (h.covered p),
      conserve := ?_, counted := h.counted, ordered := ?_, bounded := hb g h.bounded,
      inflight := ?_, accepted := ?_,
      checkpoint := fun p hp => Covered_emit k s _ p _ row rfl rfl
        (fun _ => lt_of_le_of_lt hg0.2.2.1 hrow) (h.checkpoint p hp),
      loaded := ?_, flushed := ?_, inrange := ?_ }
  · intro p hp
    have hp' : (s.workers p).returned = none := hp
    show emittedOn k p (s.emitted ++ [row]) = sentRows p s.producerLog ++ ((s.workers p).batch ++ _)
    rw [fI, emittedOn_append, h.conserve p hp']
    by_cases hpq : p = (k.Dispatch row).toNat
    · rw [if_pos hpq, rowsOf_append]
      have : emittedOn k p [row] = [row] := by simp [emittedOn, (hq p).mpr hpq]
      rw [this]
      simp [rowsOf, Item.Row]
    · rw [if_neg hpq]
      have : emittedOn k p [row] = [] := by simp [emittedOn, mt (hq p).mp hpq]
      rw [this, List.append_nil]
  · intro p
    rw [fI]
    split_ifs
    · rw [List.pairwise_append]
      refine ⟨h.ordered p, List.pairwise_singleton _ _, ?_⟩
      intro a ha b hb' v hv r hr
      rw [List.mem_singleton] at hb'
      subst hb'
      simp only [rowsOf, Item.Row, List.filterMap_cons, List.filterMap_nil,
        List.mem_singleton] at hr
      subst hr
      exact lt_of_le_of_lt (hg0.2.1 p v (barriersOf_mem _ a v ha hv)) hrow
    · exact h.ordered p
  · intro rows' row' rest' hc'
    have hcc : (emitLoop k rows rest).1 = .emitSelect rows' row' rest' := hc'
    rcases hspec with ⟨h1, -⟩ | ⟨row2, rest2, h1, -, h3, h4⟩ | h1
    · rw [h1] at hcc; cases hcc
    · rw [h1] at hcc
      simp only [Caller.emitSelect.injEq] at hcc
      obtain ⟨-, rfl, rfl⟩ := hcc
      exact ⟨h3, g0, hb g0 hg0, fun r hr => hall r (List.mem_cons_of_mem _ (h4 r hr))⟩
    · rw [h1] at hcc; cases hcc
  · show ∃ done', (acceptedRows k (s.returns ++ (emitLoop k rows rest).2.toList) ++ done').Sublist
        (s.emitted ++ [row]) ∧
      ∀ rows' row' rest', (emitLoop k rows rest).1 = .emitSelect rows' row' rest' →
        keptRows k rows' = done' ++ keptRows k (row' :: rest')
    rcases hspec with ⟨h1, h2⟩ | ⟨row2, rest2, h1, h2, -, -⟩ | h1
    · refine ⟨[], ?_, ?_⟩
      · rw [h1, acceptedRows_append, List.append_nil]
        simp only [hk, h2]
        exact hsub
      · intro rows' row' rest' hc'
        rw [h1] at hc'; cases hc'
    · refine ⟨done ++ [row], ?_, ?_⟩
      · rw [h1]
        simp only [Option.toList, List.append_nil]
        exact hsub
      · intro rows' row' rest' hc'
        rw [h1] at hc'
        simp only [Caller.emitSelect.injEq] at hc'
        obtain ⟨rfl, rfl, rfl⟩ := hc'
        rw [hk, h2]
        simp
    · refine ⟨done ++ [row], ?_, ?_⟩
      · rw [h1]
        simp only [Option.toList, List.append_nil]
        exact hsub
      · intro rows' row' rest' hc'
        rw [h1] at hc'; cases hc'
  · intro t i hc'
    have hcc : (emitLoop k rows rest).1 = .flushLoad t i := hc'
    rcases hspec with ⟨h1, -⟩ | ⟨row2, rest2, h1, -⟩ | h1 <;> rw [h1] at hcc <;> cases hcc
  · intro t hc'
    have hcc : (emitLoop k rows rest).1 = .flushProducer t := hc'
    rcases hspec with ⟨h1, -⟩ | ⟨row2, rest2, h1, -⟩ | h1 <;> rw [h1] at hcc <;> cases hcc
  · intro r hr
    have hr' : r ∈ s.emitted ++ [row] := hr
    rcases List.mem_append.mp hr' with hr' | hr'
    · exact h.inrange r hr'
    · rw [List.mem_singleton] at hr'
      subst hr'
      exact ⟨hd0, hdN⟩
theorem Disciplined_cons (g : Nat) (l : Label) (ls : List Label) :
    Disciplined g (l :: ls) ↔
      (∀ rows, l = .EmitRowChangedEvents rows → ∀ row ∈ rows, g < row.CommitTs) ∧
        Disciplined (nextBound g l) ls := by
  cases l <;> simp [Disciplined, nextBound]

theorem le_nextBound (g : Nat) (l : Label) : g ≤ nextBound g l := by
  cases l <;> simp [nextBound]

/-- Every step of a trace that keeps the upstream contract keeps the invariant. -/
theorem FlowInv_step {σ : Type} (k : mqSink σ) (l : Label) (s : State σ) (g : Nat)
    (h : FlowInv k g s)
    (hemit : ∀ rows, l = .EmitRowChangedEvents rows → ∀ row ∈ rows, g < row.CommitTs) :
    FlowInv k (nextBound g l) (step k l s) := by
  rcases step_cases k l s with e | ⟨rows, hl, -, e⟩ | ⟨t, hl, -, e⟩ |
      ⟨ev, st, hl, hen, hst, e⟩ | ⟨q, inp, mqProducer, hl, -, hrun, e⟩
  · rw [e]; exact FlowInv_mono k s g _ (le_nextBound g l) h
  · have hb := Bounded_step k l s g h.bounded (fun t ht => by rw [hl] at ht; cases ht)
    rw [e] at hb ⊢
    rw [hl]
    exact FlowInv_emitStart k s g rows h (hemit rows hl) hb
  · have hg : nextBound g l = max g t := by rw [hl]; rfl
    have hb := Bounded_step k l s (max g t) (Bounded_mono s g _ (le_max_left g t) h.bounded)
      (fun t' ht' => by
        rw [hl] at ht'
        cases ht'
        exact le_max_right _ _)
    rw [e] at hb ⊢
    rw [hg]
    exact FlowInv_flushStart k s (max g t) t (FlowInv_mono k s g _ (le_max_left g t) h) hb
  · have hg : nextBound g l = g := by rw [hl]; rfl
    have hB : ∀ g0, Bounded s g0 → Bounded (applyCaller st s) g0 := by
      intro g0 hg0
      have := Bounded_step k l s g0 hg0 (fun t ht => by rw [hl] at ht; cases ht)
      rw [e] at this
      exact this
    rw [e, hg]
    by_cases hsend : ∃ rows row rest, s.caller = .emitSelect rows row rest ∧ ev = .chanSend
    · obtain ⟨rows, row, rest, hc, hev⟩ := hsend
      have hst' : st = ⟨(emitLoop k rows rest).1, s.checkpointTs,
          some (.send (k.Dispatch row).toNat (Item.Row row)), (emitLoop k rows rest).2⟩ := by
        rw [hc, hev] at hst
        simp only [callerStep, Option.some.injEq] at hst
        exact hst.symm
      subst hst'
      exact FlowInv_emitSend k s g rows row rest h hc hB
    · refine FlowInv_caller_quiet k s g ev st h hen hst ?_ (hB g h.bounded)
      intro rows row rest hc hev
      exact hsend ⟨rows, row, rest, hc, hev⟩
  · have hg : nextBound g l = g := by rw [hl]; rfl
    obtain ⟨items, rest, hin, hrows, hstore, e'⟩ :=
      step_worker_view k s q inp mqProducer (step k l s) e
    have hB : ∀ g0, Bounded s g0 →
        Bounded (applyWorker q (workerStep k q mqProducer inp (s.workers q))
          { s with partitionInput := Function.update s.partitionInput q rest }) g0 := by
      intro g0 hg0
      have := Bounded_step k l s g0 hg0 (fun t ht => by rw [hl] at ht; cases ht)
      rw [e'] at this
      exact this
    rw [e', hg]
    exact FlowInv_worker k s g q inp mqProducer items rest h hrun hin hrows hstore hB

theorem FlowInv_init {σ : Type} (k : mqSink σ) : FlowInv k 0 (State.init k) := by
  have hcov : ∀ p ts, Covered k p ts (State.init k) :=
    fun p ts => ⟨[], by simp [State.init, emittedOn, sentRows], by simp⟩
  refine
    { covered := fun p => hcov p _, conserve := ?_, counted := fun _ => rfl,
      ordered := fun _ => List.Pairwise.nil, bounded := ?_,
      inflight := fun _ _ _ hc => (by cases hc),
      accepted := ⟨[], (by simp [State.init, acceptedRows]), fun _ _ _ hc => (by cases hc)⟩,
      checkpoint := fun p _ => hcov p _, loaded := fun _ _ hc => (by cases hc),
      flushed := fun _ hc => (by cases hc), inrange := fun _ hr => (by cases hr) }
  · intro p _
    simp [State.init, emittedOn, sentRows, Worker.init, rowsOf]
  · refine ⟨fun _ => le_rfl, ?_, le_rfl, ?_⟩
    · intro p v hv; simp [State.init, barriersOf] at hv
    · intro t ht; simp [State.init, Caller.flushing] at ht

theorem FlowInv_run {σ : Type} (k : mqSink σ) (ls : List Label) :
    ∀ (s : State σ) (g : Nat), FlowInv k g s → Disciplined g ls →
      ∃ g', FlowInv k g' (run k ls s) := by
  induction ls with
  | nil => intro s g h _; exact ⟨g, h⟩
  | cons l ls ih =>
    intro s g h hd
    rw [Disciplined_cons] at hd
    exact ih (step k l s) _ (FlowInv_step k l s g h hd.1) hd.2
/-- From `Covered`: the accepted rows of partition `p` with a `CommitTs` up to `ts` were
handed to `SendMessage`, in order and as many times as they were accepted. -/
theorem Covered_sublist {σ : Type} (k : mqSink σ) (s : State σ) (p ts : Nat)
    (acc : List RowChangedEvent) (hc : Covered k p ts s) (hacc : acc.Sublist s.emitted) :
    (acc.filter fun row => decide (k.Dispatch row = (p : Int)) && decide (row.CommitTs ≤ ts)).Sublist
      (sentRows p s.producerLog) := by
  obtain ⟨rest, h1, h2⟩ := hc
  have hrest : rest.filter (fun row => decide (row.CommitTs ≤ ts)) = [] := by
    rw [List.filter_eq_nil_iff]
    intro row hrow
    have := h2 row hrow
    simp only [decide_eq_true_eq, not_le]
    exact this
  have hem : s.emitted.filter
        (fun row => decide (k.Dispatch row = (p : Int)) && decide (row.CommitTs ≤ ts))
      = (sentRows p s.producerLog).filter (fun row => decide (row.CommitTs ≤ ts)) := by
    have : s.emitted.filter
          (fun row => decide (k.Dispatch row = (p : Int)) && decide (row.CommitTs ≤ ts))
        = (emittedOn k p s.emitted).filter (fun row => decide (row.CommitTs ≤ ts)) := by
      unfold emittedOn
      rw [List.filter_filter]
      congr 1
      funext row
      exact Bool.and_comm _ _
    rw [this, h1, List.filter_append, hrest, List.append_nil]
  exact ((hacc.filter _).trans (by rw [hem])).trans (List.filter_sublist _)
/-- A step that makes a `FlushRowChangedEvents(ts)` return `(ts, nil)` is either the call
itself, with `ts` equal to `checkpointTs`, or the return of `Producer.Flush` without error
to a flush in flight that aims at `ts`. -/
theorem flush_return_cases {σ : Type} (k : mqSink σ) (l : Label) (s : State σ) (ts : Nat)
    (hret : (step k l s).returns = s.returns ++ [.FlushRowChangedEvents ts ts none]) :
    (s.checkpointTs = ts ∧ (step k l s).producerLog = s.producerLog) ∨
      (s.caller = .flushProducer ts ∧
        (step k l s).producerLog = s.producerLog ++ [⟨.Flush, []⟩]) := by
  rcases step_cases k l s with e | ⟨rows, -, -, e⟩ | ⟨t, -, -, e⟩ | ⟨ev, st, -, -, hst, e⟩ |
      ⟨q, inp, mqProducer, -, -, -, e⟩
  · rw [e] at hret
    simpa using congrArg List.length hret
  · rw [e] at hret
    simp only [List.append_cancel_left_eq] at hret
    rcases emitLoop_spec k rows rows with ⟨h1, -⟩ | ⟨row, rest, h1, -⟩ | h1 <;>
      rw [h1] at hret <;> simp at hret
  · rw [e] at hret ⊢
    simp only [List.append_cancel_left_eq] at hret
    unfold flushEntry at hret
    split_ifs at hret
    · simp only [Option.toList, List.cons.injEq, Return.FlushRowChangedEvents.injEq,
        and_true] at hret
      exact Or.inl ⟨hret.2, rfl⟩
    · simp at hret
  · rw [e] at hret ⊢
    obtain ⟨-, -, c3, -, -, -, -, c8⟩ := applyCaller_fields st s
    rw [c3] at hret
    simp only [List.append_cancel_left_eq] at hret
    rcases callerStep_cases k ev s.caller s.checkpointTs st hst with
      ⟨_, _, _, hc, -, rfl⟩ | ⟨rows, row, rest, hc, -, rfl⟩ | ⟨_, _, hc, -, rfl⟩ |
      ⟨_, _, hc, -, rfl⟩ | ⟨_, hc, -, rfl⟩ | ⟨_, hc, -, rfl⟩ | ⟨_, _, _, hc, -, -, rfl⟩ |
      ⟨_, _, _, hc, -, -, rfl⟩ | ⟨_, _, hc, -, rfl⟩ | ⟨t, hc, -, rfl⟩
    · simp at hret
    · rcases emitLoop_spec k rows rest with ⟨h1, -⟩ | ⟨row', rest', h1, -⟩ | h1 <;>
        rw [h1] at hret <;> simp at hret
    · simp at hret
    · simp at hret
    · simp at hret
    · simp at hret
    · simp at hret
    · simp at hret
    · simp at hret
    · simp only [Option.toList, List.cons.injEq, Return.FlushRowChangedEvents.injEq,
        and_true] at hret
      rw [hret.1] at hc
      exact Or.inr ⟨hc, c8⟩
  · rcases e with ⟨_, _, -, -, e⟩ | ⟨-, -, e⟩ <;>
    · rw [e] at hret
      simpa [applyWorker] using congrArg List.length hret
/-- A step keeps the channels free of items without a row and with a zero `resolvedTs`:
`EmitRowChangedEvents` sends row items, `FlushRowChangedEvents` sends barriers that carry
its `resolvedTs`, which is above `checkpointTs`, and a worker only takes items out. -/
theorem channelItems_step {σ : Type} (k : mqSink σ) (l : Label) (s : State σ)
    (hc : CheckpointInv s)
    (h : ∀ q, ∀ e ∈ s.partitionInput q,
      (∃ row, e = Item.Row row) ∨ ∃ ts, ts ≠ 0 ∧ e = Item.Barrier ts) :
    ∀ q, ∀ e ∈ (step k l s).partitionInput q,
      (∃ row, e = Item.Row row) ∨ ∃ ts, ts ≠ 0 ∧ e = Item.Barrier ts := by
  rcases step_cases k l s with e | ⟨rows, -, -, e⟩ | ⟨t, -, -, e⟩ | ⟨ev, st, -, -, hst, e⟩ |
      ⟨p, inp, mqProducer, -, -, -, e⟩
  · rw [e]; exact h
  · rw [e]; exact h
  · rw [e]; exact h
  · rw [e]
    obtain ⟨-, -, -, -, -, c6, -, -⟩ := applyCaller_fields st s
    rw [c6]
    cases heff : st.effect with
    | none => exact h
    | some eff =>
      cases eff with
      | call c => exact h
      | send p it =>
        intro q x hx
        simp only at hx
        by_cases hq : q = p
        · subst hq
          rw [Function.update_same, List.mem_append, List.mem_singleton] at hx
          rcases hx with hx | rfl
          · exact h q x hx
          · rcases callerStep_send k ev s.caller s.checkpointTs st hst q x heff with
              ⟨rows, row, rest, -, hrow, -⟩ | ⟨t, i, hpc, hb, -⟩
            · exact Or.inl ⟨row, hrow⟩
            · have ht := hc.1 t (by rw [hpc]; rfl)
              exact Or.inr ⟨t, by omega, hb⟩
        · rw [Function.update_noteq hq] at hx
          exact h q x hx
  · rcases e with ⟨it, rest, -, hin, e⟩ | ⟨-, -, e⟩
    · rw [e, (applyWorker_fields p _ _).2.2.2.1]
      intro q x hx
      simp only at hx
      by_cases hq : q = p
      · subst hq
        rw [Function.update_same] at hx
        exact h q x (by rw [hin]; exact List.mem_cons_of_mem _ hx)
      · rw [Function.update_noteq hq] at hx
        exact h q x hx
    · rw [e, (applyWorker_fields p _ _).2.2.2.1]
      exact h

/-- Every item in a channel of a sink is a row item or a barrier with a non-zero
`resolvedTs`, after any sequence of steps of a fresh sink. -/
theorem channelItems_run {σ : Type} (k : mqSink σ) (ls : List Label) :
    ∀ q, ∀ e ∈ (run k ls (State.init k)).partitionInput q,
      (∃ row, e = Item.Row row) ∨ ∃ ts, ts ≠ 0 ∧ e = Item.Barrier ts := by
  induction ls using List.reverseRecOn with
  | nil =>
    intro q e he
    simp [run, State.init] at he
  | append_singleton ls l ih =>
    rw [run_append]
    exact channelItems_step k l _ (CheckpointInv_run k ls _ (CheckpointInv_init k)).1 ih

/-- C5. After any sequence of steps of a fresh sink, every item in a channel is a row item
or a barrier with a non-zero `resolvedTs`: `EmitRowChangedEvents` sends row items only,
and `FlushRowChangedEvents` sends its `resolvedTs` only when it is above `checkpointTs`.
And for every partition, every sequence of `select` outcomes and producer answers after
which the worker still runs, and every such barrier `ts`: the iteration that processes the
barrier first flushes with `NeedAsyncWrite` (a `Build` of the batch and a
`writeToProducer` for the partition, or nothing when no row is buffered). If the flush
gives no error, the worker then stores `ts` into its slot and notifies, no row is buffered
any more (`batchSize = 0`), and every row received before the barrier was in a batch built
and passed to `writeToProducer` for the partition. If the flush gives an error, the worker
returns it, and neither stores nor notifies. -/
theorem barrier_flush_then_store {σ : Type} (k : mqSink σ) :
    (∀ (ls : List Label) (q : Nat), ∀ e ∈ (run k ls (State.init k)).partitionInput q,
      (∃ row, e = Item.Row row) ∨ ∃ ts, ts ≠ 0 ∧ e = Item.Barrier ts) ∧
    ∀ (p : Nat) (inputs : List (WorkerInput × ProducerAnswers)) (ts : Nat)
      (mqProducer : ProducerAnswers), ts ≠ 0 →
      (runWorker k p inputs).worker.returned = none →
      ∃ o, (runWorker k p (inputs ++ [(.recv (Item.Barrier ts), mqProducer)])).outs
            = (runWorker k p inputs).outs ++ [o] ∧
        ((o.built = none ∧ o.write = none ∧ (runWorker k p inputs).worker.batchSize = 0) ∨
          (o.built = some ⟨(runWorker k p inputs).worker.batch,
                (runWorker k p inputs).worker.sizeBeforeLast,
                (k.codec.Build (runWorker k p inputs).worker.encoder).1,
                (k.codec.Build (runWorker k p inputs).worker.encoder).2⟩ ∧
            o.write = some (writeToProducer mqProducer
                (k.codec.Build (runWorker k p inputs).worker.encoder).1
                (k.codec.Build (runWorker k p inputs).worker.encoder).2
                .EncoderNeedAsyncWrite p))) ∧
        ((o.err = none ∧
            (runWorker k p (inputs ++ [(.recv (Item.Barrier ts), mqProducer)])).worker.returned
              = none ∧
            o.store = some ts ∧ o.notified = true ∧
            (runWorker k p (inputs ++ [(.recv (Item.Barrier ts), mqProducer)])).partitionResolvedTs
              = ts ∧
            (runWorker k p (inputs ++ [(.recv (Item.Barrier ts), mqProducer)])).notifications
              = (runWorker k p inputs).notifications + 1 ∧
            (runWorker k p (inputs ++ [(.recv (Item.Barrier ts), mqProducer)])).worker.batchSize
              = 0 ∧
            (runWorker k p (inputs ++ [(.recv (Item.Barrier ts), mqProducer)])).worker.batch
              = [] ∧
            ∀ row ∈ receivedRows inputs,
              ∃ o' ∈ (runWorker k p (inputs ++ [(.recv (Item.Barrier ts), mqProducer)])).outs,
                Wrote p row o') ∨
          (∃ err, o.err = some err ∧
            (runWorker k p (inputs ++ [(.recv (Item.Barrier ts), mqProducer)])).worker.returned
              = some err ∧
            o.store = none ∧ o.notified = false ∧
            (runWorker k p (inputs ++ [(.recv (Item.Barrier ts), mqProducer)])).partitionResolvedTs
              = (runWorker k p inputs).partitionResolvedTs ∧
            (runWorker k p (inputs ++ [(.recv (Item.Barrier ts), mqProducer)])).notifications
              = (runWorker k p inputs).notifications)) := by
  refine ⟨channelItems_run k, ?_⟩
  intro p inputs ts mqProducer hts hrun
  obtain ⟨hlen, hrows⟩ := runWorker_rows k p inputs
  obtain ⟨hlen', hrows'⟩ := runWorker_rows k p (inputs ++ [(.recv (Item.Barrier ts), mqProducer)])
  have hrec : receivedRows (inputs ++ [(.recv (Item.Barrier ts), mqProducer)])
      = receivedRows inputs := by
    simp [receivedRows, List.filterMap_append, Item.Barrier]
  rw [hrec] at hrows'
  rw [runWorker_snoc] at hlen' hrows' ⊢
  generalize runWorker k p inputs = r at *
  obtain ⟨f1, f2, f3, f4, f5, f6, f7, f8⟩ :=
    flushOrReturn_spec k p mqProducer .EncoderNeedAsyncWrite r.worker hlen
  have hstep : workerStep k p mqProducer (.recv (Item.Barrier ts)) r.worker
      = match (flushOrReturn k p mqProducer .EncoderNeedAsyncWrite r.worker).1.returned with
        | some _ => flushOrReturn k p mqProducer .EncoderNeedAsyncWrite r.worker
        | none => ((flushOrReturn k p mqProducer .EncoderNeedAsyncWrite r.worker).1,
            { (flushOrReturn k p mqProducer .EncoderNeedAsyncWrite r.worker).2 with
                store := some ts, notified := true }) := by
    simp [workerStep, Item.Barrier, hts]
  have hshape : ∀ o : WorkerOut,
      o.built = (flushOrReturn k p mqProducer .EncoderNeedAsyncWrite r.worker).2.built →
      o.write = (flushOrReturn k p mqProducer .EncoderNeedAsyncWrite r.worker).2.write →
      (o.built = none ∧ o.write = none ∧ r.worker.batchSize = 0) ∨
        (o.built = some ⟨r.worker.batch, r.worker.sizeBeforeLast,
              (k.codec.Build r.worker.encoder).1, (k.codec.Build r.worker.encoder).2⟩ ∧
          o.write = some (writeToProducer mqProducer (k.codec.Build r.worker.encoder).1
              (k.codec.Build r.worker.encoder).2 .EncoderNeedAsyncWrite p)) := by
    intro o hb hw
    by_cases h0 : r.worker.batchSize = 0
    · rw [f7 h0] at hb hw
      exact Or.inl ⟨hb, hw, h0⟩
    · obtain ⟨-, e2, e3⟩ := f8 h0
      exact Or.inr ⟨hb.trans e2, hw.trans e3⟩
  cases herr : (flushOrReturn k p mqProducer .EncoderNeedAsyncWrite r.worker).2.err with
  | none =>
    have hret := (f5 herr).trans hrun
    rw [hret] at hstep
    simp only [WorkerRun.next, hrun, hstep] at hlen' hrows' ⊢
    refine ⟨_, rfl, hshape _ rfl rfl, Or.inl ⟨?_, hret, rfl, rfl, rfl, by simp, f1, f2, ?_⟩⟩
    · simpa [WorkerOut.err] using herr
    · intro row hrow
      rcases hrows' hret row hrow with hb | hw
      · rw [f2] at hb; cases hb
      · exact hw
  | some err =>
    have hret := f6 err herr
    rw [hret] at hstep
    simp only [WorkerRun.next, hrun, hstep] at hlen' hrows' ⊢
    refine ⟨_, rfl, hshape _ rfl rfl, Or.inr ⟨err, herr, hret, f3, f4, ?_, ?_⟩⟩
    · simp [f3]
    · simp [f4]

/-- In `smallFlush` the channel of partition `0` holds two rows and the barrier `15` once
the caller has sent them; and after two rows, a barrier `7` makes the worker of `demoSink`
build and write the batch of the two rows, store `7` and notify. -/
theorem barrier_flush_then_store_witness :
    (run demoSink (smallFlush.take 6) (State.init demoSink)).partitionInput 0
        = [Item.Row (demoRow 10 0), Item.Row (demoRow 12 0), Item.Barrier 15] ∧
      (∀ e ∈ (run demoSink (smallFlush.take 6) (State.init demoSink)).partitionInput 0,
        (∃ row, e = Item.Row row) ∨ ∃ ts, ts ≠ 0 ∧ e = Item.Barrier ts) ∧
      (runWorker demoSink 0
        [(.recv (Item.Row (demoRow 1 0)), producerOk), (.recv (Item.Row (demoRow 2 0)), producerOk),
          (.recv (Item.Barrier 7), producerOk)]).partitionResolvedTs = 7 ∧
      ∃ o, (runWorker demoSink 0
        ([(.recv (Item.Row (demoRow 1 0)), producerOk),
          (.recv (Item.Row (demoRow 2 0)), producerOk)]
          ++ [(.recv (Item.Barrier 7), producerOk)])).outs
        = (runWorker demoSink 0
          [(.recv (Item.Row (demoRow 1 0)), producerOk),
            (.recv (Item.Row (demoRow 2 0)), producerOk)]).outs ++ [o] := by
  obtain ⟨o, h1, -⟩ := (barrier_flush_then_store demoSink).2 0
    [(.recv (Item.Row (demoRow 1 0)), producerOk), (.recv (Item.Row (demoRow 2 0)), producerOk)]
    7 producerOk (by decide) (by decide)
  exact ⟨by decide, (barrier_flush_then_store demoSink).1 (smallFlush.take 6) 0, by decide,
    o, h1⟩

/-- C2 as stated fails, in three ways. In `staleFlush` a `Flush(20)` whose `Producer.Flush`
failed has left both slots at `20`; a row with `CommitTs` `15` is then emitted and
`Flush(20)` called again: it returns `(20, nil)` on the stale slots while the row is still
in the channel, nothing having been handed to `SendMessage` on partition `0`. In
`cancelledEmit` an `EmitRowChangedEvents` of two rows is cancelled after its first send;
the following `Flush(15)` returns `(15, nil)`, and the second row, which was passed to the
call and is not ignored, was never handed to `SendMessage` on its partition `1`. In
`zeroCommitTs` a row with `CommitTs` `0` is emitted on a fresh sink, whose `checkpointTs`
is `0`; `Flush(0)` then returns `(0, nil)` at once, with no call of the producer, while
the row is still in the channel of partition `0`. -/
theorem stale_slots_and_cancelled_emit :
    ((run demoSink staleFlush (State.init demoSink)).returns
        = [.FlushRowChangedEvents 20 0 (some (.Producer 1)),
           .EmitRowChangedEvents [demoRow 15 0] none,
           .FlushRowChangedEvents 20 20 none] ∧
      demoSink.ShouldIgnoreDMLEvent 0 "test" "t" = false ∧
      demoSink.Dispatch (demoRow 15 0) = 0 ∧
      sentRows 0 (run demoSink staleFlush (State.init demoSink)).producerLog = [] ∧
      (run demoSink staleFlush (State.init demoSink)).partitionInput 0
        = [Item.Row (demoRow 15 0), Item.Barrier 20]) ∧
    ((run demoSink cancelledEmit (State.init demoSink)).returns
        = [.EmitRowChangedEvents [demoRow 10 0, demoRow 11 1] (some .Canceled),
           .FlushRowChangedEvents 15 15 none] ∧
      demoSink.Dispatch (demoRow 11 1) = 1 ∧
      sentRows 1 (run demoSink cancelledEmit (State.init demoSink)).producerLog = [] ∧
      (run demoSink cancelledEmit (State.init demoSink)).partitionInput 1 = []) ∧
    ((run demoSink zeroCommitTs (State.init demoSink)).returns
        = [.EmitRowChangedEvents [demoRow 0 0] none,
           .FlushRowChangedEvents 0 0 none] ∧
      demoSink.Dispatch (demoRow 0 0) = 0 ∧
      (run demoSink zeroCommitTs (State.init demoSink)).producerLog = [] ∧
      (run demoSink zeroCommitTs (State.init demoSink)).partitionInput 0
        = [Item.Row (demoRow 0 0)]) := by
  decide

/-- C2, amended. On a trace of a fresh sink that keeps the upstream contract (every row
passed to `EmitRowChangedEvents` has a `CommitTs` above `0`, the `checkpointTs` of a fresh
sink, and above the `resolvedTs` of every `FlushRowChangedEvents` called before), with
calls, cancellations, producer failures and worker iterations in any order: when a step
makes a `FlushRowChangedEvents(ts)` return `(ts, nil)`, then for every partition `p` the
rows with `Dispatch = p` and `CommitTs ≤ ts` of the `EmitRowChangedEvents` calls that
returned `nil` before, leaving
out the rows the filter ignores, are, in order and with their multiplicity, among the rows
of the batches handed to `Producer.SendMessage` on partition `p` before that step; every
such row has a partition; and the step is the call itself, which touches no producer, or
the return of the call's `Producer.Flush`, which comes after those `SendMessage` calls in
the log of the producer. -/
theorem barrier_completeness {σ : Type} (k : mqSink σ) (ls : List Label) (l : Label) (ts : Nat)
    (hd : Disciplined 0 ls)
    (hret : (step k l (run k ls (State.init k))).returns
      = (run k ls (State.init k)).returns ++ [.FlushRowChangedEvents ts ts none]) :
    (∀ p, p < k.partitionNum →
      ((acceptedRows k (run k ls (State.init k)).returns).filter fun row =>
          decide (k.Dispatch row = (p : Int)) && decide (row.CommitTs ≤ ts)).Sublist
        (sentRows p (run k ls (State.init k)).producerLog)) ∧
    (∀ row ∈ acceptedRows k (run k ls (State.init k)).returns,
      0 ≤ k.Dispatch row ∧ k.Dispatch row < k.partitionNum) ∧
    ((step k l (run k ls (State.init k))).producerLog = (run k ls (State.init k)).producerLog ∨
      (step k l (run k ls (State.init k))).producerLog
        = (run k ls (State.init k)).producerLog ++ [⟨.Flush, []⟩]) := by
  obtain ⟨g, h⟩ := FlowInv_run k ls (State.init k) 0 (FlowInv_init k) hd
  obtain ⟨done, hdone, -⟩ := h.accepted
  have hacc : (acceptedRows k (run k ls (State.init k)).returns).Sublist
      (run k ls (State.init k)).emitted := (List.sublist_append_left _ _).trans hdone
  have hcov : ∀ p, p < k.partitionNum → Covered k p ts (run k ls (State.init k)) := by
    intro p hp
    rcases flush_return_cases k l _ ts hret with ⟨hcp, -⟩ | ⟨hc, -⟩
    · rw [← hcp]; exact h.checkpoint p hp
    · exact h.flushed ts hc p hp
  refine ⟨fun p hp => Covered_sublist k _ p ts _ (hcov p hp) hacc, ?_, ?_⟩
  · intro row hrow
    exact h.inrange row (hacc.subset hrow)
  · rcases flush_return_cases k l _ ts hret with ⟨-, hl⟩ | ⟨-, hl⟩
    · exact Or.inl hl
    · exact Or.inr hl

/-- In `smallFlush` the return of `Producer.Flush` makes `Flush(15)` return `(15, nil)`;
before it, the rows with `CommitTs` `10` and `12` were handed to `SendMessage` on
partition `0` and the row with `CommitTs` `11` on partition `1`. -/
theorem barrier_completeness_witness :
    sentRows 0 (run demoSink smallFlushBefore (State.init demoSink)).producerLog
        = [demoRow 10 0, demoRow 12 0] ∧
      sentRows 1 (run demoSink smallFlushBefore (State.init demoSink)).producerLog
        = [demoRow 11 1] ∧
      ∀ p, p < demoSink.partitionNum →
        ((acceptedRows demoSink (run demoSink smallFlushBefore (State.init demoSink)).returns).filter
          fun row => decide (demoSink.Dispatch row = (p : Int)) && decide (row.CommitTs ≤ 15)).Sublist
          (sentRows p (run demoSink smallFlushBefore (State.init demoSink)).producerLog) :=
  ⟨by decide, by decide,
    (barrier_completeness demoSink smallFlushBefore (.caller (.producerFlush none)) 15
      (by simp [smallFlushBefore, smallFlush, Disciplined, demoRow]) (by decide)).1⟩
end MqSink
